import Mathlib

/-
  Verification of the incremental Gauss-Jordan engine of kodo's
  linear_block_decoder (linear block erasure-coding decoder).

  The decoder state holds, for each of the k slots, a coefficient row V[i]
  (length k) and a payload row S[i] (length m), together with the occupancy
  bitsets `uncoded`/`coded`, the current `rank` and `max_pivot`.

  Field elements are modelled by an arbitrary `Field F`.  The compile-time
  fifi `is_binary` flag is modelled by a `Bool` parameter `bin`: when `bin`
  is true the row operations use plain subtraction (the XOR fast path, since
  in a characteristic-2 field with only 0 and 1 subtraction is XOR), and
  normalization is skipped.  Theorems that cover the binary path carry the
  hypothesis `BinOk F bin`, stating that the flag is only set for a field
  whose non-zero elements are all 1 (i.e. GF(2)), which is what
  `fifi::is_binary` guarantees in the source.
-/

namespace Kodo

/-- Decoder state: rank, maximum pivot, occupancy bitsets and the stored
coefficient rows `V` and payload rows `S` (mirrors the member variables
`m_rank`, `m_maximum_pivot`, `m_uncoded`, `m_coded` plus the row storage
accessed through `SuperCoder::vector`/`SuperCoder::symbol`). -/
structure State (F : Type) (k m : ℕ) where
  rank : ℕ
  max_pivot : ℕ
  uncoded : Fin k → Bool
  coded : Fin k → Bool
  V : Fin k → Fin k → F
  S : Fin k → Fin m → F

variable {F : Type} [Field F] [DecidableEq F] {k m : ℕ}

/-- The row operation used by the elimination loops: in the binary path a
plain row subtraction (`SuperCoder::subtract`), otherwise the fused
`SuperCoder::multiply_subtract` with coefficient `c`. -/
def rowSub {α : Type} (bin : Bool) (x y : α → F) (c : F) : α → F :=
  fun j => x j - (if bin then y j else c * y j)

/-- Source `symbol_exists`: slot `i` holds a (partially) decoded symbol. -/
def symbol_exists (s : State F k m) (i : Fin k) : Bool :=
  s.coded i || s.uncoded i

/-- Loop body of `forward_substitute_to_pivot`: scan the given columns in
order; at a non-zero coefficient of an occupied slot subtract the stored row,
at a non-zero coefficient of an empty slot stop and report the pivot. -/
def fstpGo (bin : Bool) (s : State F k m) :
    List (Fin k) → (Fin k → F) → (Fin m → F) →
    Option (Fin k) × (Fin k → F) × (Fin m → F)
  | [], sv, sd => (none, sv, sd)
  | i :: rest, sv, sd =>
      if sv i = 0 then fstpGo bin s rest sv sd
      else if symbol_exists s i then
        fstpGo bin s rest (rowSub bin sv (s.V i) (sv i))
          (rowSub bin sd (s.S i) (sv i))
      else (some i, sv, sd)

/-- Source `forward_substitute_to_pivot`: scan all columns `0,…,k-1`. -/
def forward_substitute_to_pivot (bin : Bool) (s : State F k m)
    (sv : Fin k → F) (sd : Fin m → F) :
    Option (Fin k) × (Fin k → F) × (Fin m → F) :=
  fstpGo bin s (List.finRange k) sv sd

/-- Source `normalize`: multiply both buffers by the inverse of the
coefficient found at the pivot position. -/
def normalize (sv : Fin k → F) (sd : Fin m → F) (p : Fin k) :
    (Fin k → F) × (Fin m → F) :=
  let ic := (sv p)⁻¹
  (fun j => ic * sv j, fun t => ic * sd t)

/-- Loop body of `forward_substitute_from_pivot`: same elimination step as
the pivot scan, but empty slots are skipped instead of stopping. -/
def fsfpGo (bin : Bool) (s : State F k m) :
    List (Fin k) → (Fin k → F) → (Fin m → F) →
    (Fin k → F) × (Fin m → F)
  | [], sv, sd => (sv, sd)
  | i :: rest, sv, sd =>
      if sv i = 0 then fsfpGo bin s rest sv sd
      else if symbol_exists s i then
        fsfpGo bin s rest (rowSub bin sv (s.V i) (sv i))
          (rowSub bin sd (s.S i) (sv i))
      else fsfpGo bin s rest sv sd

/-- The columns `pivot+1 … m_maximum_pivot` scanned by
`forward_substitute_from_pivot`, in ascending order. -/
def pastPivotList (s : State F k m) (p : Fin k) : List (Fin k) :=
  (List.finRange k).filter (fun i => decide (p.val < i.val ∧ i.val ≤ s.max_pivot))

/-- Source `forward_substitute_from_pivot`. -/
def forward_substitute_from_pivot (bin : Bool) (s : State F k m) (p : Fin k)
    (sv : Fin k → F) (sd : Fin m → F) : (Fin k → F) × (Fin m → F) :=
  fsfpGo bin s (pastPivotList s p) sv sd

/-- Loop body of `backward_substitute`: for every coded row (other than the
pivot row) with a non-zero coefficient in the pivot column, subtract the new
row from it. -/
def bsubGo (bin : Bool) (unc cod : Fin k → Bool) (sv : Fin k → F)
    (sd : Fin m → F) (p : Fin k) :
    List (Fin k) → (Fin k → Fin k → F) → (Fin k → Fin m → F) →
    (Fin k → Fin k → F) × (Fin k → Fin m → F)
  | [], V, S => (V, S)
  | i :: rest, V, S =>
      if unc i then bsubGo bin unc cod sv sd p rest V S
      else if i = p then bsubGo bin unc cod sv sd p rest V S
      else if cod i then
        if V i p = 0 then bsubGo bin unc cod sv sd p rest V S
        else bsubGo bin unc cod sv sd p rest
          (Function.update V i (rowSub bin (V i) sv (V i p)))
          (Function.update S i (rowSub bin (S i) sd (V i p)))
      else bsubGo bin unc cod sv sd p rest V S

/-- The columns `0 … m_maximum_pivot` scanned by `backward_substitute`. -/
def upToMaxList (s : State F k m) : List (Fin k) :=
  (List.finRange k).filter (fun i => decide (i.val ≤ s.max_pivot))

/-- Source `backward_substitute`: subtract the freshly found row with pivot
`p` from every previously stored coded row that still has a non-zero
coefficient in column `p`. -/
def backward_substitute (bin : Bool) (s : State F k m)
    (sv : Fin k → F) (sd : Fin m → F) (p : Fin k) : State F k m :=
  let r := bsubGo bin s.uncoded s.coded sv sd p (upToMaxList s) s.V s.S
  { s with V := r.1, S := r.2 }

/-- Source `store_coded_symbol`: copy the working buffers into slot `p`. -/
def store_coded_symbol (s : State F k m) (sv : Fin k → F) (sd : Fin m → F)
    (p : Fin k) : State F k m :=
  { s with V := Function.update s.V p sv, S := Function.update s.S p sd }

/-- Source `store_uncoded_symbol`: copy the payload into slot `p` and set
the single coefficient at column `p` to 1 (the rest of the row is NOT
cleared by this function). -/
def store_uncoded_symbol (s : State F k m) (sd : Fin m → F) (p : Fin k) :
    State F k m :=
  { s with S := Function.update s.S p sd,
           V := Function.update s.V p (Function.update (s.V p) p 1) }

/-- The pivot-found continuation of `decode_with_vector`: normalize (in
non-binary fields), forward-substitute past the pivot, backward-substitute
into the stored rows, store the new row, bump rank, mark the slot coded and
update the maximum pivot. -/
def dwvPivot (bin : Bool) (s : State F k m) (sv1 : Fin k → F)
    (sd1 : Fin m → F) (p : Fin k) : State F k m :=
  let pr2 := if bin then (sv1, sd1) else normalize sv1 sd1 p
  let pr3 := forward_substitute_from_pivot bin s p pr2.1 pr2.2
  let s1 := backward_substitute bin s pr3.1 pr3.2 p
  let s2 := store_coded_symbol s1 pr3.1 pr3.2 p
  { s2 with rank := s2.rank + 1,
            coded := Function.update s2.coded p true,
            max_pivot := if s2.max_pivot < p.val then p.val
                         else s2.max_pivot }

/-- Source `decode_with_vector`: the coded-packet algorithm.  If the pivot
scan finds no pivot the call returns with the decoder unchanged, otherwise
the pivot continuation runs on the transformed buffers. -/
def decode_with_vector (bin : Bool) (s : State F k m)
    (sv : Fin k → F) (sd : Fin m → F) : State F k m :=
  match (forward_substitute_to_pivot bin s sv sd).1 with
  | none => s
  | some p =>
      dwvPivot bin s (forward_substitute_to_pivot bin s sv sd).2.1
        (forward_substitute_to_pivot bin s sv sd).2.2 p

/-- Source `decode`: absorb a coded packet (the public entry point just
reinterprets the byte buffers and calls `decode_with_vector`). -/
def decode (bin : Bool) (s : State F k m) (sv : Fin k → F)
    (sd : Fin m → F) : State F k m :=
  decode_with_vector bin s sv sd

/-- Source `swap_decode`: a raw symbol arrives at a slot occupied by a coded
row.  Clear the coded bit, remove the pivot coefficient, subtract the raw
symbol from the stored payload, re-absorb the resulting row through the
coded-packet algorithm, then zero the slot's coefficient row and store the
raw symbol as uncoded. -/
def swap_decode (bin : Bool) (s : State F k m) (sd : Fin m → F)
    (i : Fin k) : State F k m :=
  let vi := Function.update (s.V i) i 0
  let si := fun t => s.S i t - sd t
  let s1 : State F k m :=
    { s with coded := Function.update s.coded i false,
             V := Function.update s.V i vi,
             S := Function.update s.S i si }
  let s2 := decode_with_vector bin s1 vi si
  let s3 : State F k m := { s2 with V := Function.update s2.V i (fun _ => 0) }
  let s4 := store_uncoded_symbol s3 sd i
  { s4 with uncoded := Function.update s4.uncoded i true }

/-- Source `decode_raw`: absorb a systematic (raw) symbol with known index. -/
def decode_raw (bin : Bool) (s : State F k m) (sd : Fin m → F)
    (i : Fin k) : State F k m :=
  if s.uncoded i then s
  else if s.coded i then swap_decode bin s sd i
  else
    let s1 := store_uncoded_symbol s sd i
    let s2 := backward_substitute bin s1 (s1.V i) sd i
    { s2 with rank := s2.rank + 1,
              uncoded := Function.update s2.uncoded i true,
              max_pivot := if s2.max_pivot < i.val then i.val
                           else s2.max_pivot }

/-- Freshly initialized decoder.  The bitsets, rank and maximum pivot are
reset by `linear_block_decoder::initialize`; the payload rows are zeroed by
`deep_symbol_storage::initialize`.  Modelled from the spec: the zeroing of
the coefficient rows is performed by the coefficient-storage layer, which is
not among the provided sources; the spec (§3, Decoder lifecycle) states that
re-initialization resets the rows to zero. -/
def init_decoder (F : Type) [Field F] (k m : ℕ) : State F k m :=
  { rank := 0, max_pivot := 0,
    uncoded := fun _ => false, coded := fun _ => false,
    V := fun _ _ => 0, S := fun _ _ => 0 }

/-- Source `is_complete`: the block is fully decoded when `rank = k`. -/
def is_complete (s : State F k m) : Bool :=
  s.rank == k

/-! ### Invariants and auxiliary predicates -/

/-- Contract of the fifi `is_binary` flag: it is only set for a field whose
non-zero elements all equal 1 (GF(2)), so that plain row subtraction agrees
with the fused multiply-subtract for every non-zero coefficient. -/
def BinOk (F : Type) [Field F] (bin : Bool) : Prop :=
  bin = true → ∀ c : F, c ≠ 0 → c = 1

/-- The elementary coefficient row with a 1 at column `i`. -/
def unitRow (F : Type) [Field F] {k : ℕ} (i : Fin k) : Fin k → F :=
  fun j => if j = i then 1 else 0

/-- Number of occupied slots. -/
def occupiedCard (s : State F k m) : ℕ :=
  (Finset.univ.filter (fun i => symbol_exists s i = true)).card

/-- INV-2: the rank counts the occupied slots. -/
def RankEq (s : State F k m) : Prop :=
  s.rank = occupiedCard s

/-- INV-1 (exclusivity): no slot is both uncoded and coded. -/
def NotBoth (s : State F k m) : Prop :=
  ∀ i, ¬(s.uncoded i = true ∧ s.coded i = true)

/-- INV-3 (bound part): every occupied slot index is at most `max_pivot`. -/
def MaxPivotBound (s : State F k m) : Prop :=
  ∀ i, symbol_exists s i = true → i.val ≤ s.max_pivot

/-- INV-1 for uncoded slots: the coefficient row is the elementary row. -/
def ShapeUnc (s : State F k m) : Prop :=
  ∀ i, s.uncoded i = true → s.V i i = 1 ∧ ∀ j, j ≠ i → s.V i j = 0

/-- INV-1/INV-4 for coded slots: unit pivot coefficient, zero in every
column below the pivot, and zero in every other occupied column. -/
def ShapeCod (s : State F k m) : Prop :=
  ∀ i, s.coded i = true → s.V i i = 1 ∧
    (∀ j : Fin k, j.val < i.val → s.V i j = 0) ∧
    (∀ j, symbol_exists s j = true → j ≠ i → s.V i j = 0)

/-- Unoccupied slots keep an all-zero coefficient row. -/
def EmptyZero (s : State F k m) : Prop :=
  ∀ i, symbol_exists s i = false → ∀ j, s.V i j = 0

/-- The decoder representation invariant. -/
def Inv (s : State F k m) : Prop :=
  RankEq s ∧ NotBoth s ∧ MaxPivotBound s ∧ ShapeUnc s ∧ ShapeCod s ∧
    EmptyZero s

/-- Every occupied row has a unit diagonal and zeros below it. -/
def LowerShape (s : State F k m) : Prop :=
  ∀ i, symbol_exists s i = true →
    s.V i i = 1 ∧ ∀ j : Fin k, j.val < i.val → s.V i j = 0

/-- Every occupied row is zero at every other occupied column. -/
def ReducedShape (s : State F k m) : Prop :=
  ∀ i, symbol_exists s i = true →
    ∀ j, symbol_exists s j = true → j ≠ i → s.V i j = 0

/-- The stored payload rows encode the source symbols through the stored
coefficient rows. -/
def Consistent (src : Fin k → Fin m → F) (s : State F k m) : Prop :=
  ∀ i, symbol_exists s i = true → ∀ t, s.S i t = ∑ j, s.V i j * src j t

instance instDecBinOk [Fintype F] (bin : Bool) : Decidable (BinOk F bin) :=
  decidable_of_iff (bin = true → ∀ c : F, c ≠ 0 → c = 1) Iff.rfl

instance instDecRankEq (s : State F k m) : Decidable (RankEq s) :=
  decidable_of_iff (s.rank = occupiedCard s) Iff.rfl

instance instDecNotBoth (s : State F k m) : Decidable (NotBoth s) :=
  decidable_of_iff (∀ i, ¬(s.uncoded i = true ∧ s.coded i = true)) Iff.rfl

instance instDecMaxPivotBound (s : State F k m) :
    Decidable (MaxPivotBound s) :=
  decidable_of_iff (∀ i, symbol_exists s i = true → i.val ≤ s.max_pivot)
    Iff.rfl

instance instDecShapeUnc (s : State F k m) : Decidable (ShapeUnc s) :=
  decidable_of_iff
    (∀ i, s.uncoded i = true → s.V i i = 1 ∧ ∀ j, j ≠ i → s.V i j = 0)
    Iff.rfl

instance instDecShapeCod (s : State F k m) : Decidable (ShapeCod s) :=
  decidable_of_iff
    (∀ i, s.coded i = true → s.V i i = 1 ∧
      (∀ j : Fin k, j.val < i.val → s.V i j = 0) ∧
      (∀ j, symbol_exists s j = true → j ≠ i → s.V i j = 0))
    Iff.rfl

instance instDecEmptyZero (s : State F k m) : Decidable (EmptyZero s) :=
  decidable_of_iff (∀ i, symbol_exists s i = false → ∀ j, s.V i j = 0)
    Iff.rfl

instance instDecInv (s : State F k m) : Decidable (Inv s) :=
  decidable_of_iff (RankEq s ∧ NotBoth s ∧ MaxPivotBound s ∧ ShapeUnc s ∧
    ShapeCod s ∧ EmptyZero s) Iff.rfl

instance instDecConsistent (src : Fin k → Fin m → F) (s : State F k m) :
    Decidable (Consistent src s) :=
  decidable_of_iff
    (∀ i, symbol_exists s i = true → ∀ t, s.S i t = ∑ j, s.V i j * src j t)
    Iff.rfl

lemma lowerShape_of_inv {s : State F k m} (hu : ShapeUnc s) (hc : ShapeCod s) :
    LowerShape s := by
  intro i hi
  rcases Bool.or_eq_true_iff.mp hi with h | h
  · exact ⟨(hc i h).1, (hc i h).2.1⟩
  · refine ⟨(hu i h).1, fun j hj => (hu i h).2 j ?_⟩
    exact fun e => absurd (congrArg Fin.val e) (Nat.ne_of_lt hj)

lemma reducedShape_of_inv {s : State F k m} (hu : ShapeUnc s) (hc : ShapeCod s) :
    ReducedShape s := by
  intro i hi j hj hne
  rcases Bool.or_eq_true_iff.mp hi with h | h
  · exact (hc i h).2.2 j hj hne
  · exact (hu i h).2 j hne

lemma rowSub_apply {α : Type} {bin : Bool} (hb : BinOk F bin) {c : F}
    (hc : c ≠ 0) (x y : α → F) (j : α) :
    rowSub bin x y c j = x j - c * y j := by
  cases bin with
  | false => rfl
  | true =>
      have h1 : c = 1 := hb rfl c hc
      simp [rowSub, h1]

lemma sum_single_mul (i : Fin k) (γ : F) (g : Fin k → F) :
    (∑ j, (if j = i then γ else 0) * g j) = γ * g i := by
  rw [Finset.sum_eq_single i]
  · simp
  · intro b _ hbi; simp [hbi]
  · intro h; exact absurd (Finset.mem_univ i) h

lemma sum_if_single (i : Fin k) (γ δ : F) :
    (∑ j, (if j = i then γ else 0) * δ) = γ * δ := by
  rw [Finset.sum_eq_single i]
  · simp
  · intro b _ hbi; simp [hbi]
  · intro h; exact absurd (Finset.mem_univ i) h

/-- Evaluating a combination of occupied rows at an occupied column gives
back the coefficient of that column's row. -/
lemma eval_comb_occupied {s : State F k m}
    (hsh : LowerShape s) (hred : ReducedShape s)
    (d : Fin k → F) (hd : ∀ j, d j ≠ 0 → symbol_exists s j = true)
    (q : Fin k) (hq : symbol_exists s q = true) :
    (∑ j, d j * s.V j q) = d q := by
  rw [Finset.sum_eq_single q]
  · rw [(hsh q hq).1, mul_one]
  · intro b _ hbq
    by_cases hb0 : d b = 0
    · simp [hb0]
    · rw [hred b (hd b hb0) q hq (Ne.symm hbq), mul_zero]
  · intro h; exact absurd (Finset.mem_univ q) h

/-! ### Forward substitution to the pivot -/

/-- Whenever the pivot scan reports a pivot, the slot is empty and the
residual coefficient there — the value later handed to `normalize` and
inverted — is non-zero. -/
lemma fstpGo_some (bin : Bool) (s : State F k m) :
    ∀ (L : List (Fin k)) (sv : Fin k → F) (sd : Fin m → F) (p : Fin k),
      (fstpGo bin s L sv sd).1 = some p →
      symbol_exists s p = false ∧ (fstpGo bin s L sv sd).2.1 p ≠ 0 := by
  intro L
  induction L with
  | nil => intro sv sd p h; simp [fstpGo] at h
  | cons i rest ih =>
      intro sv sd p h
      by_cases h0 : sv i = 0
      · rw [fstpGo, if_pos h0] at h ⊢; exact ih _ _ p h
      · by_cases hex : symbol_exists s i
        · rw [fstpGo, if_neg h0, if_pos hex] at h ⊢; exact ih _ _ p h
        · rw [fstpGo, if_neg h0, if_neg hex] at h ⊢
          cases h
          exact ⟨Bool.not_eq_true _ ▸ hex, h0⟩

/-- Pivot-scan residual bookkeeping: when a pivot `p` is found, every column
before `p` of the residual vector is zero; when no pivot is found, the whole
residual vector is zero. -/
lemma fstpGo_main {bin : Bool} {s : State F k m} (hb : BinOk F bin)
    (hsh : LowerShape s) :
    ∀ (L : List (Fin k)) (sv : Fin k → F) (sd : Fin m → F),
      L.Pairwise (fun a b => a.val < b.val) →
      (∀ j, j ∉ L → sv j = 0 ∧ ∀ a ∈ L, j.val < a.val) →
      (∀ p, (fstpGo bin s L sv sd).1 = some p →
        ∀ j : Fin k, j.val < p.val → (fstpGo bin s L sv sd).2.1 j = 0) ∧
      ((fstpGo bin s L sv sd).1 = none →
        ∀ j, (fstpGo bin s L sv sd).2.1 j = 0) := by
  intro L
  induction L with
  | nil =>
      intro sv sd _ hout
      refine ⟨fun p h => by simp [fstpGo] at h, fun _ j => ?_⟩
      exact (hout j (List.not_mem_nil j)).1
  | cons i rest ih =>
      intro sv sd hpair hout
      have hpair' := List.Pairwise.of_cons hpair
      have hhead : ∀ a ∈ rest, i.val < a.val :=
        fun a ha => List.rel_of_pairwise_cons hpair ha
      by_cases h0 : sv i = 0
      · have hout' : ∀ j, j ∉ rest → sv j = 0 ∧ ∀ a ∈ rest, j.val < a.val := by
          intro j hj
          by_cases hjL : j ∈ i :: rest
          · have : j = i := by
              rcases List.mem_cons.mp hjL with h | h
              · exact h
              · exact absurd h hj
            subst this
            exact ⟨h0, hhead⟩
          · rcases hout j hjL with ⟨hz, hlt⟩
            exact ⟨hz, fun a ha => hlt a (List.mem_cons_of_mem i ha)⟩
        rw [fstpGo, if_pos h0]
        exact ih _ _ hpair' hout'
      · by_cases hex : symbol_exists s i
        · set sv' := rowSub bin sv (s.V i) (sv i) with hsv'
          have happ : ∀ j, sv' j = sv j - sv i * s.V i j :=
            fun j => rowSub_apply hb h0 sv (s.V i) j
          have hout' : ∀ j, j ∉ rest → sv' j = 0 ∧ ∀ a ∈ rest, j.val < a.val := by
            intro j hj
            by_cases hjL : j ∈ i :: rest
            · have hji : j = i := by
                rcases List.mem_cons.mp hjL with h | h
                · exact h
                · exact absurd h hj
              subst hji
              constructor
              · rw [happ, (hsh j hex).1, mul_one, sub_self]
              · exact hhead
            · rcases hout j hjL with ⟨hz, hlt⟩
              have hji : j.val < i.val := hlt i (List.mem_cons_self i rest)
              constructor
              · rw [happ, hz, (hsh i hex).2 j hji, mul_zero, sub_zero]
              · exact fun a ha => hlt a (List.mem_cons_of_mem i ha)
          rw [fstpGo, if_neg h0, if_pos hex]
          exact ih _ _ hpair' hout'
        · rw [fstpGo, if_neg h0, if_neg hex]
          refine ⟨fun p h => ?_, fun h => by cases h⟩
          cases h
          intro j hj
          have hjL : j ∉ i :: rest := by
            intro hmem
            rcases List.mem_cons.mp hmem with h | h
            · exact absurd (congrArg Fin.val h) (Nat.ne_of_lt hj)
            · exact absurd hj (Nat.not_lt_of_gt (hhead j h))
          exact (hout j hjL).1

/-- The pivot scan only subtracts stored occupied rows from the working
buffers: the result differs from the input by a combination of occupied
rows, with the same coefficients on the coefficient and payload sides. -/
lemma fstpGo_sub {bin : Bool} (hb : BinOk F bin) (s : State F k m) :
    ∀ (L : List (Fin k)) (sv : Fin k → F) (sd : Fin m → F),
      ∃ c : Fin k → F, (∀ j, c j ≠ 0 → symbol_exists s j = true) ∧
        (∀ u, (fstpGo bin s L sv sd).2.1 u = sv u - ∑ j, c j * s.V j u) ∧
        (∀ t, (fstpGo bin s L sv sd).2.2 t = sd t - ∑ j, c j * s.S j t) := by
  intro L
  induction L with
  | nil =>
      intro sv sd
      exact ⟨fun _ => 0, fun j h => absurd rfl h, by simp [fstpGo],
        by simp [fstpGo]⟩
  | cons i rest ih =>
      intro sv sd
      by_cases h0 : sv i = 0
      · rw [fstpGo, if_pos h0]; exact ih _ _
      · by_cases hex : symbol_exists s i
        · rw [fstpGo, if_neg h0, if_pos hex]
          rcases ih (rowSub bin sv (s.V i) (sv i))
            (rowSub bin sd (s.S i) (sv i)) with ⟨c, hsupp, hV, hS⟩
          refine ⟨fun j => c j + (if j = i then sv i else 0), ?_, ?_, ?_⟩
          · intro j hj
            by_cases hji : j = i
            · subst hji; exact hex
            · simp only [if_neg hji, add_zero] at hj
              exact hsupp j hj
          · intro u
            rw [hV u, rowSub_apply hb h0]
            have : (∑ j, (c j + if j = i then sv i else 0) * s.V j u)
                = (∑ j, c j * s.V j u) + sv i * s.V i u := by
              rw [← sum_single_mul i (sv i) (fun j => s.V j u),
                ← Finset.sum_add_distrib]
              exact Finset.sum_congr rfl (fun j _ => by ring)
            rw [this]; ring
          · intro t
            rw [hS t, rowSub_apply hb h0]
            have : (∑ j, (c j + if j = i then sv i else 0) * s.S j t)
                = (∑ j, c j * s.S j t) + sv i * s.S i t := by
              rw [← sum_single_mul i (sv i) (fun j => s.S j t),
                ← Finset.sum_add_distrib]
              exact Finset.sum_congr rfl (fun j _ => by ring)
            rw [this]; ring
        · rw [fstpGo, if_neg h0, if_neg hex]
          exact ⟨fun _ => 0, fun j h => absurd rfl h, by simp, by simp⟩

/-- If the working coefficient vector is zero on all columns up to `i0` and
the stored rows satisfy the lower-triangular shape, a pivot reported by the
scan lies strictly beyond `i0`. -/
lemma fstpGo_pivot_gt {bin : Bool} {s : State F k m} (hb : BinOk F bin)
    (hsh : LowerShape s) (i0 : Fin k) :
    ∀ (L : List (Fin k)) (sv : Fin k → F) (sd : Fin m → F),
      (∀ j : Fin k, j.val ≤ i0.val → sv j = 0) →
      ∀ p, (fstpGo bin s L sv sd).1 = some p → i0.val < p.val := by
  intro L
  induction L with
  | nil => intro sv sd _ p h; simp [fstpGo] at h
  | cons i rest ih =>
      intro sv sd hz p h
      by_cases h0 : sv i = 0
      · rw [fstpGo, if_pos h0] at h; exact ih _ _ hz p h
      · have higt : i0.val < i.val := by
          by_contra hle
          exact h0 (hz i (Nat.le_of_not_lt hle))
        by_cases hex : symbol_exists s i
        · rw [fstpGo, if_neg h0, if_pos hex] at h
          refine ih _ _ ?_ p h
          intro j hj
          rw [rowSub_apply hb h0, hz j hj,
            (hsh i hex).2 j (Nat.lt_of_le_of_lt hj higt), mul_zero, sub_zero]
        · rw [fstpGo, if_neg h0, if_neg hex] at h
          cases h
          exact higt

/-! ### Forward substitution past the pivot -/

/-- Reduction past the pivot: columns up to the pivot are untouched, and at
the end every occupied column in `(p, max_pivot]` holds a zero. -/
lemma fsfpGo_main {bin : Bool} {s : State F k m} (hb : BinOk F bin)
    (hsh : LowerShape s) (p : Fin k) :
    ∀ (L : List (Fin k)) (sv : Fin k → F) (sd : Fin m → F),
      L.Pairwise (fun a b => a.val < b.val) →
      (∀ a ∈ L, p.val < a.val ∧ a.val ≤ s.max_pivot) →
      (∀ j : Fin k, p.val < j.val → j.val ≤ s.max_pivot → j ∉ L →
        (symbol_exists s j = true → sv j = 0) ∧ ∀ a ∈ L, j.val < a.val) →
      (∀ j : Fin k, j.val ≤ p.val → (fsfpGo bin s L sv sd).1 j = sv j) ∧
      (∀ j : Fin k, symbol_exists s j = true → p.val < j.val →
        j.val ≤ s.max_pivot → (fsfpGo bin s L sv sd).1 j = 0) := by
  intro L
  induction L with
  | nil =>
      intro sv sd _ _ hout
      refine ⟨fun j _ => rfl, fun j hex hpj hjm => ?_⟩
      exact ((hout j hpj hjm (List.not_mem_nil j)).1) hex
  | cons i rest ih =>
      intro sv sd hpair hrange hout
      have hpair' := List.Pairwise.of_cons hpair
      have hhead : ∀ a ∈ rest, i.val < a.val :=
        fun a ha => List.rel_of_pairwise_cons hpair ha
      have hrange' : ∀ a ∈ rest, p.val < a.val ∧ a.val ≤ s.max_pivot :=
        fun a ha => hrange a (List.mem_cons_of_mem i ha)
      have hirange := hrange i (List.mem_cons_self i rest)
      by_cases h0 : sv i = 0
      · have hout' : ∀ j : Fin k, p.val < j.val → j.val ≤ s.max_pivot →
            j ∉ rest → (symbol_exists s j = true → sv j = 0) ∧
            ∀ a ∈ rest, j.val < a.val := by
          intro j hpj hjm hj
          by_cases hjL : j ∈ i :: rest
          · have hji : j = i := by
              rcases List.mem_cons.mp hjL with h | h
              · exact h
              · exact absurd h hj
            subst hji
            exact ⟨fun _ => h0, hhead⟩
          · rcases hout j hpj hjm hjL with ⟨hz, hlt⟩
            exact ⟨hz, fun a ha => hlt a (List.mem_cons_of_mem i ha)⟩
        rw [fsfpGo, if_pos h0]
        exact ih _ _ hpair' hrange' hout'
      · by_cases hex : symbol_exists s i
        · set sv' := rowSub bin sv (s.V i) (sv i) with hsv'
          have happ : ∀ j, sv' j = sv j - sv i * s.V i j :=
            fun j => rowSub_apply hb h0 sv (s.V i) j
          have hout' : ∀ j : Fin k, p.val < j.val → j.val ≤ s.max_pivot →
              j ∉ rest → (symbol_exists s j = true → sv' j = 0) ∧
              ∀ a ∈ rest, j.val < a.val := by
            intro j hpj hjm hj
            by_cases hjL : j ∈ i :: rest
            · have hji : j = i := by
                rcases List.mem_cons.mp hjL with h | h
                · exact h
                · exact absurd h hj
              subst hji
              refine ⟨fun _ => ?_, hhead⟩
              rw [happ, (hsh j hex).1, mul_one, sub_self]
            · rcases hout j hpj hjm hjL with ⟨hz, hlt⟩
              have hji : j.val < i.val := hlt i (List.mem_cons_self i rest)
              refine ⟨fun hocc => ?_, fun a ha => hlt a (List.mem_cons_of_mem i ha)⟩
              rw [happ, hz hocc, (hsh i hex).2 j hji, mul_zero, sub_zero]
          rw [fsfpGo, if_neg h0, if_pos hex]
          rcases ih _ _ hpair' hrange' hout' with ⟨h1, h2⟩
          refine ⟨fun j hj => ?_, h2⟩
          rw [h1 j hj, happ,
            (hsh i hex).2 j (Nat.lt_of_le_of_lt hj hirange.1), mul_zero,
            sub_zero]
        · have hout' : ∀ j : Fin k, p.val < j.val → j.val ≤ s.max_pivot →
              j ∉ rest → (symbol_exists s j = true → sv j = 0) ∧
              ∀ a ∈ rest, j.val < a.val := by
            intro j hpj hjm hj
            by_cases hjL : j ∈ i :: rest
            · have hji : j = i := by
                rcases List.mem_cons.mp hjL with h | h
                · exact h
                · exact absurd h hj
              subst hji
              exact ⟨fun hocc => absurd hocc (by simp [hex]), hhead⟩
            · rcases hout j hpj hjm hjL with ⟨hz, hlt⟩
              exact ⟨hz, fun a ha => hlt a (List.mem_cons_of_mem i ha)⟩
          rw [fsfpGo, if_neg h0, if_neg hex]
          exact ih _ _ hpair' hrange' hout'

/-- The past-pivot reduction also only subtracts occupied rows, with shared
coefficients on the coefficient and payload sides. -/
lemma fsfpGo_sub {bin : Bool} (hb : BinOk F bin) (s : State F k m) :
    ∀ (L : List (Fin k)) (sv : Fin k → F) (sd : Fin m → F),
      ∃ c : Fin k → F, (∀ j, c j ≠ 0 → symbol_exists s j = true) ∧
        (∀ u, (fsfpGo bin s L sv sd).1 u = sv u - ∑ j, c j * s.V j u) ∧
        (∀ t, (fsfpGo bin s L sv sd).2 t = sd t - ∑ j, c j * s.S j t) := by
  intro L
  induction L with
  | nil =>
      intro sv sd
      exact ⟨fun _ => 0, fun j h => absurd rfl h, by simp [fsfpGo],
        by simp [fsfpGo]⟩
  | cons i rest ih =>
      intro sv sd
      by_cases h0 : sv i = 0
      · rw [fsfpGo, if_pos h0]; exact ih _ _
      · by_cases hex : symbol_exists s i
        · rw [fsfpGo, if_neg h0, if_pos hex]
          rcases ih (rowSub bin sv (s.V i) (sv i))
            (rowSub bin sd (s.S i) (sv i)) with ⟨c, hsupp, hV, hS⟩
          refine ⟨fun j => c j + (if j = i then sv i else 0), ?_, ?_, ?_⟩
          · intro j hj
            by_cases hji : j = i
            · subst hji; exact hex
            · simp only [if_neg hji, add_zero] at hj
              exact hsupp j hj
          · intro u
            rw [hV u, rowSub_apply hb h0]
            have : (∑ j, (c j + if j = i then sv i else 0) * s.V j u)
                = (∑ j, c j * s.V j u) + sv i * s.V i u := by
              rw [← sum_single_mul i (sv i) (fun j => s.V j u),
                ← Finset.sum_add_distrib]
              exact Finset.sum_congr rfl (fun j _ => by ring)
            rw [this]; ring
          · intro t
            rw [hS t, rowSub_apply hb h0]
            have : (∑ j, (c j + if j = i then sv i else 0) * s.S j t)
                = (∑ j, c j * s.S j t) + sv i * s.S i t := by
              rw [← sum_single_mul i (sv i) (fun j => s.S j t),
                ← Finset.sum_add_distrib]
              exact Finset.sum_congr rfl (fun j _ => by ring)
            rw [this]; ring
        · rw [fsfpGo, if_neg h0, if_neg hex]; exact ih _ _

/-! ### Backward substitution -/

/-- Row-by-row description of the backward-substitution loop: a row in the
scanned list that is coded, distinct from the pivot row, and has a non-zero
coefficient in the pivot column gets the incoming row subtracted from it
(scaled by that coefficient in the non-binary path); every other row is
untouched. -/
lemma bsubGo_main (bin : Bool) (unc cod : Fin k → Bool) (sv : Fin k → F)
    (sd : Fin m → F) (p : Fin k) :
    ∀ (L : List (Fin k)) (V : Fin k → Fin k → F) (S : Fin k → Fin m → F),
      L.Nodup →
      (∀ i, i ∉ L → (bsubGo bin unc cod sv sd p L V S).1 i = V i ∧
                    (bsubGo bin unc cod sv sd p L V S).2 i = S i) ∧
      (∀ i, i ∈ L →
        ((unc i = false ∧ i ≠ p ∧ cod i = true ∧ V i p ≠ 0) →
          (bsubGo bin unc cod sv sd p L V S).1 i
              = rowSub bin (V i) sv (V i p) ∧
          (bsubGo bin unc cod sv sd p L V S).2 i
              = rowSub bin (S i) sd (V i p)) ∧
        (¬(unc i = false ∧ i ≠ p ∧ cod i = true ∧ V i p ≠ 0) →
          (bsubGo bin unc cod sv sd p L V S).1 i = V i ∧
          (bsubGo bin unc cod sv sd p L V S).2 i = S i)) := by
  intro L
  induction L with
  | nil =>
      intro V S _
      exact ⟨fun i _ => ⟨rfl, rfl⟩, fun i h => absurd h (List.not_mem_nil i)⟩
  | cons a rest ih =>
      intro V S hnd
      have hanr : a ∉ rest := (List.nodup_cons.mp hnd).1
      have hnd' : rest.Nodup := (List.nodup_cons.mp hnd).2
      by_cases hua : unc a = true
      · rw [bsubGo, if_pos hua]
        rcases ih V S hnd' with ⟨h1, h2⟩
        refine ⟨fun i hi => h1 i (fun hm => hi (List.mem_cons_of_mem a hm)),
          fun i hi => ?_⟩
        rcases List.mem_cons.mp hi with hia | hir
        · subst hia
          refine ⟨fun hc => absurd hua (by simp [hc.1]), fun _ => h1 i hanr⟩
        · exact h2 i hir
      · rw [bsubGo, if_neg hua]
        by_cases hap : a = p
        · rw [if_pos hap]
          rcases ih V S hnd' with ⟨h1, h2⟩
          refine ⟨fun i hi => h1 i (fun hm => hi (List.mem_cons_of_mem a hm)),
            fun i hi => ?_⟩
          rcases List.mem_cons.mp hi with hia | hir
          · subst hia
            exact ⟨fun hc => absurd hap hc.2.1, fun _ => h1 i hanr⟩
          · exact h2 i hir
        · rw [if_neg hap]
          by_cases hca : cod a = true
          · rw [if_pos hca]
            by_cases hV0 : V a p = 0
            · rw [if_pos hV0]
              rcases ih V S hnd' with ⟨h1, h2⟩
              refine ⟨fun i hi =>
                  h1 i (fun hm => hi (List.mem_cons_of_mem a hm)),
                fun i hi => ?_⟩
              rcases List.mem_cons.mp hi with hia | hir
              · subst hia
                exact ⟨fun hc => absurd hV0 hc.2.2.2, fun _ => h1 i hanr⟩
              · exact h2 i hir
            · rw [if_neg hV0]
              rcases ih (Function.update V a (rowSub bin (V a) sv (V a p)))
                (Function.update S a (rowSub bin (S a) sd (V a p))) hnd'
                with ⟨h1, h2⟩
              constructor
              · intro i hi
                have hia : i ≠ a := fun e => hi (e ▸ List.mem_cons_self a rest)
                have hir : i ∉ rest := fun hm => hi (List.mem_cons_of_mem a hm)
                rcases h1 i hir with ⟨e1, e2⟩
                rw [e1, e2, Function.update_noteq hia,
                  Function.update_noteq hia]
                exact ⟨rfl, rfl⟩
              · intro i hi
                rcases List.mem_cons.mp hi with hia | hir
                · subst hia
                  rcases h1 i hanr with ⟨e1, e2⟩
                  rw [e1, e2, Function.update_same, Function.update_same]
                  refine ⟨fun _ => ⟨rfl, rfl⟩, fun hnc => ?_⟩
                  exact absurd ⟨Bool.not_eq_true _ ▸ hua, hap, hca, hV0⟩ hnc
                · have hia : i ≠ a := fun e => hanr (e ▸ hir)
                  rcases h2 i hir with ⟨hc1, hc2⟩
                  rw [Function.update_noteq hia, Function.update_noteq hia]
                    at hc1 hc2
                  exact ⟨hc1, hc2⟩
          · rw [if_neg hca]
            rcases ih V S hnd' with ⟨h1, h2⟩
            refine ⟨fun i hi =>
                h1 i (fun hm => hi (List.mem_cons_of_mem a hm)),
              fun i hi => ?_⟩
            rcases List.mem_cons.mp hi with hia | hir
            · subst hia
              exact ⟨fun hc => absurd hc.2.2.1 hca, fun _ => h1 i hanr⟩
            · exact h2 i hir

/-! ### Scanned-list facts -/

lemma mem_pastPivotList {s : State F k m} {p i : Fin k} :
    i ∈ pastPivotList s p ↔ p.val < i.val ∧ i.val ≤ s.max_pivot := by
  simp [pastPivotList, List.mem_filter]

lemma pastPivotList_pairwise (s : State F k m) (p : Fin k) :
    (pastPivotList s p).Pairwise (fun a b => a.val < b.val) :=
  List.Pairwise.filter _ ((List.pairwise_lt_finRange k).imp (fun h => h))

lemma mem_upToMaxList {s : State F k m} {i : Fin k} :
    i ∈ upToMaxList s ↔ i.val ≤ s.max_pivot := by
  simp [upToMaxList, List.mem_filter]

lemma upToMaxList_nodup (s : State F k m) : (upToMaxList s).Nodup :=
  List.Nodup.filter _ (List.nodup_finRange k)

lemma finRange_pairwise :
    (List.finRange k).Pairwise (fun a b : Fin k => a.val < b.val) :=
  (List.pairwise_lt_finRange k).imp (fun h => h)

lemma sum_comb (γ : F) (c1 c3 g : Fin k → F) :
    (∑ j, (γ * c1 j + c3 j) * g j)
      = γ * (∑ j, c1 j * g j) + ∑ j, c3 j * g j := by
  rw [Finset.mul_sum, ← Finset.sum_add_distrib]
  exact Finset.sum_congr rfl (fun j _ => by ring)

/-! ### Characterization of the coded-packet algorithm -/

/-- Full description of a successful coded absorption turning state `s`
into state `r`: the pivot slot `p` was empty and receives the reduced,
normalized row `(sv3, sd3)`; every other row loses a `μ i` multiple of that
row (with `μ` supported on the coded rows); the reduced row has a unit
coefficient at `p`, zeros below `p` and at every other occupied column, and
is a combination of a non-zero multiple of the input and stored occupied
rows, with the same coefficients on the payload side. -/
def PivotStep (s r : State F k m) (sv : Fin k → F) (sd : Fin m → F) : Prop :=
  ∃ (p : Fin k) (sv3 : Fin k → F) (sd3 : Fin m → F) (μ : Fin k → F),
    symbol_exists s p = false ∧
    (∀ i0 : Fin k, (∀ j : Fin k, j.val ≤ i0.val → sv j = 0) →
        i0.val < p.val) ∧
    r.rank = s.rank + 1 ∧
    r.uncoded = s.uncoded ∧
    r.coded = Function.update s.coded p true ∧
    r.max_pivot = (if s.max_pivot < p.val then p.val else s.max_pivot) ∧
    r.V p = sv3 ∧ r.S p = sd3 ∧
    (∀ i, i ≠ p → (∀ u, r.V i u = s.V i u - μ i * sv3 u) ∧
                  (∀ t, r.S i t = s.S i t - μ i * sd3 t)) ∧
    (∀ i, μ i ≠ 0 → s.coded i = true ∧ s.uncoded i = false ∧ i ≠ p ∧
        μ i = s.V i p) ∧
    (∀ i, s.coded i = true → s.uncoded i = false → i ≠ p →
        i.val ≤ s.max_pivot → μ i = s.V i p) ∧
    sv3 p = 1 ∧
    (∀ j : Fin k, j.val < p.val → sv3 j = 0) ∧
    (∀ j, symbol_exists s j = true → j ≠ p → sv3 j = 0) ∧
    (∃ (γ : F) (c : Fin k → F), γ ≠ 0 ∧
      (∀ j, c j ≠ 0 → symbol_exists s j = true) ∧
      (∀ u, sv3 u = γ * sv u - ∑ j, c j * s.V j u) ∧
      (∀ t, sd3 t = γ * sd t - ∑ j, c j * s.S j t))

lemma dwv_none {bin : Bool} {s : State F k m} {sv : Fin k → F}
    {sd : Fin m → F}
    (hfs : (forward_substitute_to_pivot bin s sv sd).1 = none) :
    decode_with_vector bin s sv sd = s := by
  unfold decode_with_vector
  rw [hfs]

lemma dwv_some {bin : Bool} {s : State F k m} {sv : Fin k → F}
    {sd : Fin m → F} {p : Fin k}
    (hfs : (forward_substitute_to_pivot bin s sv sd).1 = some p) :
    decode_with_vector bin s sv sd
      = dwvPivot bin s (forward_substitute_to_pivot bin s sv sd).2.1
          (forward_substitute_to_pivot bin s sv sd).2.2 p := by
  unfold decode_with_vector
  rw [hfs]

/-- Either the pivot scan fails — then `decode_with_vector` leaves the state
unchanged and the input coefficient vector is a combination of the stored
occupied rows — or the absorption is fully described by `PivotStep`. -/
theorem dwv_cases (bin : Bool) (s : State F k m) (hb : BinOk F bin)
    (hsh : LowerShape s) (hmp : MaxPivotBound s)
    (sv : Fin k → F) (sd : Fin m → F) :
    (decode_with_vector bin s sv sd = s ∧
      ∃ c : Fin k → F, (∀ j, c j ≠ 0 → symbol_exists s j = true) ∧
        ∀ u, sv u = ∑ j, c j * s.V j u)
    ∨ PivotStep s (decode_with_vector bin s sv sd) sv sd := by
  have houtF : ∀ j : Fin k, j ∉ List.finRange k →
      sv j = 0 ∧ ∀ a ∈ List.finRange k, j.val < a.val :=
    fun j hj => absurd (List.mem_finRange j) hj
  cases hfs : (forward_substitute_to_pivot bin s sv sd).1 with
  | none =>
      left
      refine ⟨dwv_none hfs, ?_⟩
      have hz : ∀ j, (forward_substitute_to_pivot bin s sv sd).2.1 j = 0 :=
        (fstpGo_main hb hsh (List.finRange k) sv sd finRange_pairwise
          houtF).2 hfs
      obtain ⟨c, hsupp, hV, _⟩ := fstpGo_sub hb s (List.finRange k) sv sd
      refine ⟨c, hsupp, fun u => ?_⟩
      have h0 : (forward_substitute_to_pivot bin s sv sd).2.1 u
          = sv u - ∑ j, c j * s.V j u := hV u
      rw [hz u] at h0
      exact sub_eq_zero.mp h0.symm
  | some p =>
      right
      obtain ⟨hpemp, hp1⟩ :=
        fstpGo_some bin s (List.finRange k) sv sd p hfs
      set sv1 : Fin k → F := (forward_substitute_to_pivot bin s sv sd).2.1
        with hsv1
      set sd1 : Fin m → F := (forward_substitute_to_pivot bin s sv sd).2.2
        with hsd1
      have hlow : ∀ j : Fin k, j.val < p.val → sv1 j = 0 :=
        (fstpGo_main hb hsh (List.finRange k) sv sd finRange_pairwise
          houtF).1 p hfs
      obtain ⟨c1, hc1supp, hc1V, hc1S⟩ :=
        fstpGo_sub hb s (List.finRange k) sv sd
      set γ : F := if bin then 1 else (sv1 p)⁻¹ with hγ
      have hγ0 : γ ≠ 0 := by
        rw [hγ]
        cases bin with
        | false => simpa using inv_ne_zero hp1
        | true => simpa using one_ne_zero
      set sv2 : Fin k → F := fun u => γ * sv1 u with hsv2
      set sd2 : Fin m → F := fun t => γ * sd1 t with hsd2
      have hsv2u : ∀ u, sv2 u = γ * sv1 u := fun _ => rfl
      have hsd2u : ∀ t, sd2 t = γ * sd1 t := fun _ => rfl
      have hpr2 : (if bin then (sv1, sd1) else normalize sv1 sd1 p)
          = (sv2, sd2) := by
        cases bin with
        | false =>
            have hγ' : γ = (sv1 p)⁻¹ := by rw [hγ]; simp
            have h1 : (fun j => (sv1 p)⁻¹ * sv1 j) = sv2 := by
              funext u; rw [hsv2u u, hγ']
            have h2 : (fun t => (sv1 p)⁻¹ * sd1 t) = sd2 := by
              funext t; rw [hsd2u t, hγ']
            show normalize sv1 sd1 p = (sv2, sd2)
            show ((fun j => (sv1 p)⁻¹ * sv1 j), fun t => (sv1 p)⁻¹ * sd1 t)
              = (sv2, sd2)
            rw [h1, h2]
        | true =>
            have hγ' : γ = 1 := by rw [hγ]; simp
            have h1 : sv1 = sv2 := by
              funext u; rw [hsv2u u, hγ', one_mul]
            have h2 : sd1 = sd2 := by
              funext t; rw [hsd2u t, hγ', one_mul]
            show (sv1, sd1) = (sv2, sd2)
            rw [h1, h2]
      have hsv2p : sv2 p = 1 := by
        rw [hsv2u p, hγ]
        cases bin with
        | false => simpa using inv_mul_cancel₀ hp1
        | true =>
            have h1 : sv1 p = 1 := hb rfl (sv1 p) hp1
            simp [h1]
      have hrangeP : ∀ a ∈ pastPivotList s p,
          p.val < a.val ∧ a.val ≤ s.max_pivot :=
        fun a ha => mem_pastPivotList.mp ha
      have houtP : ∀ j : Fin k, p.val < j.val → j.val ≤ s.max_pivot →
          j ∉ pastPivotList s p →
          (symbol_exists s j = true → sv2 j = 0) ∧
          ∀ a ∈ pastPivotList s p, j.val < a.val :=
        fun j h1 h2 hj => absurd (mem_pastPivotList.mpr ⟨h1, h2⟩) hj
      obtain ⟨hA1, hA2⟩ := fsfpGo_main hb hsh p (pastPivotList s p) sv2 sd2
        (pastPivotList_pairwise s p) hrangeP houtP
      set sv3 : Fin k → F :=
        (forward_substitute_from_pivot bin s p sv2 sd2).1 with hsv3
      set sd3 : Fin m → F :=
        (forward_substitute_from_pivot bin s p sv2 sd2).2 with hsd3
      obtain ⟨c3, hc3supp, hc3V, hc3S⟩ :=
        fsfpGo_sub hb s (pastPivotList s p) sv2 sd2
      have hsv3p : sv3 p = 1 := by
        rw [hsv3]
        show (fsfpGo bin s (pastPivotList s p) sv2 sd2).1 p = 1
        rw [hA1 p (le_refl _), hsv2p]
      have hsv3low : ∀ j : Fin k, j.val < p.val → sv3 j = 0 := by
        intro j hj
        rw [hsv3]
        show (fsfpGo bin s (pastPivotList s p) sv2 sd2).1 j = 0
        rw [hA1 j (Nat.le_of_lt hj), hsv2u j, hlow j hj, mul_zero]
      have hsv3occ : ∀ j, symbol_exists s j = true → j ≠ p → sv3 j = 0 := by
        intro j hocc hjp
        rcases Nat.lt_trichotomy j.val p.val with h | h | h
        · exact hsv3low j h
        · exact absurd (Fin.ext h) hjp
        · exact hA2 j hocc h (hmp j hocc)
      have hr : decode_with_vector bin s sv sd =
          { rank := s.rank + 1,
            max_pivot := if s.max_pivot < p.val then p.val
                         else s.max_pivot,
            uncoded := s.uncoded,
            coded := Function.update s.coded p true,
            V := Function.update
              (bsubGo bin s.uncoded s.coded sv3 sd3 p (upToMaxList s)
                s.V s.S).1 p sv3,
            S := Function.update
              (bsubGo bin s.uncoded s.coded sv3 sd3 p (upToMaxList s)
                s.V s.S).2 p sd3 } := by
        rw [dwv_some hfs]
        show dwvPivot bin s sv1 sd1 p = _
        unfold dwvPivot
        rw [hpr2]
        rfl
      obtain ⟨hB1, hB2⟩ := bsubGo_main bin s.uncoded s.coded sv3 sd3 p
        (upToMaxList s) s.V s.S (upToMaxList_nodup s)
      set μ : Fin k → F := fun i =>
        if i.val ≤ s.max_pivot ∧ s.uncoded i = false ∧ i ≠ p ∧
            s.coded i = true ∧ s.V i p ≠ 0
        then s.V i p else 0 with hμ
      have hrows : ∀ i, i ≠ p →
          (∀ u, (decode_with_vector bin s sv sd).V i u
              = s.V i u - μ i * sv3 u) ∧
          (∀ t, (decode_with_vector bin s sv sd).S i t
              = s.S i t - μ i * sd3 t) := by
        intro i hip
        rw [hr]
        simp only [Function.update_noteq hip]
        by_cases hmem : i.val ≤ s.max_pivot
        · by_cases hcond : s.uncoded i = false ∧ i ≠ p ∧ s.coded i = true ∧
              s.V i p ≠ 0
          · obtain ⟨e1, e2⟩ := (hB2 i (mem_upToMaxList.mpr hmem)).1 hcond
            have hμi : μ i = s.V i p := by
              rw [hμ]
              exact if_pos ⟨hmem, hcond.1, hcond.2.1, hcond.2.2.1,
                hcond.2.2.2⟩
            constructor
            · intro u
              rw [e1, rowSub_apply hb hcond.2.2.2, hμi]
            · intro t
              rw [e2, rowSub_apply hb hcond.2.2.2, hμi]
          · obtain ⟨e1, e2⟩ := (hB2 i (mem_upToMaxList.mpr hmem)).2 hcond
            have hμi : μ i = 0 := by
              rw [hμ]
              refine if_neg ?_
              intro hfull
              exact hcond ⟨hfull.2.1, hfull.2.2.1, hfull.2.2.2.1,
                hfull.2.2.2.2⟩
            rw [e1, e2, hμi]
            constructor <;> intro x <;> rw [zero_mul, sub_zero]
        · obtain ⟨e1, e2⟩ :=
            hB1 i (fun hm => hmem (mem_upToMaxList.mp hm))
          have hμi : μ i = 0 := by
            rw [hμ]
            exact if_neg (fun hfull => hmem hfull.1)
          rw [e1, e2, hμi]
          constructor <;> intro x <;> rw [zero_mul, sub_zero]
      have hμsupp : ∀ i, μ i ≠ 0 → s.coded i = true ∧ s.uncoded i = false ∧
          i ≠ p ∧ μ i = s.V i p := by
        intro i hi
        rw [hμ] at hi ⊢
        by_cases hc : i.val ≤ s.max_pivot ∧ s.uncoded i = false ∧ i ≠ p ∧
            s.coded i = true ∧ s.V i p ≠ 0
        · exact ⟨hc.2.2.2.1, hc.2.1, hc.2.2.1, if_pos hc⟩
        · exact absurd (if_neg hc) hi
      have hcombV : ∀ u, sv3 u = γ * sv u
          - ∑ j, (γ * c1 j + c3 j) * s.V j u := by
        intro u
        rw [sum_comb]
        have e3 : sv3 u = sv2 u - ∑ j, c3 j * s.V j u := hc3V u
        have e1 : sv1 u = sv u - ∑ j, c1 j * s.V j u := hc1V u
        rw [e3, hsv2u u, e1]
        ring
      have hcombS : ∀ t, sd3 t = γ * sd t
          - ∑ j, (γ * c1 j + c3 j) * s.S j t := by
        intro t
        rw [sum_comb]
        have e3 : sd3 t = sd2 t - ∑ j, c3 j * s.S j t := hc3S t
        have e1 : sd1 t = sd t - ∑ j, c1 j * s.S j t := hc1S t
        rw [e3, hsd2u t, e1]
        ring
      have hgt : ∀ i0 : Fin k, (∀ j : Fin k, j.val ≤ i0.val → sv j = 0) →
          i0.val < p.val :=
        fun i0 hz => fstpGo_pivot_gt hb hsh i0 (List.finRange k) sv sd hz p hfs
      have hμfull : ∀ i, s.coded i = true → s.uncoded i = false → i ≠ p →
          i.val ≤ s.max_pivot → μ i = s.V i p := by
        intro i hic hiu hip himp
        by_cases hv0 : s.V i p = 0
        · exact (show μ i = (0 : F) from if_neg
            (fun hfull => hfull.2.2.2.2 hv0)).trans hv0.symm
        · exact if_pos ⟨himp, hiu, hip, hic, hv0⟩
      refine ⟨p, sv3, sd3, μ, hpemp, hgt, ?_, ?_, ?_, ?_, ?_, ?_, hrows,
        hμsupp, hμfull, hsv3p, hsv3low, hsv3occ, γ,
        fun j => γ * c1 j + c3 j, hγ0, ?_, hcombV, hcombS⟩
      · rw [hr]
      · rw [hr]
      · rw [hr]
      · rw [hr]
      · rw [hr]; simp
      · rw [hr]; simp
      · intro j hj
        have hj' : γ * c1 j + c3 j ≠ 0 := hj
        by_cases h1 : c1 j = 0
        · by_cases h3 : c3 j = 0
          · rw [h1, h3] at hj'
            simp at hj'
          · exact hc3supp j h3
        · exact hc1supp j h1

/-! ### Characterization of the raw-packet algorithm -/

lemma update_zero_unitRow (i : Fin k) :
    Function.update (fun _ => (0 : F)) i 1 = unitRow F i := by
  funext j
  by_cases h : j = i
  · subst h; rw [Function.update_same]; simp [unitRow]
  · rw [Function.update_noteq h]; simp [unitRow, h]

lemma decode_raw_noop {bin : Bool} {s : State F k m} {sd : Fin m → F}
    {i : Fin k} (h : s.uncoded i = true) :
    decode_raw bin s sd i = s := by
  unfold decode_raw
  rw [h]
  simp

lemma decode_raw_swap {bin : Bool} {s : State F k m} {sd : Fin m → F}
    {i : Fin k} (h1 : s.uncoded i = false) (h2 : s.coded i = true) :
    decode_raw bin s sd i = swap_decode bin s sd i := by
  unfold decode_raw
  rw [h1, h2]
  simp

lemma decode_raw_empty_eq (bin : Bool) {s : State F k m} (sd : Fin m → F)
    {i : Fin k} (h1 : s.uncoded i = false) (h2 : s.coded i = false) :
    decode_raw bin s sd i =
      { backward_substitute bin (store_uncoded_symbol s sd i)
          ((store_uncoded_symbol s sd i).V i) sd i with
        rank := (backward_substitute bin (store_uncoded_symbol s sd i)
          ((store_uncoded_symbol s sd i).V i) sd i).rank + 1,
        uncoded := Function.update (backward_substitute bin
          (store_uncoded_symbol s sd i)
          ((store_uncoded_symbol s sd i).V i) sd i).uncoded i true,
        max_pivot := if (backward_substitute bin (store_uncoded_symbol s sd i)
            ((store_uncoded_symbol s sd i).V i) sd i).max_pivot < i.val
          then i.val
          else (backward_substitute bin (store_uncoded_symbol s sd i)
            ((store_uncoded_symbol s sd i).V i) sd i).max_pivot } := by
  unfold decode_raw
  rw [h1, h2]
  simp

/-- Raw insertion into an empty slot: the rank rises by one, the slot is
marked uncoded, the payload is copied, the coefficient at column `i` is set
to 1 (the rest of the row untouched), and every coded row with a non-zero
coefficient at column `i` loses a multiple of the new row. -/
theorem raw_empty_spec (bin : Bool) (s : State F k m) (hb : BinOk F bin)
    (sd : Fin m → F) (i : Fin k)
    (hunc : s.uncoded i = false) (hcod : s.coded i = false) :
    ∃ μ : Fin k → F,
      (decode_raw bin s sd i).rank = s.rank + 1 ∧
      (decode_raw bin s sd i).uncoded = Function.update s.uncoded i true ∧
      (decode_raw bin s sd i).coded = s.coded ∧
      (decode_raw bin s sd i).max_pivot
        = (if s.max_pivot < i.val then i.val else s.max_pivot) ∧
      (decode_raw bin s sd i).V i = Function.update (s.V i) i 1 ∧
      (decode_raw bin s sd i).S i = sd ∧
      (∀ j, j ≠ i →
        (∀ u, (decode_raw bin s sd i).V j u
            = s.V j u - μ j * Function.update (s.V i) i 1 u) ∧
        (∀ t, (decode_raw bin s sd i).S j t = s.S j t - μ j * sd t)) ∧
      (∀ j, μ j ≠ 0 → s.coded j = true ∧ s.uncoded j = false ∧ j ≠ i ∧
          μ j = s.V j i) ∧
      (∀ j, s.coded j = true → s.uncoded j = false → j ≠ i →
          j.val ≤ s.max_pivot → μ j = s.V j i) := by
  have hd := decode_raw_empty_eq bin sd hunc hcod
  have hw : (store_uncoded_symbol s sd i).V i
      = Function.update (s.V i) i 1 := Function.update_same _ _ _
  have hL : upToMaxList (store_uncoded_symbol s sd i) = upToMaxList s := rfl
  have hbs : backward_substitute bin (store_uncoded_symbol s sd i)
        ((store_uncoded_symbol s sd i).V i) sd i
      = backward_substitute bin (store_uncoded_symbol s sd i)
        (Function.update (s.V i) i 1) sd i := by rw [hw]
  rw [hbs] at hd
  set w : Fin k → F := Function.update (s.V i) i 1 with hwdef
  set B := bsubGo bin s.uncoded s.coded w sd i (upToMaxList s)
    (Function.update s.V i w) (Function.update s.S i sd) with hB
  have hdB : decode_raw bin s sd i =
      { rank := s.rank + 1,
        max_pivot := if s.max_pivot < i.val then i.val else s.max_pivot,
        uncoded := Function.update s.uncoded i true,
        coded := s.coded,
        V := B.1, S := B.2 } := hd
  obtain ⟨hB1, hB2⟩ := bsubGo_main bin s.uncoded s.coded w sd i
    (upToMaxList s) (Function.update s.V i w) (Function.update s.S i sd)
    (upToMaxList_nodup s)
  set μ : Fin k → F := fun j =>
    if j.val ≤ s.max_pivot ∧ s.uncoded j = false ∧ j ≠ i ∧
        s.coded j = true ∧ s.V j i ≠ 0
    then s.V j i else 0 with hμ
  have hVi : B.1 i = w ∧ B.2 i = sd := by
    by_cases hmem : i.val ≤ s.max_pivot
    · have h := (hB2 i (mem_upToMaxList.mpr hmem)).2
        (fun hc => absurd rfl hc.2.1)
      rw [← hB] at h
      rw [h.1, h.2, Function.update_same, Function.update_same]
      exact ⟨rfl, rfl⟩
    · have h := hB1 i (fun hm => hmem (mem_upToMaxList.mp hm))
      rw [← hB] at h
      rw [h.1, h.2, Function.update_same, Function.update_same]
      exact ⟨rfl, rfl⟩
  refine ⟨μ, ?_, ?_, ?_, ?_, ?_, ?_, ?_, ?_, ?_⟩
  · rw [hdB]
  · rw [hdB]
  · rw [hdB]
  · rw [hdB]
  · rw [hdB]; exact hVi.1
  · rw [hdB]; exact hVi.2
  · intro j hji
    have hdV : (decode_raw bin s sd i).V = B.1 := by rw [hdB]
    have hdS : (decode_raw bin s sd i).S = B.2 := by rw [hdB]
    rw [hdV, hdS]
    have hVj : Function.update s.V i w j = s.V j :=
      Function.update_noteq hji _ _
    have hSj : Function.update s.S i sd j = s.S j :=
      Function.update_noteq hji _ _
    by_cases hmem : j.val ≤ s.max_pivot
    · by_cases hcond : s.uncoded j = false ∧ j ≠ i ∧ s.coded j = true ∧
          Function.update s.V i w j i ≠ 0
      · obtain ⟨e1, e2⟩ := (hB2 j (mem_upToMaxList.mpr hmem)).1 hcond
        rw [← hB] at e1 e2
        have hVji : Function.update s.V i w j i = s.V j i := by rw [hVj]
        have hmune : s.V j i ≠ 0 := by rw [← hVji]; exact hcond.2.2.2
        have hμj : μ j = s.V j i := by
          rw [hμ]
          exact if_pos ⟨hmem, hcond.1, hcond.2.1, hcond.2.2.1, hmune⟩
        constructor
        · intro u
          rw [e1, hVj, rowSub_apply hb hmune, hμj]
        · intro t
          rw [e2, hSj, hVji, rowSub_apply hb hmune, hμj]
      · obtain ⟨e1, e2⟩ := (hB2 j (mem_upToMaxList.mpr hmem)).2 hcond
        rw [← hB] at e1 e2
        have hμj : μ j = 0 := by
          rw [hμ]
          refine if_neg ?_
          intro full
          refine hcond ⟨full.2.1, full.2.2.1, full.2.2.2.1, ?_⟩
          have he : Function.update s.V i w j i = s.V j i := by rw [hVj]
          rw [he]
          exact full.2.2.2.2
        rw [e1, e2, hVj, hSj, hμj]
        constructor <;> intro x <;> rw [zero_mul, sub_zero]
    · obtain ⟨e1, e2⟩ := hB1 j (fun hm => hmem (mem_upToMaxList.mp hm))
      rw [← hB] at e1 e2
      have hμj : μ j = 0 := by
        rw [hμ]
        exact if_neg (fun full => hmem full.1)
      rw [e1, e2, hVj, hSj, hμj]
      constructor <;> intro x <;> rw [zero_mul, sub_zero]
  · intro j hj
    rw [hμ] at hj ⊢
    by_cases hc : j.val ≤ s.max_pivot ∧ s.uncoded j = false ∧ j ≠ i ∧
        s.coded j = true ∧ s.V j i ≠ 0
    · exact ⟨hc.2.2.2.1, hc.2.1, hc.2.2.1, if_pos hc⟩
    · exact absurd (if_neg hc) hj
  · intro j hjc hju hji hjm
    by_cases hv0 : s.V j i = 0
    · exact (show μ j = (0 : F) from if_neg
        (fun full => full.2.2.2.2 hv0)).trans hv0.symm
    · exact if_pos ⟨hjm, hju, hji, hjc, hv0⟩

/-- Full description of the swap path of `decode_raw`: the slot flips from
coded to uncoded and receives the raw symbol with the elementary coefficient
row.  Either the re-absorbed evicted row is dependent — then nothing else
changes and the elementary row `e_i` is a combination of the stored rows —
or it lands at a fresh pivot `p > i`, which behaves like a coded absorption
of the evicted row minus the raw packet. -/
theorem swap_spec (bin : Bool) (s : State F k m) (hb : BinOk F bin)
    (sd : Fin m → F) (i : Fin k)
    (hunc : s.uncoded i = false) (hcod : s.coded i = true)
    (hsu : ShapeUnc s) (hsc : ShapeCod s) (hmp : MaxPivotBound s) :
    ((decode_raw bin s sd i).rank = s.rank ∧
     (decode_raw bin s sd i).max_pivot = s.max_pivot ∧
     (decode_raw bin s sd i).uncoded = Function.update s.uncoded i true ∧
     (decode_raw bin s sd i).coded = Function.update s.coded i false ∧
     (∀ j, j ≠ i → (decode_raw bin s sd i).V j = s.V j ∧
                   (decode_raw bin s sd i).S j = s.S j) ∧
     (decode_raw bin s sd i).V i = unitRow F i ∧
     (decode_raw bin s sd i).S i = sd ∧
     (∃ c : Fin k → F, (∀ j, c j ≠ 0 → symbol_exists s j = true) ∧
        ∀ u, unitRow F i u = ∑ j, c j * s.V j u))
    ∨ (∃ (p : Fin k) (sv3 : Fin k → F) (sd3 : Fin m → F) (μ : Fin k → F),
        i.val < p.val ∧ symbol_exists s p = false ∧
        (decode_raw bin s sd i).rank = s.rank + 1 ∧
        (decode_raw bin s sd i).max_pivot
          = (if s.max_pivot < p.val then p.val else s.max_pivot) ∧
        (decode_raw bin s sd i).uncoded = Function.update s.uncoded i true ∧
        (decode_raw bin s sd i).coded
          = Function.update (Function.update s.coded i false) p true ∧
        (decode_raw bin s sd i).V i = unitRow F i ∧
        (decode_raw bin s sd i).S i = sd ∧
        (decode_raw bin s sd i).V p = sv3 ∧
        (decode_raw bin s sd i).S p = sd3 ∧
        (∀ j, j ≠ i → j ≠ p →
          (∀ u, (decode_raw bin s sd i).V j u = s.V j u - μ j * sv3 u) ∧
          (∀ t, (decode_raw bin s sd i).S j t = s.S j t - μ j * sd3 t)) ∧
        (∀ j, μ j ≠ 0 → s.coded j = true ∧ s.uncoded j = false ∧ j ≠ i ∧
            j ≠ p ∧ μ j = s.V j p) ∧
        (∀ j, s.coded j = true → s.uncoded j = false → j ≠ i → j ≠ p →
            j.val ≤ s.max_pivot → μ j = s.V j p) ∧
        sv3 p = 1 ∧
        (∀ j : Fin k, j.val < p.val → sv3 j = 0) ∧
        (∀ j, symbol_exists s j = true → j ≠ p → sv3 j = 0) ∧
        (∃ (γ : F) (c : Fin k → F), γ ≠ 0 ∧
          (∀ j, c j ≠ 0 → symbol_exists s j = true ∧ j ≠ i) ∧
          (∀ u, sv3 u = γ * (s.V i u - unitRow F i u)
              - ∑ j, c j * s.V j u) ∧
          (∀ t, sd3 t = γ * (s.S i t - sd t) - ∑ j, c j * s.S j t))) := by
  have hroute : decode_raw bin s sd i = swap_decode bin s sd i :=
    decode_raw_swap hunc hcod
  set vi : Fin k → F := Function.update (s.V i) i 0 with hvi
  set si : Fin m → F := fun t => s.S i t - sd t with hsi
  set s1 : State F k m :=
    { s with coded := Function.update s.coded i false,
             V := Function.update s.V i vi,
             S := Function.update s.S i si } with hs1
  have hc1 : s1.coded = Function.update s.coded i false := rfl
  have hu1 : s1.uncoded = s.uncoded := rfl
  have hV1 : s1.V = Function.update s.V i vi := rfl
  have hS1 : s1.S = Function.update s.S i si := rfl
  have hm1 : s1.max_pivot = s.max_pivot := rfl
  have hr1 : s1.rank = s.rank := rfl
  have hsit : ∀ t, si t = s.S i t - sd t := fun _ => rfl
  have hV1j : ∀ j, j ≠ i → s1.V j = s.V j := by
    intro j hj
    rw [hV1]
    exact Function.update_noteq hj _ _
  have hS1j : ∀ j, j ≠ i → s1.S j = s.S j := by
    intro j hj
    rw [hS1]
    exact Function.update_noteq hj _ _
  have hocc1i : symbol_exists s1 i = false := by
    simp [symbol_exists, hc1, hu1, hunc]
  have hocc1 : ∀ j, j ≠ i → symbol_exists s1 j = symbol_exists s j := by
    intro j hj
    simp [symbol_exists, hc1, hu1, Function.update_noteq hj]
  have hocci : symbol_exists s i = true := by simp [symbol_exists, hcod]
  have hVii : s.V i i = 1 := (hsc i hcod).1
  have hvii : vi i = 0 := by rw [hvi]; exact Function.update_same _ _ _
  have hvij : ∀ j, j ≠ i → vi j = s.V i j := by
    intro j hj
    rw [hvi]
    exact Function.update_noteq hj _ _
  have hvilow : ∀ j : Fin k, j.val ≤ i.val → vi j = 0 := by
    intro j hj
    rcases Nat.lt_or_ge j.val i.val with hlt | hge
    · have hji : j ≠ i := fun e => absurd (congrArg Fin.val e) (Nat.ne_of_lt hlt)
      rw [hvij j hji]
      exact (hsc i hcod).2.1 j hlt
    · have hji : j = i := Fin.ext (Nat.le_antisymm hj hge)
      subst hji
      exact hvii
  have hvi_eq : ∀ u, vi u = s.V i u - unitRow F i u := by
    intro u
    by_cases hu : u = i
    · subst hu
      rw [hvii, hVii]
      simp [unitRow]
    · rw [hvij u hu]
      simp [unitRow, hu]
  have hsh1 : LowerShape s1 := by
    intro j hj
    by_cases hji : j = i
    · subst hji
      rw [hocc1i] at hj
      cases hj
    · rw [hocc1 j hji] at hj
      rw [hV1j j hji]
      exact lowerShape_of_inv hsu hsc j hj
  have hmp1 : MaxPivotBound s1 := by
    intro j hj
    by_cases hji : j = i
    · subst hji
      rw [hocc1i] at hj
      cases hj
    · rw [hocc1 j hji] at hj
      rw [hm1]
      exact hmp j hj
  -- Projection equations for the swap result.
  have hrankd : (swap_decode bin s sd i).rank
      = (decode_with_vector bin s1 vi si).rank := rfl
  have hmpd : (swap_decode bin s sd i).max_pivot
      = (decode_with_vector bin s1 vi si).max_pivot := rfl
  have huncd : (swap_decode bin s sd i).uncoded
      = Function.update (decode_with_vector bin s1 vi si).uncoded i true :=
    rfl
  have hcodd : (swap_decode bin s sd i).coded
      = (decode_with_vector bin s1 vi si).coded := rfl
  have hSd : (swap_decode bin s sd i).S
      = Function.update (decode_with_vector bin s1 vi si).S i sd := rfl
  have hVd : (swap_decode bin s sd i).V
      = Function.update
          (Function.update (decode_with_vector bin s1 vi si).V i
            (fun _ => 0)) i
          (Function.update
            ((Function.update (decode_with_vector bin s1 vi si).V i
              (fun _ => 0)) i) i 1) := rfl
  have hVi_unit : (swap_decode bin s sd i).V i = unitRow F i := by
    rw [hVd, Function.update_same, Function.update_same, update_zero_unitRow]
  have hSi_raw : (swap_decode bin s sd i).S i = sd := by
    rw [hSd, Function.update_same]
  have hVd_ne : ∀ j, j ≠ i →
      (swap_decode bin s sd i).V j
        = (decode_with_vector bin s1 vi si).V j := by
    intro j hj
    rw [hVd, Function.update_noteq hj, Function.update_noteq hj]
  have hSd_ne : ∀ j, j ≠ i →
      (swap_decode bin s sd i).S j
        = (decode_with_vector bin s1 vi si).S j := by
    intro j hj
    rw [hSd, Function.update_noteq hj]
  rcases dwv_cases bin s1 hb hsh1 hmp1 vi si with
    ⟨hXeq, c, hcsupp, hcspan⟩ |
    ⟨p, sv3, sd3, μ, hpemp1, hgt, hXrank, hXunc, hXcod, hXmp, hXVp, hXSp,
      hXrows, hμsupp, hμfull, hsv3p, hsv3low, hsv3occ, γ, c, hγ0, hcsupp,
      hcombV, hcombS⟩
  · -- re-absorption found no pivot
    left
    have hci : c i = 0 := by
      by_contra hci
      have hx := hcsupp i hci
      rw [hocc1i] at hx
      cases hx
    have hsum : ∀ u, (∑ j, c j * s1.V j u) = ∑ j, c j * s.V j u := by
      intro u
      refine Finset.sum_congr rfl (fun j _ => ?_)
      by_cases hji : j = i
      · subst hji; rw [hci, zero_mul, zero_mul]
      · rw [hV1j j hji]
    refine ⟨?_, ?_, ?_, ?_, ?_, ?_, ?_, ?_⟩
    · rw [hroute, hrankd, hXeq, hr1]
    · rw [hroute, hmpd, hXeq, hm1]
    · rw [hroute, huncd, hXeq, hu1]
    · rw [hroute, hcodd, hXeq, hc1]
    · intro j hj
      constructor
      · rw [hroute, hVd_ne j hj, hXeq, hV1j j hj]
      · rw [hroute, hSd_ne j hj, hXeq, hS1j j hj]
    · rw [hroute]; exact hVi_unit
    · rw [hroute]; exact hSi_raw
    · refine ⟨fun j => (if j = i then 1 else 0) - c j, ?_, ?_⟩
      · intro j hj
        by_cases hji : j = i
        · subst hji; exact hocci
        · have hj' : (if j = i then (1:F) else 0) - c j ≠ 0 := hj
          rw [if_neg hji, zero_sub, neg_ne_zero] at hj'
          rw [← hocc1 j hji]
          exact hcsupp j hj'
      · intro u
        have h1 : vi u = ∑ j, c j * s.V j u := by
          rw [hcspan u, hsum u]
        have h2 : (∑ j, ((if j = i then (1 : F) else 0) - c j) * s.V j u)
            = s.V i u - ∑ j, c j * s.V j u := by
          have e : ∀ j : Fin k,
              ((if j = i then (1 : F) else 0) - c j) * s.V j u
                = (if j = i then (1 : F) else 0) * s.V j u
                  - c j * s.V j u :=
            fun j => by ring
          rw [Finset.sum_congr rfl (fun j _ => e j), Finset.sum_sub_distrib,
            sum_single_mul i 1 (fun j => s.V j u), one_mul]
        rw [h2, ← h1, hvi_eq u]
        ring
  · -- re-absorption found a pivot p
    right
    have hip : i.val < p.val := hgt i hvilow
    have hpi : p ≠ i := fun e => absurd (congrArg Fin.val e)
      (Nat.ne_of_gt hip)
    have hpemp : symbol_exists s p = false := by
      rw [← hocc1 p hpi]
      exact hpemp1
    have hci : c i = 0 := by
      by_contra hci
      have hx := hcsupp i hci
      rw [hocc1i] at hx
      cases hx
    refine ⟨p, sv3, sd3, μ, hip, hpemp, ?_, ?_, ?_, ?_, ?_, ?_, ?_, ?_, ?_,
      ?_, ?_, hsv3p, hsv3low, ?_, γ, c, hγ0, ?_, ?_, ?_⟩
    · rw [hroute, hrankd, hXrank, hr1]
    · rw [hroute, hmpd, hXmp, hm1]
    · rw [hroute, huncd, hXunc, hu1]
    · rw [hroute, hcodd, hXcod, hc1]
    · rw [hroute]; exact hVi_unit
    · rw [hroute]; exact hSi_raw
    · rw [hroute, hVd_ne p hpi]; exact hXVp
    · rw [hroute, hSd_ne p hpi]; exact hXSp
    · intro j hji hjp
      have h := hXrows j hjp
      constructor
      · intro u
        rw [hroute, hVd_ne j hji, (h.1 u), hV1j j hji]
      · intro t
        rw [hroute, hSd_ne j hji, (h.2 t), hS1j j hji]
    · intro j hj
      obtain ⟨hcj, huj, hjp, hμj⟩ := hμsupp j hj
      have hji : j ≠ i := by
        intro e
        subst e
        rw [hc1, Function.update_same] at hcj
        cases hcj
      rw [hc1, Function.update_noteq hji] at hcj
      rw [hu1] at huj
      rw [hV1j j hji] at hμj
      exact ⟨hcj, huj, hji, hjp, hμj⟩
    · intro j hjc hju hji hjp hjm
      have h1c : s1.coded j = true := by
        rw [hc1, Function.update_noteq hji]; exact hjc
      have h1u : s1.uncoded j = false := by rw [hu1]; exact hju
      have h1m : j.val ≤ s1.max_pivot := by rw [hm1]; exact hjm
      have := hμfull j h1c h1u hjp h1m
      rw [hV1j j hji] at this
      exact this
    · intro j hocc hjp
      by_cases hji : j = i
      · subst hji
        exact hsv3low j hip
      · exact hsv3occ j ((hocc1 j hji).trans hocc) hjp
    · intro j hj
      have hji : j ≠ i := by
        intro e
        subst e
        have := hcsupp j hj
        rw [hocc1i] at this
        cases this
      refine ⟨?_, hji⟩
      rw [← hocc1 j hji]
      exact hcsupp j hj
    · intro u
      have h := hcombV u
      have hsum : (∑ j, c j * s1.V j u) = ∑ j, c j * s.V j u := by
        refine Finset.sum_congr rfl (fun j _ => ?_)
        by_cases hji : j = i
        · subst hji; rw [hci, zero_mul, zero_mul]
        · rw [hV1j j hji]
      rw [h, hsum, hvi_eq u]
    · intro t
      have h := hcombS t
      have hsum : (∑ j, c j * s1.S j t) = ∑ j, c j * s.S j t := by
        refine Finset.sum_congr rfl (fun j _ => ?_)
        by_cases hji : j = i
        · subst hji; rw [hci, zero_mul, zero_mul]
        · rw [hS1j j hji]
      rw [h, hsum, hsit t]

/-! ### Invariant preservation -/

lemma symbol_exists_false_iff {s : State F k m} {i : Fin k} :
    symbol_exists s i = false ↔ s.coded i = false ∧ s.uncoded i = false := by
  simp [symbol_exists]

lemma unitRow_diag (i : Fin k) : unitRow F i i = 1 := by simp [unitRow]

lemma unitRow_off {i j : Fin k} (h : j ≠ i) : unitRow F i j = 0 := by
  simp [unitRow, h]

lemma occupiedCard_insert {s r : State F k m} (p : Fin k)
    (hp : symbol_exists s p = false) (hrp : symbol_exists r p = true)
    (hother : ∀ j, j ≠ p → symbol_exists r j = symbol_exists s j) :
    occupiedCard r = occupiedCard s + 1 := by
  unfold occupiedCard
  have hset : Finset.univ.filter (fun i => symbol_exists r i = true)
      = insert p (Finset.univ.filter (fun i => symbol_exists s i = true)) := by
    ext j
    simp only [Finset.mem_filter, Finset.mem_insert, Finset.mem_univ,
      true_and]
    by_cases hj : j = p
    · subst hj; simp [hrp]
    · rw [hother j hj]
      constructor
      · exact fun h => Or.inr h
      · rintro (h | h)
        · exact absurd h hj
        · exact h
  have hnot : p ∉ Finset.univ.filter (fun i => symbol_exists s i = true) := by
    simp [hp]
  rw [hset, Finset.card_insert_of_not_mem hnot]

lemma occupiedCard_congr {s r : State F k m}
    (h : ∀ j, symbol_exists r j = symbol_exists s j) :
    occupiedCard r = occupiedCard s := by
  unfold occupiedCard
  congr 1
  ext j
  simp [h j]

/-- A coded row that loses a multiple of the freshly reduced pivot row keeps
the coded-row shape, and additionally becomes zero at the new pivot
column. -/
lemma shapeCod_sub {s : State F k m} (hsc : ShapeCod s)
    {p j : Fin k} (hj : s.coded j = true) (hjp : j ≠ p)
    {sv3 : Fin k → F} {μj : F}
    (hμ : μj = s.V j p)
    (hsv3p : sv3 p = 1)
    (hsv3low : ∀ u : Fin k, u.val < p.val → sv3 u = 0)
    (hsv3occ : ∀ u, symbol_exists s u = true → u ≠ p → sv3 u = 0)
    (w : Fin k → F) (hw : ∀ u, w u = s.V j u - μj * sv3 u) :
    w j = 1 ∧ (∀ u : Fin k, u.val < j.val → w u = 0) ∧
    (∀ q, (symbol_exists s q = true ∨ q = p) → q ≠ j → w q = 0) := by
  have hoccj : symbol_exists s j = true := by simp [symbol_exists, hj]
  obtain ⟨hd1, hd2, hd3⟩ := hsc j hj
  refine ⟨?_, ?_, ?_⟩
  · rw [hw j, hd1, hsv3occ j hoccj hjp, mul_zero, sub_zero]
  · intro u hu
    rw [hw u, hd2 u hu]
    by_cases hpj : p.val < j.val
    · rw [hμ, hd2 p hpj, zero_mul, sub_zero]
    · have hjp' : j.val < p.val := by
        rcases Nat.lt_trichotomy j.val p.val with h | h | h
        · exact h
        · exact absurd (Fin.ext h) hjp
        · exact absurd h hpj
      rw [hsv3low u (Nat.lt_trans hu hjp'), mul_zero, sub_zero]
  · intro q hq hqj
    by_cases hqp : q = p
    · subst hqp
      rw [hw q, hsv3p, mul_one, hμ, sub_self]
    · rcases hq with hq | hq
      · rw [hw q, hd3 q hq hqj, hsv3occ q hq hqp, mul_zero, sub_zero]
      · exact absurd hq hqp

/-- A successful coded absorption preserves the representation invariant
and increments the rank. -/
theorem pivotStep_inv {s r : State F k m} {sv : Fin k → F} {sd : Fin m → F}
    (hInv : Inv s) (h : PivotStep s r sv sd) :
    Inv r ∧ r.rank = s.rank + 1 := by
  obtain ⟨hrk, hnb, hmp, hsu, hsc, hez⟩ := hInv
  obtain ⟨p, sv3, sd3, μ, hpemp, hgt, hrank, huncr, hcodr, hmpr, hVp, hSp,
    hrows, hμsupp, hμfull, hsv3p, hsv3low, hsv3occ, γ, c, hγ0, hcsupp,
    hcombV, hcombS⟩ := h
  obtain ⟨hcodp, huncp⟩ := symbol_exists_false_iff.mp hpemp
  have hoccrp : symbol_exists r p = true := by
    simp [symbol_exists, hcodr, Function.update_same]
  have hoccr : ∀ j, j ≠ p → symbol_exists r j = symbol_exists s j := by
    intro j hj
    simp [symbol_exists, hcodr, huncr, Function.update_noteq hj]
  have hμ0unc : ∀ j, s.uncoded j = true → μ j = 0 := by
    intro j hj
    by_contra h0
    obtain ⟨_, hju, _, _⟩ := hμsupp j h0
    rw [hju] at hj
    cases hj
  have hμ0emp : ∀ j, symbol_exists s j = false → μ j = 0 := by
    intro j hj
    by_contra h0
    obtain ⟨hjc, _, _, _⟩ := hμsupp j h0
    rw [(symbol_exists_false_iff.mp hj).1] at hjc
    cases hjc
  refine ⟨⟨?_, ?_, ?_, ?_, ?_, ?_⟩, hrank⟩
  · -- RankEq
    show r.rank = occupiedCard r
    rw [occupiedCard_insert p hpemp hoccrp hoccr, hrank, hrk]
  · -- NotBoth
    intro j hj
    rw [huncr, hcodr] at hj
    by_cases hjp : j = p
    · subst hjp
      exact absurd hj.1 (by simp [huncp])
    · rw [Function.update_noteq hjp] at hj
      exact hnb j hj
  · -- MaxPivotBound
    intro j hocc
    rw [hmpr]
    by_cases hjp : j = p
    · subst hjp
      by_cases hc : s.max_pivot < j.val
      · rw [if_pos hc]
      · rw [if_neg hc]; omega
    · rw [hoccr j hjp] at hocc
      have := hmp j hocc
      by_cases hc : s.max_pivot < p.val
      · rw [if_pos hc]; omega
      · rw [if_neg hc]; omega
  · -- ShapeUnc
    intro j hj
    rw [huncr] at hj
    have hjp : j ≠ p := fun e => by rw [e, huncp] at hj; cases hj
    have hμ0 : μ j = 0 := hμ0unc j hj
    have hrow : ∀ u, r.V j u = s.V j u := by
      intro u
      rw [(hrows j hjp).1 u, hμ0, zero_mul, sub_zero]
    obtain ⟨h1, h2⟩ := hsu j hj
    exact ⟨by rw [hrow j, h1], fun u hu => by rw [hrow u, h2 u hu]⟩
  · -- ShapeCod
    intro j hj
    rw [hcodr] at hj
    by_cases hjp : j = p
    · subst hjp
      refine ⟨by rw [hVp]; exact hsv3p,
        fun u hu => by rw [hVp]; exact hsv3low u hu, ?_⟩
      intro q hq hqp
      rw [hVp]
      rw [hoccr q hqp] at hq
      exact hsv3occ q hq hqp
    · rw [Function.update_noteq hjp] at hj
      have hju : s.uncoded j = false := by
        rcases Bool.eq_false_or_eq_true (s.uncoded j) with h | h
        · exact absurd ⟨h, hj⟩ (hnb j)
        · exact h
      have hoccj : symbol_exists s j = true := by simp [symbol_exists, hj]
      have hμj : μ j = s.V j p := hμfull j hj hju hjp (hmp j hoccj)
      obtain ⟨e1, e2, e3⟩ := shapeCod_sub hsc hj hjp hμj.symm.symm hsv3p
        hsv3low hsv3occ (r.V j) (fun u => by
          rw [(hrows j hjp).1 u, hμj])
      refine ⟨e1, e2, ?_⟩
      intro q hq hqj
      by_cases hqp : q = p
      · exact e3 q (Or.inr hqp) hqj
      · rw [hoccr q hqp] at hq
        exact e3 q (Or.inl hq) hqj
  · -- EmptyZero
    intro j hocc u
    have hjp : j ≠ p := fun e => by rw [e, hoccrp] at hocc; cases hocc
    rw [hoccr j hjp] at hocc
    rw [(hrows j hjp).1 u, hμ0emp j hocc, zero_mul, sub_zero]
    exact hez j hocc u

/-- `decode` preserves the invariant; it either leaves the decoder
unchanged or increments the rank. -/
theorem decode_inv (bin : Bool) (s : State F k m) (hb : BinOk F bin)
    (hInv : Inv s) (sv : Fin k → F) (sd : Fin m → F) :
    Inv (decode bin s sv sd) ∧
    (decode bin s sv sd = s ∨ (decode bin s sv sd).rank = s.rank + 1) := by
  obtain ⟨hrk, hnb, hmp, hsu, hsc, hez⟩ := hInv
  rcases dwv_cases bin s hb (lowerShape_of_inv hsu hsc) hmp sv sd with
    ⟨heq, _⟩ | hps
  · have h2 : decode bin s sv sd = s := heq
    rw [h2]
    exact ⟨⟨hrk, hnb, hmp, hsu, hsc, hez⟩, Or.inl rfl⟩
  · have h2 := pivotStep_inv ⟨hrk, hnb, hmp, hsu, hsc, hez⟩ hps
    exact ⟨h2.1, Or.inr h2.2⟩

/-- `decode_raw` preserves the invariant. -/
theorem decode_raw_inv (bin : Bool) (s : State F k m) (hb : BinOk F bin)
    (hInv : Inv s) (sd : Fin m → F) (i : Fin k) :
    Inv (decode_raw bin s sd i) := by
  obtain ⟨hrk, hnb, hmp, hsu, hsc, hez⟩ := hInv
  rcases Bool.eq_false_or_eq_true (s.uncoded i) with hunc | hunc
  · rw [decode_raw_noop hunc]
    exact ⟨hrk, hnb, hmp, hsu, hsc, hez⟩
  rcases Bool.eq_false_or_eq_true (s.coded i) with hcod | hcod
  swap
  · -- empty slot: raw insertion
    have hemp : symbol_exists s i = false := by
      simp [symbol_exists, hunc, hcod]
    obtain ⟨μ, hrank, huncr, hcodr, hmpr, hVi, hSi, hrows, hμsupp, hμfull⟩ :=
      raw_empty_spec bin s hb sd i hunc hcod
    have hwrow : Function.update (s.V i) i 1 = unitRow F i := by
      funext u
      by_cases hu : u = i
      · subst hu; rw [Function.update_same, unitRow_diag]
      · rw [Function.update_noteq hu, hez i hemp u, unitRow_off hu]
    rw [hwrow] at hVi hrows
    have hoccrp : symbol_exists (decode_raw bin s sd i) i = true := by
      simp [symbol_exists, huncr, Function.update_same]
    have hoccr : ∀ j, j ≠ i →
        symbol_exists (decode_raw bin s sd i) j = symbol_exists s j := by
      intro j hj
      simp [symbol_exists, hcodr, huncr, Function.update_noteq hj]
    have hμ0unc : ∀ j, s.uncoded j = true → μ j = 0 := by
      intro j hj
      by_contra h0
      obtain ⟨_, hju, _, _⟩ := hμsupp j h0
      rw [hju] at hj
      cases hj
    have hμ0emp : ∀ j, symbol_exists s j = false → μ j = 0 := by
      intro j hj
      by_contra h0
      obtain ⟨hjc, _, _, _⟩ := hμsupp j h0
      rw [(symbol_exists_false_iff.mp hj).1] at hjc
      cases hjc
    refine ⟨?_, ?_, ?_, ?_, ?_, ?_⟩
    · show (decode_raw bin s sd i).rank = occupiedCard (decode_raw bin s sd i)
      rw [occupiedCard_insert i hemp hoccrp hoccr, hrank, hrk]
    · intro j hj
      rw [huncr, hcodr] at hj
      by_cases hji : j = i
      · subst hji
        exact absurd hj.2 (by simp [hcod])
      · rw [Function.update_noteq hji] at hj
        exact hnb j hj
    · intro j hocc
      rw [hmpr]
      by_cases hji : j = i
      · subst hji
        by_cases hc : s.max_pivot < j.val
        · rw [if_pos hc]
        · rw [if_neg hc]; omega
      · rw [hoccr j hji] at hocc
        have := hmp j hocc
        by_cases hc : s.max_pivot < i.val
        · rw [if_pos hc]; omega
        · rw [if_neg hc]; omega
    · intro j hj
      rw [huncr] at hj
      by_cases hji : j = i
      · subst hji
        rw [hVi]
        exact ⟨unitRow_diag j, fun u hu => unitRow_off hu⟩
      · rw [Function.update_noteq hji] at hj
        have hμ0 : μ j = 0 := hμ0unc j hj
        have hrow : ∀ u, (decode_raw bin s sd i).V j u = s.V j u := by
          intro u
          rw [(hrows j hji).1 u, hμ0, zero_mul, sub_zero]
        obtain ⟨h1, h2⟩ := hsu j hj
        exact ⟨by rw [hrow j, h1], fun u hu => by rw [hrow u, h2 u hu]⟩
    · intro j hj
      rw [hcodr] at hj
      have hji : j ≠ i := fun e => by rw [e, hcod] at hj; cases hj
      have hju : s.uncoded j = false := by
        rcases Bool.eq_false_or_eq_true (s.uncoded j) with h | h
        · exact absurd ⟨h, hj⟩ (hnb j)
        · exact h
      have hoccj : symbol_exists s j = true := by simp [symbol_exists, hj]
      have hμj : μ j = s.V j i := hμfull j hj hju hji (hmp j hoccj)
      obtain ⟨e1, e2, e3⟩ := shapeCod_sub hsc hj hji hμj
        (unitRow_diag i) (fun u hu => unitRow_off
          (fun e => absurd (congrArg Fin.val e) (Nat.ne_of_lt hu)))
        (fun u _ hu => unitRow_off hu)
        ((decode_raw bin s sd i).V j)
        (fun u => by rw [(hrows j hji).1 u, hμj])
      refine ⟨e1, e2, ?_⟩
      intro q hq hqj
      by_cases hqi : q = i
      · exact e3 q (Or.inr hqi) hqj
      · rw [hoccr q hqi] at hq
        exact e3 q (Or.inl hq) hqj
    · intro j hocc u
      have hji : j ≠ i := fun e => by rw [e, hoccrp] at hocc; cases hocc
      rw [hoccr j hji] at hocc
      rw [(hrows j hji).1 u, hμ0emp j hocc, zero_mul, sub_zero]
      exact hez j hocc u
  · -- swap path
    have hocci : symbol_exists s i = true := by simp [symbol_exists, hcod]
    rcases swap_spec bin s hb sd i hunc hcod hsu hsc hmp with
      ⟨hrank, hmpr, huncr, hcodr, hrowsid, hVi, hSi, _⟩ |
      ⟨p, sv3, sd3, μ, hip, hpemp, hrank, hmpr, huncr, hcodr, hVi, hSi, hVp,
        hSp, hrows, hμsupp, hμfull, hsv3p, hsv3low, hsv3occ, _⟩
    · -- dependent re-absorption: slot flips coded → uncoded, rest unchanged
      have hocceq : ∀ j,
          symbol_exists (decode_raw bin s sd i) j = symbol_exists s j := by
        intro j
        by_cases hji : j = i
        · subst hji
          simp [symbol_exists, huncr, hcodr, Function.update_same, hcod]
        · simp [symbol_exists, huncr, hcodr, Function.update_noteq hji]
      refine ⟨?_, ?_, ?_, ?_, ?_, ?_⟩
      · show (decode_raw bin s sd i).rank
            = occupiedCard (decode_raw bin s sd i)
        rw [occupiedCard_congr hocceq, hrank, hrk]
      · intro j hj
        rw [huncr, hcodr] at hj
        by_cases hji : j = i
        · subst hji
          rw [Function.update_same, Function.update_same] at hj
          cases hj.2
        · rw [Function.update_noteq hji, Function.update_noteq hji] at hj
          exact hnb j hj
      · intro j hocc
        rw [hocceq j] at hocc
        rw [hmpr]
        exact hmp j hocc
      · intro j hj
        rw [huncr] at hj
        by_cases hji : j = i
        · subst hji
          rw [hVi]
          exact ⟨unitRow_diag j, fun u hu => unitRow_off hu⟩
        · rw [Function.update_noteq hji] at hj
          rw [(hrowsid j hji).1]
          exact hsu j hj
      · intro j hj
        rw [hcodr] at hj
        have hji : j ≠ i := by
          intro e
          rw [e, Function.update_same] at hj
          cases hj
        rw [Function.update_noteq hji] at hj
        rw [(hrowsid j hji).1]
        obtain ⟨h1, h2, h3⟩ := hsc j hj
        refine ⟨h1, h2, ?_⟩
        intro q hq hqj
        rw [hocceq q] at hq
        exact h3 q hq hqj
      · intro j hocc u
        rw [hocceq j] at hocc
        have hji : j ≠ i := fun e => by rw [e, hocci] at hocc; cases hocc
        rw [(hrowsid j hji).1]
        exact hez j hocc u
    · -- re-absorption stored a new pivot p > i
      have hpi : p ≠ i := fun e => absurd (congrArg Fin.val e)
        (Nat.ne_of_gt hip)
      have hipn : i ≠ p := fun e => hpi e.symm
      obtain ⟨hcodp, huncp⟩ := symbol_exists_false_iff.mp hpemp
      have hoccrp : symbol_exists (decode_raw bin s sd i) p = true := by
        simp [symbol_exists, hcodr, Function.update_same]
      have hoccr : ∀ j, j ≠ p →
          symbol_exists (decode_raw bin s sd i) j = symbol_exists s j := by
        intro j hj
        by_cases hji : j = i
        · subst hji
          simp [symbol_exists, huncr, hcodr, Function.update_same,
            Function.update_noteq hj, hcod]
        · simp [symbol_exists, huncr, hcodr, Function.update_noteq hj,
            Function.update_noteq hji]
      have hsv3occ' : ∀ q, symbol_exists s q = true → q ≠ p → sv3 q = 0 :=
        hsv3occ
      refine ⟨?_, ?_, ?_, ?_, ?_, ?_⟩
      · show (decode_raw bin s sd i).rank
            = occupiedCard (decode_raw bin s sd i)
        rw [occupiedCard_insert p hpemp hoccrp hoccr, hrank, hrk]
      · intro j hj
        rw [huncr, hcodr] at hj
        by_cases hjp : j = p
        · subst hjp
          rw [Function.update_noteq hpi] at hj
          exact absurd hj.1 (by simp [huncp])
        · rw [Function.update_noteq hjp] at hj
          by_cases hji : j = i
          · subst hji
            rw [Function.update_same, Function.update_same] at hj
            cases hj.2
          · rw [Function.update_noteq hji, Function.update_noteq hji] at hj
            exact hnb j hj
      · intro j hocc
        rw [hmpr]
        by_cases hjp : j = p
        · subst hjp
          by_cases hc : s.max_pivot < j.val
          · rw [if_pos hc]
          · rw [if_neg hc]; omega
        · rw [hoccr j hjp] at hocc
          have := hmp j hocc
          by_cases hc : s.max_pivot < p.val
          · rw [if_pos hc]; omega
          · rw [if_neg hc]; omega
      · intro j hj
        rw [huncr] at hj
        by_cases hji : j = i
        · subst hji
          rw [hVi]
          exact ⟨unitRow_diag j, fun u hu => unitRow_off hu⟩
        · rw [Function.update_noteq hji] at hj
          have hjp : j ≠ p := fun e => by rw [e, huncp] at hj; cases hj
          have hμ0 : μ j = 0 := by
            by_contra h0
            obtain ⟨_, hju, _, _, _⟩ := hμsupp j h0
            rw [hju] at hj
            cases hj
          have hrow : ∀ u, (decode_raw bin s sd i).V j u = s.V j u := by
            intro u
            rw [(hrows j hji hjp).1 u, hμ0, zero_mul, sub_zero]
          obtain ⟨h1, h2⟩ := hsu j hj
          exact ⟨by rw [hrow j, h1], fun u hu => by rw [hrow u, h2 u hu]⟩
      · intro j hj
        rw [hcodr] at hj
        by_cases hjp : j = p
        · subst hjp
          refine ⟨by rw [hVp]; exact hsv3p,
            fun u hu => by rw [hVp]; exact hsv3low u hu, ?_⟩
          intro q hq hqp
          rw [hVp]
          by_cases hqi : q = i
          · subst hqi
            exact hsv3occ q hocci hqp
          · rw [hoccr q hqp] at hq
            exact hsv3occ q hq hqp
        · rw [Function.update_noteq hjp] at hj
          have hji : j ≠ i := by
            intro e
            rw [e, Function.update_same] at hj
            cases hj
          rw [Function.update_noteq hji] at hj
          have hju : s.uncoded j = false := by
            rcases Bool.eq_false_or_eq_true (s.uncoded j) with h | h
            · exact absurd ⟨h, hj⟩ (hnb j)
            · exact h
          have hoccj : symbol_exists s j = true := by
            simp [symbol_exists, hj]
          have hμj : μ j = s.V j p :=
            hμfull j hj hju hji hjp (hmp j hoccj)
          obtain ⟨e1, e2, e3⟩ := shapeCod_sub hsc hj hjp hμj hsv3p
            hsv3low hsv3occ ((decode_raw bin s sd i).V j)
            (fun u => by rw [(hrows j hji hjp).1 u, hμj])
          refine ⟨e1, e2, ?_⟩
          intro q hq hqj
          by_cases hqp : q = p
          · exact e3 q (Or.inr hqp) hqj
          · by_cases hqi : q = i
            · subst hqi
              exact e3 q (Or.inl hocci) hqj
            · rw [hoccr q hqp] at hq
              exact e3 q (Or.inl hq) hqj
      · intro j hocc u
        have hjp : j ≠ p := fun e => by rw [e, hoccrp] at hocc; cases hocc
        have hji : j ≠ i := by
          intro e
          rw [e] at hocc
          rw [hoccr i hipn, hocci] at hocc
          cases hocc
        rw [hoccr j hjp] at hocc
        have hμ0 : μ j = 0 := by
          by_contra h0
          obtain ⟨hjc, _, _, _, _⟩ := hμsupp j h0
          rw [(symbol_exists_false_iff.mp hocc).1] at hjc
          cases hjc
        rw [(hrows j hji hjp).1 u, hμ0, zero_mul, sub_zero]
        exact hez j hocc u

/-! ### Consistency with the source symbols -/

lemma pair_sub_consistent (src : Fin k → Fin m → F) (v w : Fin k → F)
    (dv dw : Fin m → F) (μ : F)
    (hv : ∀ t, dv t = ∑ u, v u * src u t)
    (hw : ∀ t, dw t = ∑ u, w u * src u t) :
    ∀ t, dv t - μ * dw t = ∑ u, (v u - μ * w u) * src u t := by
  intro t
  rw [hv t, hw t, Finset.mul_sum, ← Finset.sum_sub_distrib]
  exact Finset.sum_congr rfl (fun u _ => by ring)

lemma unit_pair_consistent (src : Fin k → Fin m → F) (i : Fin k)
    (sd : Fin m → F) (hraw : ∀ t, sd t = src i t) :
    ∀ t, sd t = ∑ u, unitRow F i u * src u t := by
  intro t
  have h : (∑ u, unitRow F i u * src u t)
      = ∑ u, (if u = i then (1 : F) else 0) * src u t := rfl
  rw [h, sum_single_mul i 1 (fun u => src u t), one_mul, hraw t]

lemma comb_pair_consistent (src : Fin k → Fin m → F) (s : State F k m)
    (hC : Consistent src s)
    (γ : F) (c : Fin k → F)
    (hsupp : ∀ j, c j ≠ 0 → symbol_exists s j = true)
    (sv : Fin k → F) (sd : Fin m → F)
    (hpair : ∀ t, sd t = ∑ u, sv u * src u t)
    (sv3 : Fin k → F) (sd3 : Fin m → F)
    (hV : ∀ u, sv3 u = γ * sv u - ∑ j, c j * s.V j u)
    (hS : ∀ t, sd3 t = γ * sd t - ∑ j, c j * s.S j t) :
    ∀ t, sd3 t = ∑ u, sv3 u * src u t := by
  intro t
  rw [hS t, hpair t]
  have h1 : ∀ j : Fin k, c j * s.S j t = ∑ u, c j * s.V j u * src u t := by
    intro j
    by_cases hj : c j = 0
    · simp [hj]
    · rw [hC j (hsupp j hj) t, Finset.mul_sum]
      exact Finset.sum_congr rfl (fun u _ => by ring)
  rw [Finset.sum_congr rfl (fun j _ => h1 j), Finset.sum_comm,
    Finset.mul_sum, ← Finset.sum_sub_distrib]
  refine Finset.sum_congr rfl (fun u _ => ?_)
  rw [hV u, sub_mul, Finset.sum_mul]
  ring_nf
  rw [Finset.sum_congr rfl (fun j _ => by ring :
    ∀ j ∈ Finset.univ, c j * s.V j u * src u t
      = src u t * c j * s.V j u)]

/-- A successful coded absorption preserves consistency with the source. -/
theorem pivotStep_consistent {s r : State F k m} {sv : Fin k → F}
    {sd : Fin m → F} (src : Fin k → Fin m → F) (hC : Consistent src s)
    (hpair : ∀ t, sd t = ∑ u, sv u * src u t)
    (h : PivotStep s r sv sd) : Consistent src r := by
  obtain ⟨p, sv3, sd3, μ, hpemp, hgt, hrank, huncr, hcodr, hmpr, hVp, hSp,
    hrows, hμsupp, hμfull, hsv3p, hsv3low, hsv3occ, γ, c, hγ0, hcsupp,
    hcombV, hcombS⟩ := h
  have hoccr : ∀ j, j ≠ p → symbol_exists r j = symbol_exists s j := by
    intro j hj
    simp [symbol_exists, hcodr, huncr, Function.update_noteq hj]
  have hnew : ∀ t, sd3 t = ∑ u, sv3 u * src u t :=
    comb_pair_consistent src s hC γ c hcsupp sv sd hpair sv3 sd3 hcombV
      hcombS
  intro j hocc t
  by_cases hjp : j = p
  · subst hjp
    rw [hSp, Finset.sum_congr rfl (fun u _ => by rw [hVp])]
    exact hnew t
  · rw [hoccr j hjp] at hocc
    rw [(hrows j hjp).2 t,
      Finset.sum_congr rfl (fun u _ => by rw [(hrows j hjp).1 u])]
    exact pair_sub_consistent src (s.V j) sv3 (fun t => s.S j t) sd3 (μ j)
      (hC j hocc) hnew t

/-- `decode` preserves consistency with the source. -/
theorem decode_consistent (bin : Bool) (s : State F k m) (hb : BinOk F bin)
    (hInv : Inv s) (src : Fin k → Fin m → F) (hC : Consistent src s)
    (sv : Fin k → F) (sd : Fin m → F)
    (hpair : ∀ t, sd t = ∑ u, sv u * src u t) :
    Consistent src (decode bin s sv sd) := by
  obtain ⟨hrk, hnb, hmp, hsu, hsc, hez⟩ := hInv
  rcases dwv_cases bin s hb (lowerShape_of_inv hsu hsc) hmp sv sd with
    ⟨heq, _⟩ | hps
  · have h2 : decode bin s sv sd = s := heq
    rw [h2]
    exact hC
  · exact pivotStep_consistent src hC hpair hps

/-- `decode_raw` with the true source symbol preserves consistency. -/
theorem decode_raw_consistent (bin : Bool) (s : State F k m)
    (hb : BinOk F bin) (hInv : Inv s) (src : Fin k → Fin m → F)
    (hC : Consistent src s) (sd : Fin m → F) (i : Fin k)
    (hraw : ∀ t, sd t = src i t) :
    Consistent src (decode_raw bin s sd i) := by
  obtain ⟨hrk, hnb, hmp, hsu, hsc, hez⟩ := hInv
  have hunitp : ∀ t, sd t = ∑ u, unitRow F i u * src u t :=
    unit_pair_consistent src i sd hraw
  rcases Bool.eq_false_or_eq_true (s.uncoded i) with hunc | hunc
  · rw [decode_raw_noop hunc]
    exact hC
  rcases Bool.eq_false_or_eq_true (s.coded i) with hcod | hcod
  swap
  · -- empty slot
    have hemp : symbol_exists s i = false := by
      simp [symbol_exists, hunc, hcod]
    obtain ⟨μ, hrank, huncr, hcodr, hmpr, hVi, hSi, hrows, hμsupp, hμfull⟩ :=
      raw_empty_spec bin s hb sd i hunc hcod
    have hwrow : Function.update (s.V i) i 1 = unitRow F i := by
      funext u
      by_cases hu : u = i
      · subst hu; rw [Function.update_same, unitRow_diag]
      · rw [Function.update_noteq hu, hez i hemp u, unitRow_off hu]
    rw [hwrow] at hVi hrows
    have hoccr : ∀ j, j ≠ i →
        symbol_exists (decode_raw bin s sd i) j = symbol_exists s j := by
      intro j hj
      simp [symbol_exists, hcodr, huncr, Function.update_noteq hj]
    intro j hocc t
    by_cases hji : j = i
    · subst hji
      rw [hSi, Finset.sum_congr rfl (fun u _ => by rw [hVi])]
      exact hunitp t
    · rw [hoccr j hji] at hocc
      rw [(hrows j hji).2 t,
        Finset.sum_congr rfl (fun u _ => by rw [(hrows j hji).1 u])]
      exact pair_sub_consistent src (s.V j) (unitRow F i)
        (fun t => s.S j t) sd (μ j) (hC j hocc) hunitp t
  · -- swap path
    have hocci : symbol_exists s i = true := by simp [symbol_exists, hcod]
    have hevict : ∀ t, s.S i t - sd t
        = ∑ u, (s.V i u - unitRow F i u) * src u t := by
      intro t
      have h := pair_sub_consistent src (s.V i) (unitRow F i)
        (fun t => s.S i t) sd 1 (hC i hocci) hunitp t
      rw [one_mul] at h
      rw [h]
      exact Finset.sum_congr rfl (fun u _ => by rw [one_mul])
    rcases swap_spec bin s hb sd i hunc hcod hsu hsc hmp with
      ⟨hrank, hmpr, huncr, hcodr, hrowsid, hVi, hSi, _⟩ |
      ⟨p, sv3, sd3, μ, hip, hpemp, hrank, hmpr, huncr, hcodr, hVi, hSi, hVp,
        hSp, hrows, hμsupp, hμfull, hsv3p, hsv3low, hsv3occ, γ, c, hγ0,
        hcsupp, hcombV, hcombS⟩
    · have hocceq : ∀ j,
          symbol_exists (decode_raw bin s sd i) j = symbol_exists s j := by
        intro j
        by_cases hji : j = i
        · subst hji
          simp [symbol_exists, huncr, hcodr, Function.update_same, hcod]
        · simp [symbol_exists, huncr, hcodr, Function.update_noteq hji]
      intro j hocc t
      rw [hocceq j] at hocc
      by_cases hji : j = i
      · subst hji
        rw [hSi, Finset.sum_congr rfl (fun u _ => by rw [hVi])]
        exact hunitp t
      · rw [(hrowsid j hji).2, (show (decode_raw bin s sd i).V j = s.V j
          from (hrowsid j hji).1)]
        exact hC j hocc t
    · have hoccr : ∀ j, j ≠ p →
          symbol_exists (decode_raw bin s sd i) j = symbol_exists s j := by
        intro j hj
        by_cases hji : j = i
        · subst hji
          simp [symbol_exists, huncr, hcodr, Function.update_same,
            Function.update_noteq hj, hcod]
        · simp [symbol_exists, huncr, hcodr, Function.update_noteq hj,
            Function.update_noteq hji]
      have hnew : ∀ t, sd3 t = ∑ u, sv3 u * src u t :=
        comb_pair_consistent src s hC γ c (fun j hj => (hcsupp j hj).1)
          (fun u => s.V i u - unitRow F i u) (fun t => s.S i t - sd t)
          hevict sv3 sd3 hcombV hcombS
      intro j hocc t
      by_cases hjp : j = p
      · subst hjp
        rw [hSp, Finset.sum_congr rfl (fun u _ => by rw [hVp])]
        exact hnew t
      · by_cases hji : j = i
        · subst hji
          rw [hSi, Finset.sum_congr rfl (fun u _ => by rw [hVi])]
          exact hunitp t
        · rw [hoccr j hjp] at hocc
          rw [(hrows j hji hjp).2 t,
            Finset.sum_congr rfl (fun u _ => by rw [(hrows j hji hjp).1 u])]
          exact pair_sub_consistent src (s.V j) sv3 (fun t => s.S j t) sd3
            (μ j) (hC j hocc) hnew t

/-! ### Packets and spans -/

/-- An incoming packet: either a coded packet carrying its coefficient
vector and payload, or a raw (systematic) packet carrying its index and
payload. -/
inductive Packet (F : Type) (k m : ℕ) where
  | coded (sv : Fin k → F) (sd : Fin m → F)
  | raw (i : Fin k) (sd : Fin m → F)

/-- Coefficient vector of a packet (the elementary row for a raw packet). -/
def pvec : Packet F k m → (Fin k → F)
  | .coded sv _ => sv
  | .raw i _ => unitRow F i

/-- Payload of a packet. -/
def pdat : Packet F k m → (Fin m → F)
  | .coded _ sd => sd
  | .raw _ sd => sd

/-- Absorb one packet through the decoder's public entry points. -/
def absorb (bin : Bool) (s : State F k m) : Packet F k m → State F k m
  | .coded sv sd => decode bin s sv sd
  | .raw i sd => decode_raw bin s sd i

/-- Absorb a list of packets in order. -/
def absorbList (bin : Bool) (s : State F k m)
    (ps : List (Packet F k m)) : State F k m :=
  ps.foldl (absorb bin) s

/-- The packet is a valid encoding of the source block `src`. -/
def PacketGood (src : Fin k → Fin m → F) (q : Packet F k m) : Prop :=
  ∀ t, pdat q t = ∑ u, pvec q u * src u t

/-- Linear independence of the packets' coefficient vectors: no vector is a
combination of the remaining ones. -/
def IndepPackets (ps : List (Packet F k m)) : Prop :=
  ∀ (a : Fin ps.length) (c : Fin ps.length → F), c a = 0 →
    ¬ (∀ u, pvec (ps.get a) u = ∑ b, c b * pvec (ps.get b) u)

instance instDecPacketGood (src : Fin k → Fin m → F) (q : Packet F k m) :
    Decidable (PacketGood src q) :=
  decidable_of_iff (∀ t, pdat q t = ∑ u, pvec q u * src u t) Iff.rfl

instance instDecIndepPackets [Fintype F] (ps : List (Packet F k m)) :
    Decidable (IndepPackets ps) :=
  decidable_of_iff
    (∀ (a : Fin ps.length) (c : Fin ps.length → F), c a = 0 →
      ¬ (∀ u, pvec (ps.get a) u = ∑ b, c b * pvec (ps.get b) u))
    Iff.rfl

/-- Membership in the span of the coefficient vectors of the first `t`
packets of `ps`. -/
def SpanTake (ps : List (Packet F k m)) (t : ℕ) (w : Fin k → F) : Prop :=
  ∃ e : Fin ps.length → F, (∀ a : Fin ps.length, t ≤ a.val → e a = 0) ∧
    ∀ u, w u = ∑ a, e a * pvec (ps.get a) u

lemma spanTake_congr {ps : List (Packet F k m)} {t : ℕ}
    {w w' : Fin k → F} (h : ∀ u, w u = w' u) (hw : SpanTake ps t w') :
    SpanTake ps t w := by
  obtain ⟨e, he1, he2⟩ := hw
  exact ⟨e, he1, fun u => (h u).trans (he2 u)⟩

lemma spanTake_mono {ps : List (Packet F k m)} {t t' : ℕ} (h : t ≤ t')
    {w : Fin k → F} (hw : SpanTake ps t w) : SpanTake ps t' w := by
  obtain ⟨e, he1, he2⟩ := hw
  exact ⟨e, fun a ha => he1 a (le_trans h ha), he2⟩

lemma spanTake_packet {ps : List (Packet F k m)} {t : ℕ}
    (ht : t < ps.length) :
    SpanTake ps (t + 1) (pvec (ps.get ⟨t, ht⟩)) := by
  refine ⟨fun a => if a = ⟨t, ht⟩ then 1 else 0, ?_, ?_⟩
  · intro a ha
    refine if_neg (fun e => ?_)
    have hv : a.val = t := by rw [e]
    omega
  · intro u
    rw [sum_single_mul (⟨t, ht⟩ : Fin ps.length) 1
      (fun a => pvec (ps.get a) u), one_mul]

lemma spanTake_comb {ps : List (Packet F k m)} {t : ℕ}
    (c : Fin k → F) (g : Fin k → Fin k → F)
    (hg : ∀ j, c j ≠ 0 → SpanTake ps t (g j)) :
    SpanTake ps t (fun u => ∑ j, c j * g j u) := by
  classical
  simp only [SpanTake] at hg
  choose e he1 he2 using hg
  refine ⟨fun a => ∑ j, (if h : c j ≠ 0 then c j * e j h a else 0), ?_, ?_⟩
  · intro a ha
    refine Finset.sum_eq_zero (fun j _ => ?_)
    by_cases h : c j ≠ 0
    · rw [dif_pos h, he1 j h a ha, mul_zero]
    · rw [dif_neg h]
  · intro u
    have hsplit : ∀ a : Fin ps.length,
        (∑ j, (if h : c j ≠ 0 then c j * e j h a else 0))
            * pvec (ps.get a) u
          = ∑ j, (if h : c j ≠ 0 then c j * e j h a else 0)
            * pvec (ps.get a) u :=
      fun a => Finset.sum_mul _ _ _
    rw [Finset.sum_congr rfl (fun a _ => hsplit a), Finset.sum_comm]
    refine Finset.sum_congr rfl (fun j _ => ?_)
    by_cases h : c j ≠ 0
    · have hrw : ∀ a : Fin ps.length,
          (if h' : c j ≠ 0 then c j * e j h' a else 0) * pvec (ps.get a) u
            = c j * (e j h a * pvec (ps.get a) u) := by
        intro a
        rw [dif_pos h]
        ring
      rw [Finset.sum_congr rfl (fun a _ => hrw a), ← Finset.mul_sum,
        ← he2 j h u]
    · have hc0 : c j = 0 := not_not.mp h
      have hrw : ∀ a : Fin ps.length,
          (if h' : c j ≠ 0 then c j * e j h' a else 0) * pvec (ps.get a) u
            = 0 := by
        intro a
        rw [dif_neg h, zero_mul]
      rw [Finset.sum_congr rfl (fun a _ => hrw a), Finset.sum_const_zero,
        hc0, zero_mul]

lemma spanTake_sub {ps : List (Packet F k m)} {t : ℕ}
    (x y : Fin k → F) (μ : F) (hx : SpanTake ps t x)
    (hy : SpanTake ps t y) :
    SpanTake ps t (fun u => x u - μ * y u) := by
  obtain ⟨e1, he11, he12⟩ := hx
  obtain ⟨e2, he21, he22⟩ := hy
  refine ⟨fun a => e1 a - μ * e2 a, ?_, ?_⟩
  · intro a ha
    show e1 a - μ * e2 a = 0
    rw [he11 a ha, he21 a ha, mul_zero, sub_zero]
  · intro u
    show x u - μ * y u = ∑ a, (e1 a - μ * e2 a) * pvec (ps.get a) u
    rw [he12 u, he22 u, Finset.mul_sum, ← Finset.sum_sub_distrib]
    exact Finset.sum_congr rfl (fun a _ => by ring)

lemma spanTake_pivot_comb {ps : List (Packet F k m)} {t : ℕ}
    (γ : F) (x : Fin k → F) (c : Fin k → F) (g : Fin k → Fin k → F)
    (hx : SpanTake ps t x)
    (hg : ∀ j, c j ≠ 0 → SpanTake ps t (g j)) :
    SpanTake ps t (fun u => γ * x u - ∑ j, c j * g j u) := by
  obtain ⟨e1, he11, he12⟩ := hx
  obtain ⟨e2, he21, he22⟩ := spanTake_comb c g hg
  refine ⟨fun a => γ * e1 a - e2 a, ?_, ?_⟩
  · intro a ha
    show γ * e1 a - e2 a = 0
    rw [he11 a ha, he21 a ha, mul_zero, sub_zero]
  · intro u
    show γ * x u - (∑ j, c j * g j u)
        = ∑ a, (γ * e1 a - e2 a) * pvec (ps.get a) u
    have h2 : (∑ j, c j * g j u) = ∑ a, e2 a * pvec (ps.get a) u := he22 u
    rw [h2, he12 u, Finset.mul_sum, ← Finset.sum_sub_distrib]
    exact Finset.sum_congr rfl (fun a _ => by ring)

/-- One absorption step of the decodability argument: a good packet whose
coefficient vector lies outside the span of the previously absorbed packets
raises the rank by one, keeps the invariant and consistency, and keeps
every stored coefficient row inside the extended span. -/
theorem absorb_step (bin : Bool) (s : State F k m) (hb : BinOk F bin)
    (hInv : Inv s) (src : Fin k → Fin m → F) (hC : Consistent src s)
    (q : Packet F k m) (hq : PacketGood src q)
    (ps : List (Packet F k m)) (t : ℕ)
    (hstored : ∀ j, symbol_exists s j = true → SpanTake ps t (s.V j))
    (hnot : ¬ SpanTake ps t (pvec q))
    (hqQ : SpanTake ps (t + 1) (pvec q)) :
    Inv (absorb bin s q) ∧ Consistent src (absorb bin s q) ∧
    (absorb bin s q).rank = s.rank + 1 ∧
    (∀ j, symbol_exists (absorb bin s q) j = true →
      SpanTake ps (t + 1) ((absorb bin s q).V j)) := by
  have hPQ : ∀ w, SpanTake ps t w → SpanTake ps (t + 1) w :=
    fun w => spanTake_mono (Nat.le_succ t)
  cases q with
  | coded sv sd =>
      obtain ⟨hrk, hnb, hmp, hsu, hsc, hez⟩ := hInv
      have hnot' : ¬ SpanTake ps t sv := hnot
      have hqQ' : SpanTake ps (t + 1) sv := hqQ
      have habs : absorb bin s (Packet.coded sv sd)
          = decode_with_vector bin s sv sd := rfl
      rw [habs]
      have hpair : ∀ t', sd t' = ∑ u, sv u * src u t' := hq
      rcases dwv_cases bin s hb (lowerShape_of_inv hsu hsc) hmp sv sd with
        ⟨heq, c, hsupp, hspan⟩ | hps
      · exact absurd (spanTake_congr hspan
          (spanTake_comb c (fun j => s.V j)
            (fun j hj => hstored j (hsupp j hj)))) hnot'
      · have hInv' := pivotStep_inv ⟨hrk, hnb, hmp, hsu, hsc, hez⟩ hps
        have hCons' := pivotStep_consistent src hC hpair hps
        obtain ⟨p, sv3, sd3, μ, hpemp, hgt, hrank, huncr, hcodr, hmpr, hVp,
          hSp, hrows, hμsupp, hμfull, hsv3p, hsv3low, hsv3occ, γ, c, hγ0,
          hcsupp, hcombV, hcombS⟩ := hps
        have hoccr : ∀ j, j ≠ p →
            symbol_exists (decode_with_vector bin s sv sd) j
              = symbol_exists s j := by
          intro j hj
          simp [symbol_exists, hcodr, huncr, Function.update_noteq hj]
        refine ⟨hInv'.1, hCons', hrank, ?_⟩
        have hQsv3 : SpanTake ps (t + 1) sv3 :=
          spanTake_congr hcombV (spanTake_pivot_comb γ sv c (fun j => s.V j)
            hqQ' (fun j hj => hPQ _ (hstored j (hcsupp j hj))))
        intro j hocc
        by_cases hjp : j = p
        · subst hjp
          exact spanTake_congr (fun u => by rw [hVp]) hQsv3
        · rw [hoccr j hjp] at hocc
          exact spanTake_congr (fun u => (hrows j hjp).1 u)
            (spanTake_sub (s.V j) sv3 (μ j) (hPQ _ (hstored j hocc)) hQsv3)
  | raw i sd =>
      have hnot' : ¬ SpanTake ps t (unitRow F i) := hnot
      have hqQ' : SpanTake ps (t + 1) (unitRow F i) := hqQ
      have habs : absorb bin s (Packet.raw i sd)
          = decode_raw bin s sd i := rfl
      rw [habs]
      have hraw : ∀ t', sd t' = src i t' := by
        intro t'
        have h : sd t' = ∑ u, unitRow F i u * src u t' := hq t'
        rw [h, show (∑ u, unitRow F i u * src u t')
            = ∑ u, (if u = i then (1 : F) else 0) * src u t' from rfl,
          sum_single_mul i 1 (fun u => src u t'), one_mul]
      have hInv' := decode_raw_inv bin s hb hInv sd i
      have hCons' := decode_raw_consistent bin s hb hInv src hC sd i hraw
      obtain ⟨hrk, hnb, hmp, hsu, hsc, hez⟩ := hInv
      have hmain : (decode_raw bin s sd i).rank = s.rank + 1 ∧
          (∀ j, symbol_exists (decode_raw bin s sd i) j = true →
            SpanTake ps (t + 1) ((decode_raw bin s sd i).V j)) := by
        rcases Bool.eq_false_or_eq_true (s.uncoded i) with hunc | hunc
        · exfalso
          apply hnot'
          refine spanTake_congr (fun u => ?_)
            (hstored i (by simp [symbol_exists, hunc]))
          obtain ⟨h1, h2⟩ := hsu i hunc
          by_cases hu : u = i
          · subst hu
            rw [unitRow_diag, h1]
          · rw [unitRow_off hu, h2 u hu]
        rcases Bool.eq_false_or_eq_true (s.coded i) with hcod | hcod
        swap
        · have hemp : symbol_exists s i = false := by
            simp [symbol_exists, hunc, hcod]
          obtain ⟨μ, hrank, huncr, hcodr, hmpr, hVi, hSi, hrows, hμsupp,
            hμfull⟩ := raw_empty_spec bin s hb sd i hunc hcod
          have hwrow : Function.update (s.V i) i 1 = unitRow F i := by
            funext u
            by_cases hu : u = i
            · subst hu; rw [Function.update_same, unitRow_diag]
            · rw [Function.update_noteq hu, hez i hemp u, unitRow_off hu]
          rw [hwrow] at hVi hrows
          have hoccr : ∀ j, j ≠ i →
              symbol_exists (decode_raw bin s sd i) j
                = symbol_exists s j := by
            intro j hj
            simp [symbol_exists, hcodr, huncr, Function.update_noteq hj]
          refine ⟨hrank, ?_⟩
          intro j hocc
          by_cases hji : j = i
          · subst hji
            exact spanTake_congr (fun u => by rw [hVi]) hqQ'
          · rw [hoccr j hji] at hocc
            exact spanTake_congr (fun u => (hrows j hji).1 u)
              (spanTake_sub (s.V j) (unitRow F i) (μ j)
                (hPQ _ (hstored j hocc)) hqQ')
        · have hocci : symbol_exists s i = true := by
            simp [symbol_exists, hcod]
          rcases swap_spec bin s hb sd i hunc hcod hsu hsc hmp with
            ⟨hrank, hmpr, huncr, hcodr, hrowsid, hVi, hSi, cdep, hcdsupp,
              hcdspan⟩ |
            ⟨p, sv3, sd3, μ, hip, hpemp, hrank, hmpr, huncr, hcodr, hVi,
              hSi, hVp, hSp, hrows, hμsupp, hμfull, hsv3p, hsv3low, hsv3occ,
              γ, c, hγ0, hcsupp, hcombV, hcombS⟩
          · exfalso
            apply hnot'
            exact spanTake_congr hcdspan (spanTake_comb cdep (fun j => s.V j)
              (fun j hj => hstored j (hcdsupp j hj)))
          · refine ⟨hrank, ?_⟩
            have hpi : p ≠ i := fun e => absurd (congrArg Fin.val e)
              (Nat.ne_of_gt hip)
            have hoccr : ∀ j, j ≠ p → j ≠ i →
                symbol_exists (decode_raw bin s sd i) j
                  = symbol_exists s j := by
              intro j hjp hji
              simp [symbol_exists, huncr, hcodr, Function.update_noteq hjp,
                Function.update_noteq hji]
            have hQev : SpanTake ps (t + 1)
                (fun u => s.V i u - unitRow F i u) := by
              have h := spanTake_sub (s.V i) (unitRow F i) 1
                (hPQ _ (hstored i hocci)) hqQ'
              exact spanTake_congr (fun u => by rw [one_mul]) h
            have hQsv3 : SpanTake ps (t + 1) sv3 :=
              spanTake_congr hcombV (spanTake_pivot_comb γ
                (fun u => s.V i u - unitRow F i u) c (fun j => s.V j) hQev
                (fun j hj => hPQ _ (hstored j (hcsupp j hj).1)))
            intro j hocc
            by_cases hjp : j = p
            · subst hjp
              exact spanTake_congr (fun u => by rw [hVp]) hQsv3
            · by_cases hji : j = i
              · subst hji
                exact spanTake_congr (fun u => by rw [hVi]) hqQ'
              · rw [hoccr j hjp hji] at hocc
                exact spanTake_congr (fun u => (hrows j hji hjp).1 u)
                  (spanTake_sub (s.V j) sv3 (μ j)
                    (hPQ _ (hstored j hocc)) hQsv3)
      exact ⟨hInv', hCons', hmain.1, hmain.2⟩

/-! ### Decodability -/

lemma init_inv : Inv (init_decoder F k m) := by
  refine ⟨?_, ?_, ?_, ?_, ?_, ?_⟩
  · show (0 : ℕ) = occupiedCard (init_decoder F k m)
    simp [occupiedCard, symbol_exists, init_decoder]
  · intro i h
    simp [init_decoder] at h
  · intro i h
    simp [symbol_exists, init_decoder] at h
  · intro i h
    simp [init_decoder] at h
  · intro i h
    simp [init_decoder] at h
  · intro i _ j
    rfl

lemma init_consistent (src : Fin k → Fin m → F) :
    Consistent src (init_decoder F k m) := by
  intro i h
  simp [symbol_exists, init_decoder] at h

lemma absorbList_take_succ (bin : Bool) (s : State F k m)
    (ps : List (Packet F k m)) (t : ℕ) (ht : t < ps.length) :
    absorbList bin s (ps.take (t + 1))
      = absorb bin (absorbList bin s (ps.take t)) (ps.get ⟨t, ht⟩) := by
  unfold absorbList
  rw [List.take_succ, List.getElem?_eq_getElem ht]
  rw [List.foldl_append]
  simp [List.get_eq_getElem]

/-- Fold invariant of the decodability argument: after absorbing the first
`t` of a family of good, independent packets into a fresh decoder, the
invariant and consistency hold, the rank is exactly `t`, and every stored
coefficient row lies in the span of those `t` packets. -/
theorem absorbList_spec (bin : Bool) (hb : BinOk F bin)
    (src : Fin k → Fin m → F) (ps : List (Packet F k m))
    (hgood : ∀ q ∈ ps, PacketGood src q) (hind : IndepPackets ps) :
    ∀ t, t ≤ ps.length →
      Inv (absorbList bin (init_decoder F k m) (ps.take t)) ∧
      Consistent src (absorbList bin (init_decoder F k m) (ps.take t)) ∧
      (absorbList bin (init_decoder F k m) (ps.take t)).rank = t ∧
      (∀ j, symbol_exists
          (absorbList bin (init_decoder F k m) (ps.take t)) j = true →
        SpanTake ps t
          ((absorbList bin (init_decoder F k m) (ps.take t)).V j)) := by
  intro t
  induction t with
  | zero =>
      intro _
      rw [List.take_zero]
      refine ⟨init_inv, init_consistent src, rfl, ?_⟩
      intro j hj
      simp [absorbList, symbol_exists, init_decoder] at hj
  | succ t ih =>
      intro hle
      have ht : t < ps.length := Nat.lt_of_succ_le hle
      obtain ⟨hInv, hC, hrank, hspan⟩ := ih (Nat.le_of_lt ht)
      have hqgood : PacketGood src (ps.get ⟨t, ht⟩) :=
        hgood _ (List.get_mem ps t ht)
      have hnot : ¬ SpanTake ps t (pvec (ps.get ⟨t, ht⟩)) := by
        intro hsp
        obtain ⟨e, he1, he2⟩ := hsp
        exact hind ⟨t, ht⟩ e (he1 ⟨t, ht⟩ (le_refl t)) he2
      have hqQ : SpanTake ps (t + 1) (pvec (ps.get ⟨t, ht⟩)) :=
        spanTake_packet ht
      obtain ⟨hI', hC', hr', hs'⟩ := absorb_step bin
        (absorbList bin (init_decoder F k m) (ps.take t)) hb hInv src hC
        (ps.get ⟨t, ht⟩) hqgood ps t hspan hnot hqQ
      rw [absorbList_take_succ bin (init_decoder F k m) ps t ht]
      exact ⟨hI', hC', by rw [hr', hrank], hs'⟩

/-- Hypothesis-free description of the swap path of `decode_raw`: the rank
either rises by one (the re-absorbed row found a pivot) or — when the
re-absorption drops the evicted row as dependent — stays put while slot `i`
flips from coded to uncoded, receiving the raw payload and the elementary
coefficient row, with everything else bitwise unchanged. -/
lemma swap_basic (bin : Bool) (s : State F k m) (sd : Fin m → F) (i : Fin k)
    (hunc : s.uncoded i = false) (hcod : s.coded i = true) :
    (decode_raw bin s sd i).rank = s.rank + 1 ∨
    ((decode_raw bin s sd i).rank = s.rank ∧
     (decode_raw bin s sd i).max_pivot = s.max_pivot ∧
     (decode_raw bin s sd i).uncoded = Function.update s.uncoded i true ∧
     (decode_raw bin s sd i).coded = Function.update s.coded i false ∧
     (∀ j, j ≠ i → (decode_raw bin s sd i).V j = s.V j ∧
        (decode_raw bin s sd i).S j = s.S j) ∧
     (decode_raw bin s sd i).V i = unitRow F i ∧
     (decode_raw bin s sd i).S i = sd) := by
  have hroute : decode_raw bin s sd i = swap_decode bin s sd i :=
    decode_raw_swap hunc hcod
  set vi : Fin k → F := Function.update (s.V i) i 0 with hvi
  set si : Fin m → F := fun t => s.S i t - sd t with hsi
  set s1 : State F k m :=
    { s with coded := Function.update s.coded i false,
             V := Function.update s.V i vi,
             S := Function.update s.S i si } with hs1
  have hrankd : (swap_decode bin s sd i).rank
      = (decode_with_vector bin s1 vi si).rank := rfl
  have hmpd : (swap_decode bin s sd i).max_pivot
      = (decode_with_vector bin s1 vi si).max_pivot := rfl
  have huncd : (swap_decode bin s sd i).uncoded
      = Function.update (decode_with_vector bin s1 vi si).uncoded i true :=
    rfl
  have hcodd : (swap_decode bin s sd i).coded
      = (decode_with_vector bin s1 vi si).coded := rfl
  have hSd : (swap_decode bin s sd i).S
      = Function.update (decode_with_vector bin s1 vi si).S i sd := rfl
  have hVd : (swap_decode bin s sd i).V
      = Function.update
          (Function.update (decode_with_vector bin s1 vi si).V i
            (fun _ => 0)) i
          (Function.update
            ((Function.update (decode_with_vector bin s1 vi si).V i
              (fun _ => 0)) i) i 1) := rfl
  cases hfs : (forward_substitute_to_pivot bin s1 vi si).1 with
  | some p =>
      left
      rw [hroute, hrankd, dwv_some hfs]
      rfl
  | none =>
      right
      have hXeq : decode_with_vector bin s1 vi si = s1 := dwv_none hfs
      refine ⟨?_, ?_, ?_, ?_, ?_, ?_, ?_⟩
      · rw [hroute, hrankd, hXeq]
      · rw [hroute, hmpd, hXeq]
      · rw [hroute, huncd, hXeq]
      · rw [hroute, hcodd, hXeq]
      · intro j hj
        constructor
        · rw [hroute, hVd, hXeq, Function.update_noteq hj,
            Function.update_noteq hj, hs1]
          exact Function.update_noteq hj _ _
        · rw [hroute, hSd, hXeq, Function.update_noteq hj, hs1]
          exact Function.update_noteq hj _ _
      · rw [hroute, hVd, Function.update_same, Function.update_same,
          update_zero_unitRow]
      · rw [hroute, hSd, Function.update_same]

/-! ### The span of the stored occupied rows -/

/-- Membership in the span of the stored occupied coefficient rows. -/
def SpanRows (s : State F k m) (w : Fin k → F) : Prop :=
  ∃ d : Fin k → F, (∀ j, d j ≠ 0 → symbol_exists s j = true) ∧
    ∀ u, w u = ∑ j, d j * s.V j u

lemma spanRows_congr {s : State F k m} {w w2 : Fin k → F}
    (h : ∀ u, w u = w2 u) : SpanRows s w → SpanRows s w2 := by
  rintro ⟨d, hs, hw⟩
  exact ⟨d, hs, fun u => (h u).symm.trans (hw u)⟩

lemma spanRows_row {s : State F k m} {j : Fin k}
    (hj : symbol_exists s j = true) : SpanRows s (s.V j) := by
  refine ⟨fun a => if a = j then 1 else 0, ?_, ?_⟩
  · intro a ha
    by_cases haj : a = j
    · rw [haj]; exact hj
    · simp only [if_neg haj] at ha; exact absurd rfl ha
  · intro u
    show s.V j u = ∑ a, (if a = j then 1 else 0) * s.V a u
    rw [sum_single_mul j 1 (fun a => s.V a u), one_mul]

lemma spanRows_smul {s : State F k m} {w : Fin k → F} (c : F)
    (h : SpanRows s w) : SpanRows s (fun u => c * w u) := by
  obtain ⟨d, hs, hw⟩ := h
  refine ⟨fun a => c * d a, ?_, ?_⟩
  · intro a ha
    apply hs
    intro h0
    simp only [h0, mul_zero] at ha
    exact ha rfl
  · intro u
    show c * w u = ∑ a, (c * d a) * s.V a u
    rw [hw u, Finset.mul_sum]
    exact Finset.sum_congr rfl (fun a _ => by ring)

lemma spanRows_sub {s : State F k m} {w1 w2 : Fin k → F}
    (h1 : SpanRows s w1) (h2 : SpanRows s w2) :
    SpanRows s (fun u => w1 u - w2 u) := by
  obtain ⟨d1, hs1, hw1⟩ := h1
  obtain ⟨d2, hs2, hw2⟩ := h2
  refine ⟨fun a => d1 a - d2 a, ?_, ?_⟩
  · intro a ha
    by_cases hz1 : d1 a = 0
    · refine hs2 a (fun h0 => ?_)
      simp only [hz1, h0, sub_zero] at ha
      exact ha rfl
    · exact hs1 a hz1
  · intro u
    show w1 u - w2 u = ∑ a, (d1 a - d2 a) * s.V a u
    rw [hw1 u, hw2 u, ← Finset.sum_sub_distrib]
    exact Finset.sum_congr rfl (fun a _ => by ring)

lemma spanRows_add {s : State F k m} {w1 w2 : Fin k → F}
    (h1 : SpanRows s w1) (h2 : SpanRows s w2) :
    SpanRows s (fun u => w1 u + w2 u) := by
  obtain ⟨d1, hs1, hw1⟩ := h1
  obtain ⟨d2, hs2, hw2⟩ := h2
  refine ⟨fun a => d1 a + d2 a, ?_, ?_⟩
  · intro a ha
    by_cases hz1 : d1 a = 0
    · refine hs2 a (fun h0 => ?_)
      simp only [hz1, h0, add_zero] at ha
      exact ha rfl
    · exact hs1 a hz1
  · intro u
    show w1 u + w2 u = ∑ a, (d1 a + d2 a) * s.V a u
    rw [hw1 u, hw2 u, ← Finset.sum_add_distrib]
    exact Finset.sum_congr rfl (fun a _ => by ring)

/-- A member of the span that vanishes on every occupied column is zero. -/
lemma spanRows_vanish {s : State F k m} (hsh : LowerShape s)
    (hred : ReducedShape s) {w : Fin k → F} (h : SpanRows s w)
    (hz : ∀ q, symbol_exists s q = true → w q = 0) : ∀ u, w u = 0 := by
  obtain ⟨d, hs, hw⟩ := h
  have hd0 : ∀ a, d a = 0 := by
    intro a
    by_cases ha : symbol_exists s a = true
    · have he := eval_comb_occupied hsh hred d hs a ha
      rw [← he, ← hw a]
      exact hz a ha
    · by_contra h0
      exact ha (hs a h0)
  intro u
  rw [hw u]
  exact Finset.sum_eq_zero (fun a _ => by rw [hd0 a, zero_mul])

/-- Transfer: if every occupied row of `s` lies in the span of the occupied
rows of `s2`, so does every member of the span of the rows of `s`. -/
lemma spanRows_trans {s s2 : State F k m}
    (h : ∀ j, symbol_exists s j = true → SpanRows s2 (s.V j))
    {w : Fin k → F} (hw : SpanRows s w) : SpanRows s2 w := by
  obtain ⟨d, hs, hwd⟩ := hw
  have hch : ∀ j, ∃ e : Fin k → F,
      (∀ a, e a ≠ 0 → symbol_exists s2 a = true) ∧
      ∀ u, d j * s.V j u = ∑ a, e a * s2.V a u := by
    intro j
    by_cases h0 : d j = 0
    · refine ⟨fun _ => 0, fun a ha => absurd rfl ha, fun u => ?_⟩
      rw [h0, zero_mul]
      exact (Finset.sum_eq_zero (fun a _ => by rw [zero_mul])).symm
    · obtain ⟨e, hse, hwe⟩ := h j (hs j h0)
      refine ⟨fun a => d j * e a, ?_, ?_⟩
      · intro a ha
        refine hse a (fun h1 => ?_)
        simp only [h1, mul_zero] at ha
        exact ha rfl
      · intro u
        show d j * s.V j u = ∑ a, (d j * e a) * s2.V a u
        rw [hwe u, Finset.mul_sum]
        exact Finset.sum_congr rfl (fun a _ => by ring)
  choose e hesupp hesum using hch
  refine ⟨fun a => ∑ j, e j a, ?_, ?_⟩
  · intro a ha
    have hex : ∃ j, e j a ≠ 0 := by
      by_contra hno
      push_neg at hno
      exact ha (Finset.sum_eq_zero (fun j _ => hno j))
    obtain ⟨j, hj⟩ := hex
    exact hesupp j a hj
  · intro u
    rw [hwd u,
      show (∑ j, d j * s.V j u) = ∑ j, ∑ a, e j a * s2.V a u from
        Finset.sum_congr rfl (fun j _ => hesum j u),
      Finset.sum_comm]
    exact Finset.sum_congr rfl (fun a _ => (Finset.sum_mul _ _ _).symm)

/-- A span member carrying the unit pattern of an occupied row equals that
row. -/
lemma span_eq_row {s2 : State F k m} (hsh : LowerShape s2)
    (hred : ReducedShape s2) {x : Fin k → F} {j : Fin k}
    (hj : symbol_exists s2 j = true) (hx : SpanRows s2 x)
    (hdiag : x j = 1)
    (hoff : ∀ q, symbol_exists s2 q = true → q ≠ j → x q = 0) :
    ∀ u, x u = s2.V j u := by
  have hD : SpanRows s2 (fun u => x u - s2.V j u) :=
    spanRows_sub hx (spanRows_row hj)
  have hz : ∀ q, symbol_exists s2 q = true → x q - s2.V j q = 0 := by
    intro q hq
    by_cases hqj : q = j
    · rw [hqj, hdiag, (hsh j hj).1, sub_self]
    · rw [hoff q hq hqj, hred j hj q hq (fun e => hqj (by rw [e])),
        sub_zero]
  intro u
  exact sub_eq_zero.mp (spanRows_vanish hsh hred hD hz u)

/-- Writing a 1 at the diagonal of an all-zero row yields the elementary
row. -/
lemma empty_update_unitRow {s : State F k m} {i : Fin k}
    (hez : EmptyZero s) (hemp : symbol_exists s i = false) :
    Function.update (s.V i) i 1 = unitRow F i := by
  funext u
  by_cases hu : u = i
  · rw [hu, Function.update_same, unitRow_diag]
  · rw [Function.update_noteq hu, hez i hemp u, unitRow_off hu]

/-- Two decoder states with equal fields are equal. -/
lemma state_ext {a b : State F k m} (h1 : a.rank = b.rank)
    (h2 : a.max_pivot = b.max_pivot) (h3 : a.uncoded = b.uncoded)
    (h4 : a.coded = b.coded) (h5 : a.V = b.V) (h6 : a.S = b.S) : a = b := by
  cases a
  cases b
  congr 1

/-! ### Concrete instances over GF(2) -/

/-- Source symbol for the one-slot witness scenarios. -/
def srcW : Fin 1 → Fin 1 → ZMod 2 := fun _ _ => 1

/-- The all-ones length-1 row. -/
def oneW : Fin 1 → ZMod 2 := fun _ => 1

/-- A single raw packet carrying the one-slot source block. -/
def psW : List (Packet (ZMod 2) 1 1) := [Packet.raw 0 oneW]

/-- One-slot decoder after absorbing the coded packet `(sv=1, sd=1)`. -/
def t1W : State (ZMod 2) 1 1 :=
  decode true (init_decoder (ZMod 2) 1 1) oneW oneW

/-- Two-slot source block over GF(2) with one payload bit per symbol. -/
def srcW2 : Fin 2 → Fin 1 → ZMod 2 := fun j _ => if j = 0 then 1 else 0

/-- The all-ones coefficient vector over two slots. -/
def svW2 : Fin 2 → ZMod 2 := fun _ => 1

/-- Payload of the coded packet combining `srcW2` with vector `svW2`. -/
def sdW2 : Fin 1 → ZMod 2 := fun _ => 1

/-- The raw source symbol 0 of `srcW2`. -/
def rdW2 : Fin 1 → ZMod 2 := fun _ => 1

/-- Bits of the two-byte word `AA BB` (source symbol A of spec scenario 3). -/
def Abits : Fin 16 → ZMod 2 :=
  fun j => if Nat.testBit 0xAABB (15 - j.val) then 1 else 0

/-- Bits of the two-byte word `CC DD` (source symbol B of spec scenario 3). -/
def Bbits : Fin 16 → ZMod 2 :=
  fun j => if Nat.testBit 0xCCDD (15 - j.val) then 1 else 0

/-- Bits of `A xor B` (= `66 66`). -/
def ABx : Fin 16 → ZMod 2 := fun j => Abits j + Bbits j

/-- Spec scenario 3 after the coded packet `(sv=11, sd=A xor B)`. -/
def sC6a : State (ZMod 2) 2 16 :=
  decode true (init_decoder (ZMod 2) 2 16) (fun _ => 1) ABx

/-- Spec scenario 3 after additionally absorbing `raw(B, 1)`. -/
def sC6b : State (ZMod 2) 2 16 := decode_raw true sC6a Bbits 1

/-! ### The claims -/

/-- Claim C1: for every k, every set of k packets whose coefficient vectors
are linearly independent (raw packets with elementary vectors, coded
packets, or a mixture), absorbed via decode/decode_raw in any order into a
freshly initialized decoder, the final rank equals k and for every i the
stored payload row S[i] equals the original source symbol i. -/
theorem claim_C1 (bin : Bool) (hb : BinOk F bin)
    (src : Fin k → Fin m → F) (ps : List (Packet F k m))
    (hlen : ps.length = k)
    (hgood : ∀ q ∈ ps, PacketGood src q) (hind : IndepPackets ps) :
    (absorbList bin (init_decoder F k m) ps).rank = k ∧
    ∀ (i : Fin k) (t : Fin m),
      (absorbList bin (init_decoder F k m) ps).S i t = src i t := by
  obtain ⟨hInv, hC, hrank, _⟩ :=
    absorbList_spec bin hb src ps hgood hind ps.length (le_refl _)
  rw [List.take_length] at hInv hC hrank
  obtain ⟨hrk, hnb, hmp, hsu, hsc, hez⟩ := hInv
  have hall : ∀ i, symbol_exists (absorbList bin (init_decoder F k m) ps) i
      = true := by
    have hcard : occupiedCard (absorbList bin (init_decoder F k m) ps)
        = k := by rw [← hrk, hrank, hlen]
    have huniv : Finset.univ.filter (fun i =>
        symbol_exists (absorbList bin (init_decoder F k m) ps) i = true)
          = Finset.univ :=
      Finset.eq_univ_of_card _ (by rw [Fintype.card_fin]; exact hcard)
    intro i
    have hi : i ∈ Finset.univ.filter (fun i =>
        symbol_exists (absorbList bin (init_decoder F k m) ps) i = true) := by
      rw [huniv]; exact Finset.mem_univ i
    exact (Finset.mem_filter.mp hi).2
  refine ⟨by rw [hrank, hlen], ?_⟩
  have hunit : ∀ i u, (absorbList bin (init_decoder F k m) ps).V i u
      = unitRow F i u := by
    intro i u
    by_cases hu : u = i
    · rw [hu, unitRow_diag]
      exact (lowerShape_of_inv hsu hsc i (hall i)).1
    · rw [unitRow_off hu]
      exact reducedShape_of_inv hsu hsc i (hall i) u (hall u) hu
  intro i t
  rw [hC i (hall i) t,
    Finset.sum_congr rfl (fun u _ => by rw [hunit i u]),
    show (∑ u, unitRow F i u * src u t)
      = ∑ u, (if u = i then (1 : F) else 0) * src u t from rfl,
    sum_single_mul i 1 (fun u => src u t), one_mul]

/-- Witness for claim C1: a one-slot block over GF(2) decoded from the
single raw packet. -/
theorem claim_C1_witness :
    BinOk (ZMod 2) true ∧ psW.length = 1 ∧
    (∀ q ∈ psW, PacketGood srcW q) ∧ IndepPackets psW ∧
    ((absorbList true (init_decoder (ZMod 2) 1 1) psW).rank = 1 ∧
     ∀ (i : Fin 1) (t : Fin 1),
       (absorbList true (init_decoder (ZMod 2) 1 1) psW).S i t
         = srcW i t) :=
  ⟨by decide, rfl, by decide, by decide,
   claim_C1 true (by decide) srcW psW rfl (by decide) (by decide)⟩

/-- Claim C2: after every public operation (initialize, decode, decode_raw)
returns, the rank equals the number of slots that are uncoded or coded —
including the swap path of decode_raw, whether or not the internal
re-absorption finds a pivot. -/
theorem claim_C2 (bin : Bool) (hb : BinOk F bin) (s : State F k m)
    (hInv : Inv s) (sv : Fin k → F) (sd : Fin m → F) (i : Fin k) :
    (init_decoder F k m).rank = occupiedCard (init_decoder F k m) ∧
    (decode bin s sv sd).rank = occupiedCard (decode bin s sv sd) ∧
    (decode_raw bin s sd i).rank = occupiedCard (decode_raw bin s sd i) :=
  ⟨init_inv.1, (decode_inv bin s hb hInv sv sd).1.1,
   (decode_raw_inv bin s hb hInv sd i).1⟩

/-- Witness for claim C2 at the one-slot GF(2) decoder holding a coded
symbol, exercising the swap path of `decode_raw`. -/
theorem claim_C2_witness :
    BinOk (ZMod 2) true ∧ Inv t1W ∧
    ((init_decoder (ZMod 2) 1 1).rank
        = occupiedCard (init_decoder (ZMod 2) 1 1) ∧
     (decode true t1W oneW oneW).rank
        = occupiedCard (decode true t1W oneW oneW) ∧
     (decode_raw true t1W oneW 0).rank
        = occupiedCard (decode_raw true t1W oneW 0)) :=
  ⟨by decide, by decide, claim_C2 true (by decide) t1W (by decide) oneW
    oneW 0⟩

/-- Counterexample to claim C3 as stated: absorbing the true raw symbol 0
into the one-slot decoder that already holds it as a coded row leaves the
rank unchanged, yet the decoder is not bitwise unchanged (the slot flips
from coded to uncoded). -/
theorem claim_C3_counterexample :
    ¬ (t1W.rank < (decode_raw true t1W oneW 0).rank ∨
        decode_raw true t1W oneW 0 = t1W) := by
  rintro (h | h)
  · exact absurd h (by decide)
  · have h3 : (decode_raw true t1W oneW 0).uncoded 0 = t1W.uncoded 0 :=
      congrArg (fun st => st.uncoded 0) h
    exact absurd h3 (by decide)

/-- Claim C3 (amended): every call to decode either strictly increases the
rank or leaves the decoder bitwise unchanged; every call to decode_raw
either does so as well, or takes the swap path with a dependent re-absorbed
row, in which case rank and max_pivot are unchanged and slot i flips from
coded to uncoded with V[i] = e_i and S[i] = sd while all other rows are
bitwise unchanged. -/
theorem claim_C3_amended (bin : Bool) (s : State F k m) (sv : Fin k → F)
    (sd : Fin m → F) (i : Fin k) :
    (decode bin s sv sd = s ∨ (decode bin s sv sd).rank = s.rank + 1) ∧
    (decode_raw bin s sd i = s ∨
     (decode_raw bin s sd i).rank = s.rank + 1 ∨
     (s.uncoded i = false ∧ s.coded i = true ∧
      (decode_raw bin s sd i).rank = s.rank ∧
      (decode_raw bin s sd i).max_pivot = s.max_pivot ∧
      (decode_raw bin s sd i).uncoded = Function.update s.uncoded i true ∧
      (decode_raw bin s sd i).coded = Function.update s.coded i false ∧
      (∀ j, j ≠ i → (decode_raw bin s sd i).V j = s.V j ∧
         (decode_raw bin s sd i).S j = s.S j) ∧
      (decode_raw bin s sd i).V i = unitRow F i ∧
      (decode_raw bin s sd i).S i = sd)) := by
  constructor
  · cases hfs : (forward_substitute_to_pivot bin s sv sd).1 with
    | none => exact Or.inl (dwv_none hfs)
    | some p =>
        right
        show (decode_with_vector bin s sv sd).rank = s.rank + 1
        rw [dwv_some hfs]
        rfl
  · rcases Bool.eq_false_or_eq_true (s.uncoded i) with hunc | hunc
    · exact Or.inl (decode_raw_noop hunc)
    rcases Bool.eq_false_or_eq_true (s.coded i) with hcod | hcod
    · rcases swap_basic bin s sd i hunc hcod with h | h
      · exact Or.inr (Or.inl h)
      · exact Or.inr (Or.inr ⟨hunc, hcod, h⟩)
    · right; left
      rw [decode_raw_empty_eq bin sd hunc hcod]
      rfl

/-- Claim C4: absorbing a coded packet whose coefficient vector lies in the
span of the currently stored occupied rows leaves the decoder state (rank,
max_pivot, bitsets, all rows) unchanged — only the caller's buffers may be
transformed. -/
theorem claim_C4 (bin : Bool) (hb : BinOk F bin) (s : State F k m)
    (hInv : Inv s) (sv : Fin k → F) (sd : Fin m → F)
    (hdep : ∃ c : Fin k → F, (∀ j, c j ≠ 0 → symbol_exists s j = true) ∧
      ∀ u, sv u = ∑ j, c j * s.V j u) :
    decode bin s sv sd = s := by
  obtain ⟨hrk, hnb, hmp, hsu, hsc, hez⟩ := hInv
  rcases dwv_cases bin s hb (lowerShape_of_inv hsu hsc) hmp sv sd with
    ⟨heq, _⟩ | hps
  · exact heq
  · exfalso
    obtain ⟨c0, hc0supp, hc0span⟩ := hdep
    obtain ⟨p, sv3, sd3, μ, hpemp, hgt, hrank, huncr, hcodr, hmpr, hVp, hSp,
      hrows, hμsupp, hμfull, hsv3p, hsv3low, hsv3occ, γ, c, hγ0, hcsupp,
      hcombV, hcombS⟩ := hps
    set d : Fin k → F := fun j => γ * c0 j - c j with hd
    have hdj : ∀ j, d j = γ * c0 j - c j := fun _ => rfl
    have hdsupp : ∀ j, d j ≠ 0 → symbol_exists s j = true := by
      intro j hj
      have hj' : γ * c0 j - c j ≠ 0 := hj
      by_cases h0 : c0 j = 0
      · by_cases h1 : c j = 0
        · rw [h0, h1] at hj'
          simp at hj'
        · exact hcsupp j h1
      · exact hc0supp j h0
    have hsv3d : ∀ u, sv3 u = ∑ j, d j * s.V j u := by
      intro u
      rw [hcombV u, hc0span u, Finset.mul_sum, ← Finset.sum_sub_distrib]
      refine Finset.sum_congr rfl (fun j _ => ?_)
      rw [hdj j]
      ring
    have hall0 : ∀ j, d j = 0 := by
      intro j
      by_cases hocc : symbol_exists s j = true
      · have hje := eval_comb_occupied (lowerShape_of_inv hsu hsc)
          (reducedShape_of_inv hsu hsc) d hdsupp j hocc
        have hjp : j ≠ p := by
          intro e
          rw [e, hpemp] at hocc
          cases hocc
        rw [← hje, ← hsv3d j]
        exact hsv3occ j hocc hjp
      · by_contra h0
        exact hocc (hdsupp j h0)
    have h1 : (1 : F) = 0 := by
      rw [← hsv3p, hsv3d p]
      refine Finset.sum_eq_zero (fun j _ => ?_)
      rw [hall0 j, zero_mul]
    exact one_ne_zero h1

/-- Witness for claim C4: re-absorbing the already-stored coded packet in
the one-slot GF(2) decoder is a no-op. -/
theorem claim_C4_witness :
    BinOk (ZMod 2) true ∧ Inv t1W ∧
    (∃ c : Fin 1 → ZMod 2,
      (∀ j, c j ≠ 0 → symbol_exists t1W j = true) ∧
      ∀ u, oneW u = ∑ j, c j * t1W.V j u) ∧
    decode true t1W oneW oneW = t1W :=
  ⟨by decide, by decide, by decide,
   claim_C4 true (by decide) t1W (by decide) oneW oneW (by decide)⟩

/-- Counterexample to claim C5 as stated: the swap-free GF(2) scenario of
the spec reaches rank 2 = k (`is_complete`), yet slot 0 is still coded,
not uncoded. -/
theorem claim_C5_counterexample :
    is_complete sC6b = true ∧ ¬ (∀ i : Fin 2, sC6b.uncoded i = true) := by
  constructor
  · decide
  · intro h
    exact absurd (h 0) (by decide)

/-- Claim C5 (amended): whenever the decoder satisfies its representation
invariant and `is_complete` returns true (rank = k), every slot is occupied
(uncoded or coded) — but not necessarily uncoded. -/
theorem claim_C5_amended (s : State F k m) (hInv : Inv s)
    (hc : is_complete s = true) : ∀ i, symbol_exists s i = true := by
  obtain ⟨hrk, _, _, _, _, _⟩ := hInv
  have hk : s.rank = k := by simpa [is_complete] using hc
  have hcard : occupiedCard s = k := by rw [← hrk, hk]
  have huniv : Finset.univ.filter (fun i => symbol_exists s i = true)
      = Finset.univ :=
    Finset.eq_univ_of_card _ (by rw [Fintype.card_fin]; exact hcard)
  intro i
  have hi : i ∈ Finset.univ.filter (fun i => symbol_exists s i = true) := by
    rw [huniv]
    exact Finset.mem_univ i
  exact (Finset.mem_filter.mp hi).2

/-- Witness for the amended claim C5 at the completed two-slot scenario. -/
theorem claim_C5_witness :
    Inv sC6b ∧ is_complete sC6b = true ∧
    (∀ i, symbol_exists sC6b i = true) :=
  ⟨by decide, by decide, claim_C5_amended sC6b (by decide) (by decide)⟩

/-- Counterexample to claim C6 as stated: in spec scenario 3 the final
bitsets are `uncoded=[F,T]`, not `[T,T]` — slot 0 remains coded. -/
theorem claim_C6_counterexample :
    ¬ (sC6b.uncoded 0 = true ∧ sC6b.uncoded 1 = true ∧
       (∀ t, sC6b.S 0 t = Abits t) ∧ (∀ t, sC6b.S 1 t = Bbits t)) := by
  intro h
  exact absurd h.1 (by decide)

/-- Claim C6 (amended): in GF(2) with k=2, m=16 bits and source symbols
A=AA BB, B=CC DD, after absorbing the coded packet (sv=11, sd=A xor B) and
then calling decode_raw with B at index 1, the decoder state satisfies
uncoded=[F,T], coded=[T,F], S[0]=A and S[1]=B (slot 0 holds A but stays
marked coded). -/
theorem claim_C6_amended :
    sC6b.uncoded 0 = false ∧ sC6b.uncoded 1 = true ∧
    sC6b.coded 0 = true ∧ sC6b.coded 1 = false ∧
    sC6b.rank = 2 ∧
    (∀ t, sC6b.S 0 t = Abits t) ∧ (∀ t, sC6b.S 1 t = Bbits t) := by
  decide

/-- Claim C7: over any field, absorbing a coded packet of the source block
that resolves to pivot index i and then the raw source symbol i (which
triggers the swap path at slot i) yields exactly the same decoder state as
absorbing the raw symbol first and then the coded packet. -/
theorem claim_C7 (bin : Bool) (hb : BinOk F bin) (s : State F k m)
    (hInv : Inv s) (src : Fin k → Fin m → F) (hC : Consistent src s)
    (sv : Fin k → F) (sd : Fin m → F) (rd : Fin m → F) (i : Fin k)
    (hgood : ∀ t, sd t = ∑ u, sv u * src u t)
    (hrd : ∀ t, rd t = src i t)
    (hfs : (forward_substitute_to_pivot bin s sv sd).1 = some i) :
    decode_raw bin (decode bin s sv sd) rd i
      = decode bin (decode_raw bin s rd i) sv sd := by
  have hInv0 := hInv
  obtain ⟨hrk, hnb, hmp, hsu, hsc, hez⟩ := hInv0
  have hempi : symbol_exists s i = false :=
    (fstpGo_some bin s (List.finRange k) sv sd i hfs).1
  obtain ⟨hcodi, hunci⟩ := symbol_exists_false_iff.mp hempi
  have hre : decode bin s sv sd
      = dwvPivot bin s (forward_substitute_to_pivot bin s sv sd).2.1
          (forward_substitute_to_pivot bin s sv sd).2.2 i := dwv_some hfs
  have hrcoded : (decode bin s sv sd).coded
      = Function.update s.coded i true := by rw [hre]; rfl
  rcases dwv_cases bin s hb (lowerShape_of_inv hsu hsc) hmp sv sd with
    ⟨heq, _⟩ | hps
  · exfalso
    have heq1 : decode bin s sv sd = s := heq
    have h1 : (decode bin s sv sd).coded i = true := by
      rw [hrcoded]; exact Function.update_same _ _ _
    rw [heq1, hcodi] at h1
    cases h1
  have hps1 : PivotStep s (decode bin s sv sd) sv sd := hps
  have hps2 := hps1
  obtain ⟨p1, sv1, sd1, μ1, hpemp1, hgt1, hrank1, hunc1, hcod1, hmp1,
    hVp1, hSp1, hrows1, hμs1, hμf1, hsv1p, hsv1low, hsv1occ,
    γ1, c1, hγ01, hc1supp, hcombV1, hcombS1⟩ := hps1
  have hpi : p1 = i := by
    by_contra hne
    have h1 := congrFun hcod1 p1
    rw [Function.update_same] at h1
    have h2 := congrFun hrcoded p1
    rw [Function.update_noteq hne] at h2
    obtain ⟨hcp, _⟩ := symbol_exists_false_iff.mp hpemp1
    rw [h2, hcp] at h1
    cases h1
  have hpi2 : i = p1 := hpi.symm
  subst hpi2
  set r : State F k m := decode bin s sv sd with hrdef
  have hInvr : Inv r := (pivotStep_inv hInv hps2).1
  have hInvrC := hInvr
  obtain ⟨hrkr, hnbr, hmpbr, hsur, hscr, hezr⟩ := hInvrC
  have hCr : Consistent src r := pivotStep_consistent src hC hgood hps2
  have huncri : r.uncoded i = false := by rw [hunc1]; exact hunci
  have hcodri : r.coded i = true := by
    rw [hcod1]; exact Function.update_same _ _ _
  have hoccr : ∀ q, symbol_exists r q = true ↔
      (q = i ∨ symbol_exists s q = true) := by
    intro q
    by_cases hq : q = i
    · subst hq
      simp [symbol_exists, hcod1, hunc1, Function.update_apply]
    · simp [symbol_exists, hcod1, hunc1, Function.update_apply, hq]
  have hoccri : symbol_exists r i = true := (hoccr i).mpr (Or.inl rfl)
  have hupd1 : Function.update (Function.update s.coded i true) i false
      = s.coded := by
    rw [Function.update_idem, ← hcodi]
    exact Function.update_eq_self i s.coded
  -- path B first step: raw insertion into the empty slot
  obtain ⟨μ4, hrank4, hunc4, hcod4, hmp4, hVi4, hSi4, hrows4, hμs4,
    hμf4⟩ := raw_empty_spec bin s hb rd i hunci hcodi
  set r2 : State F k m := decode_raw bin s rd i with hr2def
  have hInvq : Inv r2 := decode_raw_inv bin s hb hInv rd i
  have hInvqC := hInvq
  obtain ⟨hrkq, hnbq, hmpbq, hsuq, hscq, hezq⟩ := hInvqC
  have hCq : Consistent src r2 := decode_raw_consistent bin s hb hInv src
    hC rd i hrd
  have hwB : Function.update (s.V i) i 1 = unitRow F i :=
    empty_update_unitRow hez hempi
  have hVi4u : r2.V i = unitRow F i := hVi4.trans hwB
  have hoccq : ∀ q, symbol_exists r2 q = true ↔
      (q = i ∨ symbol_exists s q = true) := by
    intro q
    by_cases hq : q = i
    · subst hq
      simp [symbol_exists, hcod4, hunc4, Function.update_apply]
    · simp [symbol_exists, hcod4, hunc4, Function.update_apply, hq]
  have hoccqi : symbol_exists r2 i = true := (hoccq i).mpr (Or.inl rfl)
  have hocc_rq : ∀ q, symbol_exists r q = symbol_exists r2 q := by
    intro q
    by_cases h1 : symbol_exists r q = true
    · rw [h1, (hoccq q).mpr ((hoccr q).mp h1)]
    · have h2 : ¬symbol_exists r2 q = true := fun hc =>
        h1 ((hoccr q).mpr ((hoccq q).mp hc))
      rw [Bool.not_eq_true] at h1 h2
      rw [h1, h2]
  -- generators of the span of original and new rows inside r2
  have hM_e : SpanRows r2 (unitRow F i) :=
    spanRows_congr (congrFun hVi4u) (spanRows_row hoccqi)
  have hM_s : ∀ a, symbol_exists s a = true → SpanRows r2 (s.V a) := by
    intro a ha
    have hai : a ≠ i := fun e => by rw [e, hempi] at ha; cases ha
    have h1 := (hrows4 a hai).1
    have hpt : ∀ u, r2.V a u + μ4 a * r2.V i u = s.V a u := by
      intro u
      rw [h1 u, congrFun hVi4u u, congrFun hwB u]
      ring
    exact spanRows_congr hpt
      (spanRows_add (spanRows_row ((hoccq a).mpr (Or.inr ha)))
        (spanRows_smul (μ4 a) (spanRows_row hoccqi)))
  have hMsum : ∀ c : Fin k → F, (∀ j, c j ≠ 0 → symbol_exists s j = true) →
      SpanRows r2 (fun u => ∑ j, c j * s.V j u) :=
    fun c hcs => spanRows_trans hM_s ⟨c, hcs, fun u => rfl⟩
  have hsv_of_sv1 : SpanRows r2 sv1 → SpanRows r2 sv := by
    intro h
    have hpt : ∀ u, γ1⁻¹ * (sv1 u + ∑ j, c1 j * s.V j u) = sv u := by
      intro u
      rw [hcombV1 u,
        show γ1 * sv u - (∑ j, c1 j * s.V j u) + (∑ j, c1 j * s.V j u)
          = γ1 * sv u from by ring,
        inv_mul_cancel_left₀ hγ01]
    exact spanRows_congr hpt
      (spanRows_smul _ (spanRows_add h (hMsum c1 hc1supp)))
  -- path A second step: the swap at slot i
  rcases swap_spec bin r hb rd i huncri hcodri hsur hscr hmpbr with hL | hR
  · -- the evicted row was dependent
    obtain ⟨hrankL, hmpL, huncL, hcodL, hrowsL, hViL, hSiL, cL, hcLsupp,
      hcLspan⟩ := hL
    have hcTsupp : ∀ j, (if j = i then 0 else cL j) ≠ 0 →
        symbol_exists s j = true := by
      intro j hj
      by_cases hji : j = i
      · rw [if_pos hji] at hj
        exact absurd rfl hj
      · rw [if_neg hji] at hj
        rcases (hoccr j).mp (hcLsupp j hj) with he | ho
        · exact absurd he hji
        · exact ho
    have hrVexp : ∀ jq : Fin k, ∀ u, cL jq * r.V jq u
        = (if jq = i then 0 else cL jq) * s.V jq u
          - ((if jq = i then 0 else cL jq) * μ1 jq) * sv1 u
          + (if jq = i then cL i else 0) * sv1 u := by
      intro jq u
      by_cases hj : jq = i
      · subst hj
        rw [congrFun hVp1 u]
        simp
      · rw [(hrows1 jq hj).1 u]
        simp only [if_neg hj]
        ring
    have hsumL : ∀ u, (∑ jq, cL jq * r.V jq u)
        = (∑ jq, (if jq = i then 0 else cL jq) * s.V jq u)
          - (∑ jq, (if jq = i then 0 else cL jq) * μ1 jq) * sv1 u
          + cL i * sv1 u := by
      intro u
      rw [Finset.sum_congr rfl (fun jq _ => hrVexp jq u),
        Finset.sum_add_distrib, Finset.sum_sub_distrib,
        ← Finset.sum_mul, sum_if_single i (cL i) (sv1 u)]
    by_cases hκ0 : cL i - (∑ jq, (if jq = i then 0 else cL jq) * μ1 jq)
        = 0
    · exfalso
      have h2 : cL i = ∑ jq, (if jq = i then 0 else cL jq) * μ1 jq :=
        sub_eq_zero.mp hκ0
      have hptE : ∀ u, unitRow F i u
          = ∑ jq, (if jq = i then 0 else cL jq) * s.V jq u := by
        intro u
        have h1 := hcLspan u
        rw [hsumL u] at h1
        rw [h1, h2]
        ring
      have hvan := spanRows_vanish (lowerShape_of_inv hsu hsc)
        (reducedShape_of_inv hsu hsc)
        ⟨fun jq => if jq = i then 0 else cL jq, hcTsupp, hptE⟩
        (fun q hq => unitRow_off
          (fun e => by rw [e, hempi] at hq; cases hq))
      have h3 := hvan i
      rw [unitRow_diag] at h3
      exact one_ne_zero h3
    · have hκpt : ∀ u, sv1 u
          = (cL i - (∑ jq, (if jq = i then 0 else cL jq) * μ1 jq))⁻¹
            * (unitRow F i u
              - ∑ jq, (if jq = i then 0 else cL jq) * s.V jq u) := by
        intro u
        have h2 : (cL i - (∑ jq, (if jq = i then 0 else cL jq) * μ1 jq))
            * sv1 u
            = unitRow F i u
              - ∑ jq, (if jq = i then 0 else cL jq) * s.V jq u := by
          rw [hcLspan u, hsumL u]
          ring
        rw [← h2, inv_mul_cancel_left₀ hκ0]
      have hsv1M : SpanRows r2 sv1 :=
        spanRows_congr (fun u => (hκpt u).symm)
          (spanRows_smul _ (spanRows_sub hM_e
            (hMsum (fun jq => if jq = i then 0 else cL jq) hcTsupp)))
      have hsvM : SpanRows r2 sv := hsv_of_sv1 hsv1M
      rcases dwv_cases bin r2 hb (lowerShape_of_inv hsuq hscq) hmpbq sv sd
        with ⟨heqB, _⟩ | hpsB
      · -- both re-absorptions are dependent: the states agree field by field
        have heqB1 : decode bin r2 sv sd = r2 := heqB
        rw [heqB1]
        have hoccAiffL : ∀ q, symbol_exists (decode_raw bin r rd i) q
            = true ↔ (q = i ∨ symbol_exists s q = true) := by
          intro q
          show (((decode_raw bin r rd i).coded q)
              || ((decode_raw bin r rd i).uncoded q)) = true ↔ _
          rw [congrFun hcodL q, hcod1, hupd1, congrFun huncL q, hunc1]
          by_cases hq : q = i
          · subst hq
            simp [symbol_exists, Function.update_apply]
          · simp [symbol_exists, Function.update_apply, hq]
        have hInvA : Inv (decode_raw bin r rd i) :=
          decode_raw_inv bin r hb hInvr rd i
        have hInvAC := hInvA
        obtain ⟨hrkA, hnbA, hmpbA, hsuA, hscA, hezA⟩ := hInvAC
        have hCA : Consistent src (decode_raw bin r rd i) :=
          decode_raw_consistent bin r hb hInvr src hCr rd i hrd
        have hVfL : (decode_raw bin r rd i).V = r2.V := by
          funext j
          by_cases hji : j = i
          · subst hji
            rw [hViL]
            exact hVi4u.symm
          · by_cases hjs : symbol_exists s j = true
            · have hjq : symbol_exists r2 j = true :=
                (hoccq j).mpr (Or.inr hjs)
              have hjA : symbol_exists (decode_raw bin r rd i) j = true :=
                (hoccAiffL j).mpr (Or.inr hjs)
              have hsp : SpanRows r2 ((decode_raw bin r rd i).V j) := by
                have hpt : ∀ u, s.V j u - μ1 j * sv1 u
                    = (decode_raw bin r rd i).V j u := by
                  intro u
                  rw [congrFun (hrowsL j hji).1 u]
                  exact ((hrows1 j hji).1 u).symm
                exact spanRows_congr hpt
                  (spanRows_sub (hM_s j hjs) (spanRows_smul _ hsv1M))
              funext u
              refine span_eq_row (lowerShape_of_inv hsuq hscq)
                (reducedShape_of_inv hsuq hscq) hjq hsp
                (lowerShape_of_inv hsuA hscA j hjA).1 ?_ u
              intro q hq hqj
              have hqA : symbol_exists (decode_raw bin r rd i) q = true :=
                (hoccAiffL q).mpr ((hoccq q).mp hq)
              exact reducedShape_of_inv hsuA hscA j hjA q hqA hqj
            · have hjsf : symbol_exists s j = false := by
                rcases Bool.eq_false_or_eq_true (symbol_exists s j) with
                  ht | hf
                · exact absurd ht hjs
                · exact hf
              have hjqf : symbol_exists r2 j = false := by
                rcases Bool.eq_false_or_eq_true (symbol_exists r2 j) with
                  ht | hf
                · rcases (hoccq j).mp ht with he | ho
                  · exact absurd he hji
                  · exact absurd ho hjs
                · exact hf
              have hjAf : symbol_exists (decode_raw bin r rd i) j
                  = false := by
                rcases Bool.eq_false_or_eq_true
                    (symbol_exists (decode_raw bin r rd i) j) with ht | hf
                · rcases (hoccAiffL j).mp ht with he | ho
                  · exact absurd he hji
                  · exact absurd ho hjs
                · exact hf
              funext u
              rw [hezA j hjAf u, hezq j hjqf u]
        refine state_ext ?_ ?_ ?_ ?_ hVfL ?_
        · rw [hrankL, hrank1, hrank4]
        · rw [hmpL, hmp1, hmp4]
        · rw [huncL, hunc1, hunc4]
        · rw [hcodL, hcod1, hupd1, hcod4]
        · funext j
          by_cases hji : j = i
          · subst hji
            rw [hSiL]
            exact hSi4.symm
          · by_cases hjs : symbol_exists s j = true
            · have hjq : symbol_exists r2 j = true :=
                (hoccq j).mpr (Or.inr hjs)
              have hjA : symbol_exists (decode_raw bin r rd i) j = true :=
                (hoccAiffL j).mpr (Or.inr hjs)
              funext t
              rw [hCA j hjA t, hCq j hjq t]
              exact Finset.sum_congr rfl (fun u _ => by rw [hVfL])
            · have hjsf : symbol_exists s j = false := by
                rcases Bool.eq_false_or_eq_true (symbol_exists s j) with
                  ht | hf
                · exact absurd ht hjs
                · exact hf
              obtain ⟨hjc0, _⟩ := symbol_exists_false_iff.mp hjsf
              have hμ1j : μ1 j = 0 := by
                by_contra h0
                have h1 := (hμs1 j h0).1
                rw [hjc0] at h1
                cases h1
              have hμ4j : μ4 j = 0 := by
                by_contra h0
                have h1 := (hμs4 j h0).1
                rw [hjc0] at h1
                cases h1
              funext t
              rw [congrFun (hrowsL j hji).2 t, (hrows1 j hji).2 t,
                (hrows4 j hji).2 t, hμ1j, hμ4j]
              ring
      · -- the mirrored coded absorption cannot find a pivot here
        exfalso
        have hpsB1 : PivotStep r2 (decode bin r2 sv sd) sv sd := hpsB
        obtain ⟨p2, sv2, sd2, μ2, hpemp2, hgt2, hrank2, hunc2, hcod2, hmp2,
          hVp2, hSp2, hrows2, hμs2, hμf2, hsv2p, hsv2low, hsv2occ,
          γ2, c2, hγ02, hc2supp, hcombV2, hcombS2⟩ := hpsB1
        have h1 : SpanRows r2 sv2 :=
          spanRows_congr (fun u => (hcombV2 u).symm)
            (spanRows_sub (spanRows_smul γ2 hsvM)
              ⟨c2, hc2supp, fun u => rfl⟩)
        have hvan := spanRows_vanish (lowerShape_of_inv hsuq hscq)
          (reducedShape_of_inv hsuq hscq) h1
          (fun q hq => hsv2occ q hq
            (fun e => by rw [e, hpemp2] at hq; cases hq))
        have h2 := hvan p2
        rw [hsv2p] at h2
        exact one_ne_zero h2
  · -- the evicted row re-absorbed at a fresh pivot p3
    obtain ⟨p3, sv3, sd3, μ3, hip3, hpemp3, hrank3, hmp3, hunc3, hcod3,
      hVi3, hSi3, hVp3, hSp3, hrows3, hμs3, hμf3, hsv3p, hsv3low, hsv3occ,
      γ3, c3, hγ03, hc3supp, hcombV3, hcombS3⟩ := hR
    have hc3i : c3 i = 0 := by
      by_contra h0
      exact (hc3supp i h0).2 rfl
    have hsum3 : ∀ u, (∑ jq, c3 jq * r.V jq u)
        = (∑ jq, c3 jq * s.V jq u)
          - (∑ jq, c3 jq * μ1 jq) * sv1 u := by
      intro u
      have hterm : ∀ jq : Fin k, c3 jq * r.V jq u
          = c3 jq * s.V jq u - (c3 jq * μ1 jq) * sv1 u := by
        intro jq
        by_cases hj : jq = i
        · subst hj
          rw [hc3i]
          simp
        · rw [(hrows1 jq hj).1 u]
          ring
      rw [Finset.sum_congr rfl (fun jq _ => hterm jq),
        Finset.sum_sub_distrib, ← Finset.sum_mul]
    have hptA : ∀ u, sv3 u
        - ((γ3 + ∑ jq, c3 jq * μ1 jq) * γ1) * sv u
        = (-(γ3 + ∑ jq, c3 jq * μ1 jq)) * (∑ jq, c1 jq * s.V jq u)
          + (-γ3) * unitRow F i u
          + (-1) * (∑ jq, c3 jq * s.V jq u) := by
      intro u
      rw [hcombV3 u, hsum3 u, congrFun hVp1 u, hcombV1 u]
      ring
    have hc3supps : ∀ j, c3 j ≠ 0 → symbol_exists s j = true := by
      intro j hj
      rcases (hoccr j).mp (hc3supp j hj).1 with he | ho
      · exact absurd he (hc3supp j hj).2
      · exact ho
    have hmA : SpanRows r2 (fun u => sv3 u
        - ((γ3 + ∑ jq, c3 jq * μ1 jq) * γ1) * sv u) :=
      spanRows_congr (fun u => (hptA u).symm)
        (spanRows_add (spanRows_add
          (spanRows_smul _ (hMsum c1 hc1supp))
          (spanRows_smul _ hM_e))
          (spanRows_smul _ (hMsum c3 hc3supps)))
    have hvanA : ∀ q, symbol_exists r2 q = true → sv3 q = 0 := by
      intro q hq
      have hqr : symbol_exists r q = true := by
        rw [hocc_rq q]
        exact hq
      exact hsv3occ q hqr
        (fun e => by rw [e, hpemp3] at hqr; cases hqr)
    rcases dwv_cases bin r2 hb (lowerShape_of_inv hsuq hscq) hmpbq sv sd
      with ⟨heqB, hdepB⟩ | hpsB
    · -- impossible: the coded packet is independent here
      exfalso
      obtain ⟨cB, hcBsupp, hcBspan⟩ := hdepB
      have hsvM : SpanRows r2 sv := ⟨cB, hcBsupp, hcBspan⟩
      have h1 : SpanRows r2 sv3 := by
        have h2 := spanRows_add hmA
          (spanRows_smul ((γ3 + ∑ jq, c3 jq * μ1 jq) * γ1) hsvM)
        refine spanRows_congr (fun u => ?_) h2
        show sv3 u - ((γ3 + ∑ jq, c3 jq * μ1 jq) * γ1) * sv u
            + ((γ3 + ∑ jq, c3 jq * μ1 jq) * γ1) * sv u = sv3 u
        ring
      have hvan := spanRows_vanish (lowerShape_of_inv hsuq hscq)
        (reducedShape_of_inv hsuq hscq) h1 hvanA
      have h2 := hvan p3
      rw [hsv3p] at h2
      exact one_ne_zero h2
    · -- both sides find a pivot; the pivots and the new rows agree
      have hpsB1 : PivotStep r2 (decode bin r2 sv sd) sv sd := hpsB
      obtain ⟨p2, sv2, sd2, μ2, hpemp2, hgt2, hrank2, hunc2, hcod2, hmp2,
        hVp2, hSp2, hrows2, hμs2, hμf2, hsv2p, hsv2low, hsv2occ,
        γ2, c2, hγ02, hc2supp, hcombV2, hcombS2⟩ := hpsB1
      have hmB : SpanRows r2 (fun u => sv2 u - γ2 * sv u) := by
        refine ⟨fun j => -(c2 j), ?_, ?_⟩
        · intro j hj
          refine hc2supp j (fun h0 => ?_)
          simp only [h0, neg_zero] at hj
          exact hj rfl
        · intro u
          show sv2 u - γ2 * sv u = ∑ j, -(c2 j) * r2.V j u
          rw [hcombV2 u,
            show (∑ j, -(c2 j) * r2.V j u)
              = -∑ j, c2 j * r2.V j u from by
                rw [← Finset.sum_neg_distrib]
                exact Finset.sum_congr rfl (fun j _ => by ring)]
          ring
      have hvanB : ∀ q, symbol_exists r2 q = true → sv2 q = 0 :=
        fun q hq => hsv2occ q hq
          (fun e => by rw [e, hpemp2] at hq; cases hq)
      have hzM : SpanRows r2 (fun u => γ2 * sv3 u
          - ((γ3 + ∑ jq, c3 jq * μ1 jq) * γ1) * sv2 u) := by
        have h1 := spanRows_smul γ2 hmA
        have h2 := spanRows_smul ((γ3 + ∑ jq, c3 jq * μ1 jq) * γ1) hmB
        have hptz : ∀ u, γ2 * (sv3 u
            - ((γ3 + ∑ jq, c3 jq * μ1 jq) * γ1) * sv u)
            - ((γ3 + ∑ jq, c3 jq * μ1 jq) * γ1) * (sv2 u - γ2 * sv u)
            = γ2 * sv3 u
              - ((γ3 + ∑ jq, c3 jq * μ1 jq) * γ1) * sv2 u := by
          intro u
          ring
        exact spanRows_congr hptz (spanRows_sub h1 h2)
      have hz0 : ∀ u, γ2 * sv3 u
          - ((γ3 + ∑ jq, c3 jq * μ1 jq) * γ1) * sv2 u = 0 := by
        refine spanRows_vanish (lowerShape_of_inv hsuq hscq)
          (reducedShape_of_inv hsuq hscq) hzM ?_
        intro q hq
        show γ2 * sv3 q
            - ((γ3 + ∑ jq, c3 jq * μ1 jq) * γ1) * sv2 q = 0
        rw [hvanA q hq, hvanB q hq]
        ring
      have hp32 : p3 = p2 := by
        by_contra hne
        have hne2 : p3.val ≠ p2.val := fun e => hne (Fin.ext e)
        rcases Nat.lt_or_ge p3.val p2.val with hlt | hge
        · have h1 : γ2 * sv3 p3
              - ((γ3 + ∑ jq, c3 jq * μ1 jq) * γ1) * sv2 p3 = 0 := hz0 p3
          rw [hsv3p, hsv2low p3 hlt] at h1
          simp at h1
          exact hγ02 h1
        · have hlt2 : p2.val < p3.val :=
            Nat.lt_of_le_of_ne hge (Ne.symm hne2)
          have h2 : γ2 * sv3 p2
              - ((γ3 + ∑ jq, c3 jq * μ1 jq) * γ1) * sv2 p2 = 0 := hz0 p2
          rw [hsv2p, hsv3low p2 hlt2, mul_zero, mul_one, zero_sub,
            neg_eq_zero] at h2
          have h1 : γ2 * sv3 p3
              - ((γ3 + ∑ jq, c3 jq * μ1 jq) * γ1) * sv2 p3 = 0 := hz0 p3
          rw [hsv3p, h2, mul_one, zero_mul, sub_zero] at h1
          exact hγ02 h1
      have hp23 : p2 = p3 := hp32.symm
      subst hp23
      have h1 : γ2 * sv3 p2
          - ((γ3 + ∑ jq, c3 jq * μ1 jq) * γ1) * sv2 p2 = 0 := hz0 p2
      rw [hsv3p, hsv2p] at h1
      have hlam : (γ3 + ∑ jq, c3 jq * μ1 jq) * γ1 = γ2 := by
        have h2 := sub_eq_zero.mp h1
        simpa using h2.symm
      have hsv32 : ∀ u, sv3 u = sv2 u := by
        intro u
        have h3 : γ2 * sv3 u
            - ((γ3 + ∑ jq, c3 jq * μ1 jq) * γ1) * sv2 u = 0 := hz0 u
        rw [hlam] at h3
        exact mul_left_cancel₀ hγ02 (sub_eq_zero.mp h3)
      -- slot statuses around the shared pivot
      have hp2i : p2 ≠ i := fun e => by
        have h2 := (hoccq p2).mpr (Or.inl e)
        rw [hpemp2] at h2
        cases h2
      have hp2s : symbol_exists s p2 = false := by
        rcases Bool.eq_false_or_eq_true (symbol_exists s p2) with ht | hf
        · have h2 := (hoccq p2).mpr (Or.inr ht)
          rw [hpemp2] at h2
          cases h2
        · exact hf
      -- the four bookkeeping fields
      have hrankf : (decode_raw bin r rd i).rank
          = (decode bin r2 sv sd).rank := by
        rw [hrank3, hrank1, hrank2, hrank4]
      have hmpf : (decode_raw bin r rd i).max_pivot
          = (decode bin r2 sv sd).max_pivot := by
        rw [hmp3, hmp1, hmp2, hmp4]
      have huncf : (decode_raw bin r rd i).uncoded
          = (decode bin r2 sv sd).uncoded := by
        rw [hunc3, hunc1, hunc2, hunc4]
      have hcodf : (decode_raw bin r rd i).coded
          = (decode bin r2 sv sd).coded := by
        rw [hcod3, hcod1, hupd1, hcod2, hcod4]
      have hoccAB : ∀ q, symbol_exists (decode_raw bin r rd i) q
          = symbol_exists (decode bin r2 sv sd) q := by
        intro q
        show ((decode_raw bin r rd i).coded q
            || (decode_raw bin r rd i).uncoded q)
          = ((decode bin r2 sv sd).coded q
            || (decode bin r2 sv sd).uncoded q)
        rw [congrFun hcodf q, congrFun huncf q]
      have hoccB : ∀ q, symbol_exists (decode bin r2 sv sd) q = true ↔
          (q = i ∨ q = p2 ∨ symbol_exists s q = true) := by
        intro q
        show ((decode bin r2 sv sd).coded q
            || (decode bin r2 sv sd).uncoded q) = true ↔ _
        rw [congrFun hcod2 q, hcod4, congrFun hunc2 q, hunc4]
        by_cases hqi : q = i
        · subst hqi
          simp [symbol_exists, Function.update_apply]
        · by_cases hqp : q = p2
          · subst hqp
            simp [symbol_exists, Function.update_apply, hqi]
          · simp [symbol_exists, Function.update_apply, hqi, hqp]
      have hInvA : Inv (decode_raw bin r rd i) :=
        decode_raw_inv bin r hb hInvr rd i
      have hInvAC := hInvA
      obtain ⟨hrkA, hnbA, hmpbA, hsuA, hscA, hezA⟩ := hInvAC
      have hInvB : Inv (decode bin r2 sv sd) :=
        (decode_inv bin r2 hb hInvq sv sd).1
      have hInvBC := hInvB
      obtain ⟨hrkB, hnbB, hmpbB, hsuB, hscB, hezB⟩ := hInvBC
      have hCA : Consistent src (decode_raw bin r rd i) :=
        decode_raw_consistent bin r hb hInvr src hCr rd i hrd
      have hCB : Consistent src (decode bin r2 sv sd) :=
        decode_consistent bin r2 hb hInvq src hCq sv sd hgood
      have hpB2 : symbol_exists (decode bin r2 sv sd) p2 = true :=
        (hoccB p2).mpr (Or.inr (Or.inl rfl))
      -- every relevant vector lies in the span of the final rows of path B
      have hBq : ∀ a, symbol_exists r2 a = true →
          SpanRows (decode bin r2 sv sd) (r2.V a) := by
        intro a ha
        have hap : a ≠ p2 := fun e => by rw [e, hpemp2] at ha; cases ha
        have haB : symbol_exists (decode bin r2 sv sd) a = true := by
          rcases (hoccq a).mp ha with he | ho
          · exact (hoccB a).mpr (Or.inl he)
          · exact (hoccB a).mpr (Or.inr (Or.inr ho))
        have hpt : ∀ u, (decode bin r2 sv sd).V a u
            + μ2 a * (decode bin r2 sv sd).V p2 u = r2.V a u := by
          intro u
          rw [congrFun hVp2 u, (hrows2 a hap).1 u]
          ring
        exact spanRows_congr hpt
          (spanRows_add (spanRows_row haB)
            (spanRows_smul _ (spanRows_row hpB2)))
      have hBgen : ∀ x : Fin k → F, SpanRows r2 x →
          SpanRows (decode bin r2 sv sd) x :=
        fun x hx => spanRows_trans hBq hx
      have hBe : SpanRows (decode bin r2 sv sd) (unitRow F i) :=
        hBgen _ hM_e
      have hBsv : SpanRows (decode bin r2 sv sd) sv := by
        have hpt : ∀ u, γ2⁻¹ * (decode bin r2 sv sd).V p2 u
            + γ2⁻¹ * (∑ j, c2 j * r2.V j u) = sv u := by
          intro u
          rw [congrFun hVp2 u, hcombV2 u,
            show γ2⁻¹ * (γ2 * sv u - (∑ j, c2 j * r2.V j u))
                + γ2⁻¹ * (∑ j, c2 j * r2.V j u)
              = γ2⁻¹ * (γ2 * sv u) from by ring,
            inv_mul_cancel_left₀ hγ02]
        exact spanRows_congr hpt
          (spanRows_add (spanRows_smul _ (spanRows_row hpB2))
            (spanRows_smul _ (hBgen _ ⟨c2, hc2supp, fun u => rfl⟩)))
      have hBsv1 : SpanRows (decode bin r2 sv sd) sv1 :=
        spanRows_congr (fun u => (hcombV1 u).symm)
          (spanRows_sub (spanRows_smul γ1 hBsv)
            (hBgen _ (hMsum c1 hc1supp)))
      have hBr : ∀ a, symbol_exists r a = true →
          SpanRows (decode bin r2 sv sd) (r.V a) := by
        intro a ha
        by_cases hai : a = i
        · subst hai
          exact spanRows_congr (fun u => (congrFun hVp1 u).symm) hBsv1
        · have has : symbol_exists s a = true := by
            rcases (hoccr a).mp ha with he | ho
            · exact absurd he hai
            · exact ho
          exact spanRows_congr (fun u => ((hrows1 a hai).1 u).symm)
            (spanRows_sub (hBgen _ (hM_s a has))
              (spanRows_smul _ hBsv1))
      have hBsv3 : SpanRows (decode bin r2 sv sd) sv3 :=
        spanRows_congr (fun u => (hcombV3 u).symm)
          (spanRows_sub
            (spanRows_smul γ3 (spanRows_sub (hBr i hoccri) hBe))
            (spanRows_trans hBr
              ⟨c3, fun j hj => (hc3supp j hj).1, fun u => rfl⟩))
      have hVf : (decode_raw bin r rd i).V = (decode bin r2 sv sd).V := by
        funext j
        by_cases hjB : symbol_exists (decode bin r2 sv sd) j = true
        · have hjA : symbol_exists (decode_raw bin r rd i) j = true := by
            rw [hoccAB j]
            exact hjB
          have hsp : SpanRows (decode bin r2 sv sd)
              ((decode_raw bin r rd i).V j) := by
            by_cases hji : j = i
            · subst hji
              exact spanRows_congr (fun u => (congrFun hVi3 u).symm) hBe
            · by_cases hjp : j = p2
              · subst hjp
                exact spanRows_congr
                  (fun u => (congrFun hVp3 u).symm) hBsv3
              · have hjs : symbol_exists s j = true := by
                  rcases (hoccB j).mp hjB with h | h | h
                  · exact absurd h hji
                  · exact absurd h hjp
                  · exact h
                have hjr : symbol_exists r j = true :=
                  (hoccr j).mpr (Or.inr hjs)
                exact spanRows_congr
                  (fun u => ((hrows3 j hji hjp).1 u).symm)
                  (spanRows_sub (hBr j hjr) (spanRows_smul _ hBsv3))
          funext u
          refine span_eq_row (lowerShape_of_inv hsuB hscB)
            (reducedShape_of_inv hsuB hscB) hjB hsp
            (lowerShape_of_inv hsuA hscA j hjA).1 ?_ u
          intro q hq hqj
          have hqA : symbol_exists (decode_raw bin r rd i) q = true := by
            rw [hoccAB q]
            exact hq
          exact reducedShape_of_inv hsuA hscA j hjA q hqA hqj
        · have hjBf : symbol_exists (decode bin r2 sv sd) j = false := by
            rw [Bool.not_eq_true] at hjB
            exact hjB
          have hjAf : symbol_exists (decode_raw bin r rd i) j
              = false := by
            rw [hoccAB j]
            exact hjBf
          funext u
          rw [hezA j hjAf u, hezB j hjBf u]
      refine state_ext hrankf hmpf huncf hcodf hVf ?_
      funext j
      by_cases hjB : symbol_exists (decode bin r2 sv sd) j = true
      · have hjA : symbol_exists (decode_raw bin r rd i) j = true := by
          rw [hoccAB j]
          exact hjB
        funext t
        rw [hCA j hjA t, hCB j hjB t]
        exact Finset.sum_congr rfl (fun u _ => by rw [hVf])
      · have hnot : ¬(j = i ∨ j = p2 ∨ symbol_exists s j = true) :=
          fun hc => hjB ((hoccB j).mpr hc)
        push_neg at hnot
        obtain ⟨hji, hjp, hjs⟩ := hnot
        have hjsf : symbol_exists s j = false := by
          rcases Bool.eq_false_or_eq_true (symbol_exists s j) with ht | hf
          · exact absurd ht hjs
          · exact hf
        obtain ⟨hjc0, _⟩ := symbol_exists_false_iff.mp hjsf
        have hjrf : symbol_exists r j = false := by
          rcases Bool.eq_false_or_eq_true (symbol_exists r j) with
            ht | hf
          · rcases (hoccr j).mp ht with he | ho
            · exact absurd he hji
            · rw [hjsf] at ho
              cases ho
          · exact hf
        obtain ⟨hjcr, _⟩ := symbol_exists_false_iff.mp hjrf
        have hjqf : symbol_exists r2 j = false := by
          rw [← hocc_rq j]
          exact hjrf
        obtain ⟨hjcq, _⟩ := symbol_exists_false_iff.mp hjqf
        have hμ1j : μ1 j = 0 := by
          by_contra h0
          have h1 := (hμs1 j h0).1
          rw [hjc0] at h1
          cases h1
        have hμ4j : μ4 j = 0 := by
          by_contra h0
          have h1 := (hμs4 j h0).1
          rw [hjc0] at h1
          cases h1
        have hμ3j : μ3 j = 0 := by
          by_contra h0
          have h1 := (hμs3 j h0).1
          rw [hjcr] at h1
          cases h1
        have hμ2j : μ2 j = 0 := by
          by_contra h0
          have h1 := (hμs2 j h0).1
          rw [hjcq] at h1
          cases h1
        funext t
        rw [(hrows3 j hji hjp).2 t, (hrows1 j hji).2 t,
          (hrows2 j hjp).2 t, (hrows4 j hji).2 t, hμ1j, hμ2j, hμ3j, hμ4j]
        ring

/-- Witness for claim C7: GF(2), two slots, one payload bit, coded packet
(sv=11) resolving to pivot 0, then the raw source symbol 0. -/
theorem claim_C7_witness :
    BinOk (ZMod 2) true ∧ Inv (init_decoder (ZMod 2) 2 1) ∧
    Consistent srcW2 (init_decoder (ZMod 2) 2 1) ∧
    (∀ t, sdW2 t = ∑ u, svW2 u * srcW2 u t) ∧
    (∀ t, rdW2 t = srcW2 0 t) ∧
    (forward_substitute_to_pivot true (init_decoder (ZMod 2) 2 1) svW2
        sdW2).1 = some 0 ∧
    decode_raw true (decode true (init_decoder (ZMod 2) 2 1) svW2 sdW2)
        rdW2 0
      = decode true (decode_raw true (init_decoder (ZMod 2) 2 1) rdW2 0)
          svW2 sdW2 :=
  ⟨by decide, by decide, by decide, by decide, by decide, by decide,
   claim_C7 true (by decide) (init_decoder (ZMod 2) 2 1) (by decide)
     srcW2 (by decide) svW2 sdW2 rdW2 0 (by decide) (by decide)
     (by decide)⟩

/-- Claim C8: decode_raw on an empty slot i stores the payload in S[i] and
leaves V[i] equal to the elementary row e_i (this relies on the all-zero
row invariant, since store_uncoded_symbol only sets the single coefficient
at column i). -/
theorem claim_C8 (bin : Bool) (hb : BinOk F bin) (s : State F k m)
    (hInv : Inv s) (sd : Fin m → F) (i : Fin k)
    (hemp : symbol_exists s i = false) :
    (decode_raw bin s sd i).V i = unitRow F i ∧
    (decode_raw bin s sd i).S i = sd := by
  obtain ⟨hcod, hunc⟩ := symbol_exists_false_iff.mp hemp
  obtain ⟨hrk, hnb, hmp, hsu, hsc, hez⟩ := hInv
  obtain ⟨μ, hrank, huncr, hcodr, hmpr, hVi, hSi, hrows, hμsupp, hμfull⟩ :=
    raw_empty_spec bin s hb sd i hunc hcod
  have hwrow : Function.update (s.V i) i 1 = unitRow F i := by
    funext u
    by_cases hu : u = i
    · subst hu; rw [Function.update_same, unitRow_diag]
    · rw [Function.update_noteq hu, hez i hemp u, unitRow_off hu]
  exact ⟨by rw [hVi, hwrow], hSi⟩

/-- Witness for claim C8: raw insertion into the fresh one-slot decoder. -/
theorem claim_C8_witness :
    BinOk (ZMod 2) true ∧ Inv (init_decoder (ZMod 2) 1 1) ∧
    symbol_exists (init_decoder (ZMod 2) 1 1) 0 = false ∧
    ((decode_raw true (init_decoder (ZMod 2) 1 1) oneW 0).V 0
        = unitRow (ZMod 2) 0 ∧
     (decode_raw true (init_decoder (ZMod 2) 1 1) oneW 0).S 0 = oneW) :=
  ⟨by decide, by decide, by decide,
   claim_C8 true (by decide) (init_decoder (ZMod 2) 1 1) (by decide) oneW 0
     (by decide)⟩

/-- Claim C9: whenever the pivot scan of the coded-packet algorithm (also
the one run by the re-absorption inside the swap path) reports a pivot, the
residual coefficient at that pivot — the value `normalize` hands to
`FieldOps.invert` — is non-zero, and the pivot slot is empty; inversion of
zero is unreachable. -/
theorem claim_C9 (bin : Bool) (s : State F k m) (sv : Fin k → F)
    (sd : Fin m → F) (p : Fin k)
    (hfs : (forward_substitute_to_pivot bin s sv sd).1 = some p) :
    (forward_substitute_to_pivot bin s sv sd).2.1 p ≠ 0 ∧
    symbol_exists s p = false :=
  ⟨(fstpGo_some bin s (List.finRange k) sv sd p hfs).2,
   (fstpGo_some bin s (List.finRange k) sv sd p hfs).1⟩

/-- Witness for claim C9: the pivot scan on the fresh one-slot decoder with
the all-ones coefficient vector reports pivot 0. -/
theorem claim_C9_witness :
    (forward_substitute_to_pivot true (init_decoder (ZMod 2) 1 1) oneW
        oneW).1 = some 0 ∧
    ((forward_substitute_to_pivot true (init_decoder (ZMod 2) 1 1) oneW
        oneW).2.1 0 ≠ 0 ∧
     symbol_exists (init_decoder (ZMod 2) 1 1) 0 = false) :=
  ⟨by decide,
   claim_C9 true (init_decoder (ZMod 2) 1 1) oneW oneW 0 (by decide)⟩

/-- Claim C10: after initialization and after every decode or decode_raw
call, every unoccupied slot keeps an all-zero coefficient row; the raw
insertion path depends on this, since store_uncoded_symbol only sets the
single coefficient at column i — which yields the elementary row exactly
because the rest of the row is zero. -/
theorem claim_C10 (bin : Bool) (hb : BinOk F bin) (s : State F k m)
    (hInv : Inv s) (sv : Fin k → F) (sd : Fin m → F) (i : Fin k) :
    EmptyZero (init_decoder F k m) ∧
    EmptyZero (decode bin s sv sd) ∧
    EmptyZero (decode_raw bin s sd i) ∧
    (∀ j, symbol_exists s j = false →
      (store_uncoded_symbol s sd j).V j = unitRow F j) := by
  refine ⟨init_inv.2.2.2.2.2, (decode_inv bin s hb hInv sv sd).1.2.2.2.2.2,
    (decode_raw_inv bin s hb hInv sd i).2.2.2.2.2, ?_⟩
  intro j hj
  have hez := hInv.2.2.2.2.2
  have hV : (store_uncoded_symbol s sd j).V j
      = Function.update (s.V j) j 1 := Function.update_same _ _ _
  rw [hV]
  funext u
  by_cases hu : u = j
  · subst hu; rw [Function.update_same, unitRow_diag]
  · rw [Function.update_noteq hu, hez j hj u, unitRow_off hu]

/-- Witness for claim C10 at the one-slot GF(2) decoder. -/
theorem claim_C10_witness :
    BinOk (ZMod 2) true ∧ Inv t1W ∧
    (EmptyZero (init_decoder (ZMod 2) 1 1) ∧
     EmptyZero (decode true t1W oneW oneW) ∧
     EmptyZero (decode_raw true t1W oneW 0) ∧
     (∀ j, symbol_exists t1W j = false →
       (store_uncoded_symbol t1W oneW j).V j = unitRow (ZMod 2) j)) :=
  ⟨by decide, by decide,
   claim_C10 true (by decide) t1W (by decide) oneW oneW 0⟩

end Kodo
